import Mathlib

/-!
# parser_generator/main.go

A model of the AIS parser generator.  The generator reads Go struct
declarations whose fields carry `aisWidth`, `aisDependsBit` and `aisOptional`
tags, computes a minimum length for every struct and emits one `parse<Name>`
function per struct.

The development has three layers:

* the input of the generator (`AstField`, `Tag`, `TypeExpr`): a struct field as
  `go/ast` hands it over, with the tag string already split into its
  `key:"value"` pairs and the integers already converted;
* the generator itself (`scanField`, `scanFields`, `emitField`, `generate`):
  the emitted function is kept as a list of statements (`Stmt`), one
  constructor per text snippet of `main.go`;
* the meaning of the emitted statements (`execSimple`, `execStmt`, `runFunc`)
  over a payload of one-bit bytes and a cursor, with 64-bit Go integers.
-/

namespace ParserGenerator

/-! ## Go machine integers -/

/-- The modulus of the 64-bit types `uint` and `int`. -/
def two64 : Nat := 18446744073709551616

/-- The first value of `uint` whose conversion to `int` is negative. -/
def two63 : Nat := 9223372036854775808

/-- Go conversion `uint(x)`: the value modulo 2^64. -/
def uint (x : Int) : Nat := (x % (two64 : Int)).toNat

/-- Go conversion `int(x)`, also the result of wrapping 64-bit signed
arithmetic: the representative of `x` modulo 2^64 in `[-2^63, 2^63)`. -/
def int (x : Int) : Int :=
  if x % (two64 : Int) < (two63 : Int) then x % (two64 : Int)
  else x % (two64 : Int) - (two64 : Int)

/-! ## Tables of main.go -/

/-- The table `msgMap` (main.go, lines 20-48). -/
def msgMap : List (Nat × String) :=
  [ (1, "PositionReport"), (2, "PositionReport"), (3, "PositionReport"),
    (4, "BaseStationReport"), (5, "ShipStaticData"),
    (6, "AddressedBinaryMessage"), (7, "BinaryAcknowledge"),
    (8, "BinaryBroadcastMessage"),
    (9, "StandardSearchAndRescueAircraftReport"),
    (10, "CoordinatedUTCInquiry"), (11, "BaseStationReport"),
    (12, "AddessedSafetyMessage"), (13, "BinaryAcknowledge"),
    (14, "SafetyBroadcastMessage"), (15, "Interrogation"),
    (16, "AssignedModeCommand"), (17, "GnssBroadcastBinaryMessage"),
    (18, "StandardClassBPositionReport"),
    (19, "ExtendedClassBPositionReport"),
    (20, "DataLinkManagementMessage"), (21, "AidsToNavigationReport"),
    (22, "ChannelManagement"), (23, "GroupAssignmentCommand"),
    (24, "StaticDataReport"), (25, "SingleSlotBinaryMessage"),
    (26, "MultiSlotBinaryMessage"), (27, "LongRangeAisBroadcastMessage") ]

/-- The set `numberTypes` (main.go, lines 49-68). -/
def numberTypes : List String :=
  [ "ChannelManagementUnicastData", "ChannelManagementBroadcastData",
    "InterrogationStation2", "InterrogationStation1Message1",
    "InterrogationStation1Message2", "StaticDataReportA", "StaticDataReportB",
    "FieldApplicationIdentifier", "FieldETA", "FieldDimension",
    "FieldLatLonFine", "FieldLatLonCoarse", "Field10", "bool", "int16",
    "uint16", "uint32", "uint8" ]

/-! ## Input of the generator -/

/-- The type expression of a struct field, as far as lines 184-198 look at it:
an identifier, an array type (with its integer length literal, absent for a
slice, and its element identifier), or anything else. -/
inductive TypeExpr where
  | ident (name : String)
  | array (len : Option Nat) (elt : String)
  | other
  deriving DecidableEq, Repr

/-- One `key:"value"` pair of a struct tag, after `strings.Split`,
`strings.Trim` and `strconv.Atoi` (lines 205-243).  `aisDependsBit` carries
whether the value started with `~` and the integer that follows. -/
inductive Tag where
  | aisWidth (width : Int)
  | aisDependsBit (as0 : Bool) (bit : Int)
  | aisOptional
  | other (tagName : String)
  deriving DecidableEq, Repr

/-- A field of a struct declaration (`*ast.Field`): its names (none for an
embedded struct), its type and its tag (absent when the field has none). -/
structure AstField where
  names : List String
  type : TypeExpr
  tag : Option (List Tag)
  deriving DecidableEq, Repr

/-- The record `fieldType` of main.go (lines 70-81), with Go zero values as
defaults. -/
structure fieldType where
  name : String := ""
  typ : String := ""
  width : Int := 0
  isSkippable : Bool := false
  dependsBit : Int := 0
  dependsAs0 : Bool := false
  embedded : Bool := false
  isArray : Bool := false
  arrayLength : Nat := 0
  isVariableLength : Bool := false
  deriving DecidableEq, Repr

/-! ## The field scan (lines 144-260) -/

/-- The local variables of one iteration of the field loop that the tag loop
updates, together with the running `minLength`. -/
structure TagVars where
  width : Int := 0
  skippable : Bool := false
  fixedLength : Bool := false
  dependsAs0 : Bool := false
  dependsBit : Int := -1
  minLength : Nat
  deriving DecidableEq, Repr

/-- One iteration of the tag loop (lines 207-243). -/
def tagStep (v : TagVars) : Tag → TagVars
  | .aisWidth w =>
    if w < 0 then { v with width := w, fixedLength := true }
    else { v with width := w, minLength := (v.minLength + uint w) % two64 }
  | .aisDependsBit as0 b =>
    { v with dependsAs0 := as0 || v.dependsAs0, dependsBit := b }
  | .aisOptional => { v with skippable := true }
  | .other _ => v

/-- The type name, array flag and array length read off the type expression
(lines 184-198). -/
def typeInfo : TypeExpr → String × Bool × Nat
  | .ident n => (n, false, 0)
  | .array len elt => (elt, true, len.getD 0)
  | .other => ("", false, 0)

/-- One iteration of the field loop (lines 148-260): the new `minLength` and
the record appended to `fields`.  The errors are run-time panics: in the
embedded case a nil tag and a type that is not an identifier; for a named
field a tag without any `key:"value"` pair, where `strings.Split` returns one
string without a colon and `parts[1]` is out of range (line 214). -/
def scanField (minLength : Nat) (field : AstField) :
    Except String (Nat × fieldType) :=
  match field.names with
  | [] =>
    match field.tag with
    | none => .error "nil pointer dereference"
    | some tags =>
      match field.type with
      | .ident typ =>
        match tags with
        | [.aisWidth ml] =>
          .ok ((minLength + uint ml) % two64,
               { embedded := true, typ := typ, width := ml })
        | _ => .ok (minLength, { embedded := true, typ := typ, width := 0 })
      | _ => .error "interface conversion"
  | fieldName :: _ =>
    match field.tag with
    | none => .ok (minLength, { name := fieldName })
    | some tags =>
      if tags = [] then .error "index out of range"
      else
      let v := tags.foldl tagStep { minLength := minLength }
      let info := typeInfo field.type
      .ok (if v.dependsBit ≠ -1
             then (v.minLength + two64 - uint v.width) % two64
             else v.minLength,
           { name := fieldName, typ := info.1, width := v.width,
             arrayLength := info.2.2, isArray := info.2.1,
             isSkippable := v.skippable, isVariableLength := v.fixedLength,
             dependsBit := v.dependsBit, dependsAs0 := v.dependsAs0 })

/-- The field loop from a given `minLength` and list `fields`. -/
def scanFrom : Nat → List fieldType → List AstField →
    Except String (Nat × List fieldType)
  | minLength, fields, [] => .ok (minLength, fields)
  | minLength, fields, field :: rest =>
    match scanField minLength field with
    | .error e => .error e
    | .ok (m, ft) => scanFrom m (fields ++ [ft]) rest

/-- The whole field loop of one struct: `minLength` starts at 0 and `fields`
empty (lines 145-147). -/
def scanFields (astFields : List AstField) :
    Except String (Nat × List fieldType) :=
  scanFrom 0 [] astFields

/-- The test of lines 262-268: the struct name is a value of `msgMap`. -/
def isPacketType (name : String) : Bool :=
  msgMap.any (fun e => e.2 == name)

/-! ## The emitted statements -/

/-- The conversion that the emitted code applies to `num` before storing it,
one per numeric case of the switch of lines 436-490. -/
inductive NumConv where
  | latLonFine | latLonCoarse | field10 | bool | int16 | uint16 | uint32 | uint8
  deriving DecidableEq, Repr

/-- The statements the generator emits that contain no block.  Each
constructor stands for one text snippet of main.go:

* `setValid`: `p.Valid = true`
* `embed T`: `p.T = parseT(t, payload, offset)`
* `declElems n T`: `var elems [n]T`
* `elem i T`: `elems[i] = parseT(t, payload, offset)`
* `elemCheck i`: `if !elems[i].Valid { return nil }`
* `assignElems f`: `p.f = elems`
* `lengthRest`: `length = uint(len(payload)) - *offset`
* `lengthRestMinus r`: `length = uint(len(payload))-*offset - r`
* `lengthConst w`: `length = w`
* `lengthFromMin`: `length = uint(len(payload)) - minLength`
* `checkLength`: `if int(length) < 0 { return nil }`
* `sliceBytes f`: `p.f = payload[*offset:*offset+length]; *offset += length`
* `subRecord f T`: `p.f = parseT(t, payload, offset)`
* `validCheck f`: `if !p.f.Valid { return nil }`
* `extractNumber s`: `num = extractNumber(payload, s, offset, length)`
* `storeNum f c`: the assignment of `num` to `p.f` for the field type `c`
* `extractString`: `str = extractString(payload, offset, length, t.DropSpace)`
* `storeStr f`: `p.f = str`
* `finalCheck`: `if *offset > uint(len(payload)) { return nil }` -/
inductive Simple where
  | setValid
  | embed (typ : String)
  | declElems (n : Nat) (typ : String)
  | elem (i : Nat) (typ : String)
  | elemCheck (i : Nat)
  | assignElems (name : String)
  | lengthRest
  | lengthRestMinus (r : Int)
  | lengthConst (w : Int)
  | lengthFromMin
  | checkLength
  | sliceBytes (name : String)
  | subRecord (name : String) (typ : String)
  | validCheck (name : String)
  | extractNumber (isSigned : Bool)
  | storeNum (name : String) (conv : NumConv)
  | extractString
  | storeStr (name : String)
  | finalCheck
  deriving DecidableEq, Repr

/-- An emitted statement: a block-free one, or the depends-bit guard of lines
388-394 and 496-499,
`if len(payload) <= bit { return nil }; if payload[bit] == value { body }`. -/
inductive Stmt where
  | simple (s : Simple)
  | guarded (bit : Int) (value : Nat) (body : List Simple)
  deriving DecidableEq, Repr

/-- The emitted function `parse<name>`: the struct name, whether it returns a
`Packet`, the literal written into `minLength := uint(...)`, whether `num`
and `str` are declared, and the statements between the prologue and
`return p`. -/
structure ParseFunc where
  name : String
  isPacketType : Bool
  minLength : Int
  hasNumberParseable : Bool
  hasStringParseable : Bool
  body : List Stmt
  deriving DecidableEq, Repr

/-! ## The emitter (lines 315-503) -/

/-- The element types of the first array case (lines 332-336). -/
def elemArrayTypes : List String :=
  [ "AssignedModeCommandData", "BinaryAcknowledgeData",
    "DataLinkManagementMessageData" ]

/-- The sub-record types of lines 407-417, whose result is checked when the
field has a positive width. -/
def checkedSubRecords : List String :=
  [ "InterrogationStation2", "InterrogationStation1Message1",
    "InterrogationStation1Message2", "StaticDataReportA", "StaticDataReportB",
    "FieldApplicationIdentifier" ]

/-- The sub-record types of lines 427-433, stored without a check. -/
def plainSubRecords : List String :=
  [ "ChannelManagementUnicastData", "ChannelManagementBroadcastData",
    "FieldETA", "FieldDimension" ]

/-- The numeric cases of the switch (lines 436-490): the `isSigned` argument
passed to `extractNumber` and the conversion of the result. -/
def numCase : String → Option (Bool × NumConv)
  | "FieldLatLonFine" => some (true, .latLonFine)
  | "FieldLatLonCoarse" => some (true, .latLonCoarse)
  | "Field10" => some (false, .field10)
  | "bool" => some (false, .bool)
  | "int16" => some (true, .int16)
  | "uint16" => some (false, .uint16)
  | "uint32" => some (false, .uint32)
  | "uint8" => some (false, .uint8)
  | _ => none

/-- The statements of array elements `i, i+1, ...` (`count` of them) for the
loop of lines 339-349. -/
def emitElems (field : fieldType) : Nat → Nat → List Simple
  | _, 0 => []
  | i, count + 1 =>
    (Simple.elem i field.typ ::
      (if field.width > 0 ∨ i = 0 then [Simple.elemCheck i] else []))
      ++ emitElems field (i + 1) count

/-- The sum `remainingWidth` of lines 359-362: the widths of the fields
after index `fieldI`. -/
def remainingWidth (fields : List fieldType) (fieldI : Nat) : Int :=
  ((fields.drop (fieldI + 1)).map (fun f => f.width)).sum

/-- The length assignment of the `byte` case (lines 353-369). -/
def emitByteLength (fields : List fieldType) (fieldI : Nat)
    (field : fieldType) : Simple :=
  if field.width < 0 then
    if fieldI + 1 = fields.length then Simple.lengthRest
    else Simple.lengthRestMinus (remainingWidth fields fieldI)
  else Simple.lengthConst field.width

/-- The array branch (lines 327-380).  An element type outside the two cases
of the switch emits nothing. -/
def emitArray (fields : List fieldType) (fieldI : Nat) (field : fieldType) :
    List Simple :=
  if field.typ ∈ elemArrayTypes then
    Simple.declElems field.arrayLength field.typ
      :: emitElems field 0 field.arrayLength
      ++ [Simple.assignElems field.name]
  else if field.typ = "byte" then
    [emitByteLength fields fieldI field, Simple.checkLength,
     Simple.sliceBytes field.name]
  else []

/-- The length assignment of the scalar branch (lines 397-404). -/
def emitLength (field : fieldType) : Simple :=
  if field.isVariableLength then Simple.lengthFromMin
  else Simple.lengthConst field.width

/-- The switch on the field type of the scalar branch (lines 406-493); the
error is the panic of the default case. -/
def emitParse (field : fieldType) : Except String (List Simple) :=
  if field.typ ∈ checkedSubRecords then
    .ok (Simple.subRecord field.name field.typ ::
      (if field.width > 0 then [Simple.validCheck field.name] else []))
  else if field.typ ∈ plainSubRecords then
    .ok [Simple.subRecord field.name field.typ]
  else if field.typ = "string" then
    .ok [Simple.extractString, Simple.storeStr field.name]
  else
    match numCase field.typ with
    | some (isSigned, conv) =>
      .ok [Simple.extractNumber isSigned, Simple.storeNum field.name conv]
    | none => .error ("unhandled type: " ++ field.typ)

/-- The statements emitted for the field at index `fieldI` (one iteration of
the loop of lines 315-503). -/
def emitField (fields : List fieldType) (fieldI : Nat) (field : fieldType) :
    Except String (List Stmt) :=
  if field.name = "Valid" then .ok [Stmt.simple Simple.setValid]
  else if field.embedded then .ok [Stmt.simple (Simple.embed field.typ)]
  else if field.isArray then
    .ok ((emitArray fields fieldI field).map Stmt.simple)
  else
    match emitParse field with
    | .error e => .error e
    | .ok parse =>
      if field.dependsBit > 0 then
        .ok [Stmt.guarded field.dependsBit (if field.dependsAs0 then 0 else 1)
              (emitLength field :: parse)]
      else .ok ((emitLength field :: parse).map Stmt.simple)

/-- The emission loop from index `fieldI` over the remaining fields. -/
def emitFrom (fields : List fieldType) : Nat → List fieldType →
    Except String (List Stmt)
  | _, [] => .ok []
  | fieldI, field :: rest =>
    match emitField fields fieldI field with
    | .error e => .error e
    | .ok stmts =>
      match emitFrom fields (fieldI + 1) rest with
      | .error e => .error e
      | .ok more => .ok (stmts ++ more)

/-- The emission loop over all fields of a struct. -/
def emitFields (fields : List fieldType) : Except String (List Stmt) :=
  emitFrom fields 0 fields

/-- The function emitted for the struct `name` (lines 137-516), for a struct
whose name starts with an upper-case letter (line 138; other structs are
skipped): the field scan, the packet-type test, the prologue constant, the
field statements and, for a packet type, the final cursor check of lines
504-510. -/
def generate (name : String) (astFields : List AstField) :
    Except String ParseFunc :=
  match scanFields astFields with
  | .error e => .error e
  | .ok (minLength, fields) =>
    match emitFields fields with
    | .error e => .error e
    | .ok stmts =>
      .ok { name := name
            isPacketType := isPacketType name
            minLength := int minLength
            hasNumberParseable := fields.any (fun f => decide (f.typ ∈ numberTypes))
            hasStringParseable := fields.any (fun f => decide (f.typ = "string"))
            body := stmts ++
              (if isPacketType name then [Stmt.simple Simple.finalCheck]
               else []) }

/-! ## Values of the emitted code -/

/-- The value stored in a field of the struct under construction.  A
sub-record is kept as the `Valid` flag of the value its parser returned, an
array of sub-records as the list of these flags, a string as the list of its
character codes, and a `float64` as the rational it stands for. -/
inductive Value where
  | num (v : Int)
  | float (q : Rat)
  | bool (b : Bool)
  | str (codes : List Nat)
  | bytes (bits : List Nat)
  | record (valid : Bool)
  | elems (valid : List Bool)
  deriving DecidableEq, Repr

/-- The struct value `p`: its `Valid` field and the other fields assigned so
far, the latest assignment first.  The zero value `T{}` has `Valid = false`
and no assignment. -/
structure Record where
  Valid : Bool := false
  fields : List (String × Value) := []
  deriving DecidableEq, Repr

/-- The assignment `p.name = v`. -/
def Record.set (p : Record) (name : String) (v : Value) : Record :=
  { p with fields := (name, v) :: p.fields }

/-- The flag `p.name.Valid` of a sub-record field. -/
def Record.validOf (p : Record) (name : String) : Bool :=
  match p.fields.lookup name with
  | some (Value.record valid) => valid
  | _ => false

/-- The configuration `Codec` as the emitted code uses it: the fields
`DropSpace` and `FloatWithoutConversion` and the map `minValidMap` from struct
names to bit counts of type `uint`. -/
structure Codec where
  DropSpace : Bool
  FloatWithoutConversion : Bool
  minValidMap : String → Option Nat

/-- The behaviour of the functions `parse<typ>` that an emitted function
calls: from the type name, the payload and the cursor either a run-time panic
(`none`) or the `Valid` flag of the returned value and the new cursor. -/
abbrev SubParsers := String → List Nat → Nat → Option (Bool × Nat)

/-- What an emitted function does to the payload, in order: a call of
`parse<typ>` at a cursor, a call of `extractNumber` or `extractString` at a
cursor with a width, a slice expression `payload[lo:hi]`. -/
inductive Event where
  | call (typ : String) (offset : Nat)
  | read (offset : Nat) (width : Nat)
  | slice (lo : Nat) (hi : Nat)
  deriving DecidableEq, Repr

/-! ## The bit extractor -/

/-- The big-endian value of a run of bits. -/
def bitsToNat (bits : List Nat) : Nat :=
  bits.foldl (fun acc b => 2 * acc + b) 0

/-- Modelled from the spec: `extractNumber`, the bit extractor called by the
emitted code (section 4.1, `extractUnsigned` and `extractSigned`), whose
source is not part of the generator.  It reads `width` bits at `offset`,
big-endian, and advances the cursor by `width`; with `isSigned` it subtracts
`2^width` when the first extracted bit is 1.  A read that does not satisfy
`offset + width <= len(payload)` breaks the contract and is a run-time panic
(`none`). -/
def extractNumber (payload : List Nat) (isSigned : Bool) (offset width : Nat) :
    Option (Int × Nat) :=
  if offset + width ≤ payload.length then
    let bits := (payload.drop offset).take width
    let u : Int := bitsToNat bits
    some (if isSigned && decide (bits.head? = some 1) then u - 2 ^ width else u,
          offset + width)
  else none

/-- Modelled from the spec: the standard AIS six-bit alphabet of section 4.1,
as a character code: values below 32 map to `@`, `A`, ..., the others to
themselves. -/
def sixBitCode (v : Nat) : Nat := if v < 32 then v + 64 else v

/-- The codes of `count` six-bit characters read from a run of bits. -/
def sixBitCodes : Nat → List Nat → List Nat
  | 0, _ => []
  | count + 1, bits =>
    sixBitCode (bitsToNat (bits.take 6)) :: sixBitCodes count (bits.drop 6)

/-- Modelled from the spec: `extractString`, the six-bit string extractor
called by the emitted code (section 4.1, `extractSixBitString`), whose source
is not part of the generator.  It reads `width` bits as `width / 6`
characters, strips trailing spaces (code 32) when `trim` is set and advances
the cursor by `width`; a read beyond the payload is a run-time panic
(`none`). -/
def extractString (payload : List Nat) (offset width : Nat) (trim : Bool) :
    Option (List Nat × Nat) :=
  if offset + width ≤ payload.length then
    let codes := sixBitCodes (width / 6) ((payload.drop offset).take width)
    some (if trim then (codes.reverse.dropWhile (fun c => c == 32)).reverse
          else codes,
          offset + width)
  else none

/-! ## Floating-point values -/

/-- The integer nearest to a rational, the even one when two integers are
nearest. -/
def roundHalfEven (t : Rat) : Int :=
  if t - ⌊t⌋ < 1 / 2 then ⌊t⌋
  else if 1 / 2 < t - ⌊t⌋ then ⌊t⌋ + 1
  else if ⌊t⌋ % 2 = 0 then ⌊t⌋ else ⌊t⌋ + 1

/-- Modelled from the spec: the scaled fields are floating-point values
(`ScaledFloat`); their types `FieldLatLonFine`, `FieldLatLonCoarse` and
`Field10` are declared as `float64` outside the generator.  A `float64` is
kept as the rational it stands for, and `round64` is the rounding of every
`float64` operation: the nearest multiple of `2 ^ (e - 52)` for a rational
between `2 ^ e` and `2 ^ (e + 1)`, the one with an even factor when two are
nearest.  The range of the exponent is not bounded; the values of the scaled
fields are far inside the range of `float64`. -/
def round64 (q : Rat) : Rat :=
  if q = 0 then 0
  else roundHalfEven (q / 2 ^ (Int.log 2 |q| - 52)) * 2 ^ (Int.log 2 |q| - 52)

/-- The conversion `T(num)` of an `int64` to a `float64` type. -/
def f64ofInt (n : Int) : Rat := round64 n

/-- The division `x / y` of two `float64` values. -/
def f64div (x y : Rat) : Rat := round64 (x / y)

/-! ## Execution of the emitted statements -/

/-- The variables of a running emitted function: the cursor `*offset`, the
locals `length`, `num`, `str` and `elems`, the value `p`, and the events so
far. -/
structure State where
  offset : Nat
  length : Nat := 0
  num : Int := 0
  str : List Nat := []
  elems : List Bool := []
  p : Record := {}
  trace : List Event := []
  deriving DecidableEq, Repr

/-- The result of a statement: execution goes on, the function returns
(`none` is `nil`), or the run panics. -/
inductive Step where
  | next (s : State)
  | ret (r : Option Record) (s : State)
  | fault (s : State)
  deriving DecidableEq, Repr

/-- The value stored by `storeNum`: the conversion of `num` for the field
type, with the `float64` divisions `T(num) / 10000 / 60`, `T(num) / 10 / 60`
and `T(num) / 10` of the scaled types unless `FloatWithoutConversion` is set
(lines 436-490). -/
def convert (t : Codec) (num : Int) : NumConv → Value
  | .latLonFine =>
    if !t.FloatWithoutConversion then
      Value.float (f64div (f64div (f64ofInt num) 10000) 60)
    else Value.float (f64ofInt num)
  | .latLonCoarse =>
    if !t.FloatWithoutConversion then
      Value.float (f64div (f64div (f64ofInt num) 10) 60)
    else Value.float (f64ofInt num)
  | .field10 =>
    if !t.FloatWithoutConversion then Value.float (f64div (f64ofInt num) 10)
    else Value.float (f64ofInt num)
  | .bool => Value.bool (decide (num = 1))
  | .int16 =>
    Value.num (if num % 65536 < 32768 then num % 65536 else num % 65536 - 65536)
  | .uint16 => Value.num (num % 65536)
  | .uint32 => Value.num (num % 4294967296)
  | .uint8 => Value.num (num % 256)

/-- A call `parse<typ>(t, payload, offset)`: the event is recorded, the
cursor moves to where the callee left it, and `store` receives the `Valid`
flag of the result. -/
def callParser (sub : SubParsers) (payload : List Nat) (typ : String)
    (store : Bool → State → State) (s : State) : Step :=
  let s1 := { s with trace := s.trace ++ [Event.call typ s.offset] }
  match sub typ payload s.offset with
  | none => Step.fault s1
  | some (valid, offset) => Step.next (store valid { s1 with offset := offset })

/-- The meaning of a block-free statement.  `minLength` is the value of the
local constant of the prologue.  The slice expression `payload[lo:hi]` of
`sliceBytes` panics in Go when `lo > hi` or `hi > cap(payload)`; the payload
is taken as a slice whose capacity is its length. -/
def execSimple (sub : SubParsers) (t : Codec) (payload : List Nat)
    (minLength : Nat) : Simple → State → Step
  | .setValid, s => Step.next { s with p := { s.p with Valid := true } }
  | .embed typ, s =>
    callParser sub payload typ
      (fun valid s1 => { s1 with p := s1.p.set typ (Value.record valid) }) s
  | .declElems n _, s => Step.next { s with elems := List.replicate n false }
  | .elem i typ, s =>
    callParser sub payload typ
      (fun valid s1 => { s1 with elems := s1.elems.set i valid }) s
  | .elemCheck i, s =>
    if s.elems.getD i false then Step.next s else Step.ret none s
  | .assignElems name, s =>
    Step.next { s with p := s.p.set name (Value.elems s.elems) }
  | .lengthRest, s =>
    Step.next { s with length := uint ((payload.length : Int) - s.offset) }
  | .lengthRestMinus r, s =>
    Step.next { s with length := uint ((payload.length : Int) - s.offset - r) }
  | .lengthConst w, s => Step.next { s with length := uint w }
  | .lengthFromMin, s =>
    Step.next { s with length := uint ((payload.length : Int) - minLength) }
  | .checkLength, s =>
    if int s.length < 0 then Step.ret none s else Step.next s
  | .sliceBytes name, s =>
    let hi := (s.offset + s.length) % two64
    let s1 := { s with trace := s.trace ++ [Event.slice s.offset hi] }
    if s.offset ≤ hi ∧ hi ≤ payload.length then
      Step.next { s1 with
        p := s.p.set name (Value.bytes ((payload.drop s.offset).take (hi - s.offset)))
        offset := hi }
    else Step.fault s1
  | .subRecord name typ, s =>
    callParser sub payload typ
      (fun valid s1 => { s1 with p := s1.p.set name (Value.record valid) }) s
  | .validCheck name, s =>
    if s.p.validOf name then Step.next s else Step.ret none s
  | .extractNumber isSigned, s =>
    let s1 := { s with trace := s.trace ++ [Event.read s.offset s.length] }
    match extractNumber payload isSigned s.offset s.length with
    | none => Step.fault s1
    | some (num, offset) => Step.next { s1 with num := num, offset := offset }
  | .storeNum name conv, s =>
    Step.next { s with p := s.p.set name (convert t s.num conv) }
  | .extractString, s =>
    let s1 := { s with trace := s.trace ++ [Event.read s.offset s.length] }
    match extractString payload s.offset s.length t.DropSpace with
    | none => Step.fault s1
    | some (str, offset) => Step.next { s1 with str := str, offset := offset }
  | .storeStr name, s => Step.next { s with p := s.p.set name (Value.str s.str) }
  | .finalCheck, s =>
    if s.offset > payload.length then Step.ret none s else Step.next s

/-- A sequence of block-free statements: the first return or panic ends it. -/
def execSimples (sub : SubParsers) (t : Codec) (payload : List Nat)
    (minLength : Nat) : List Simple → State → Step
  | [], s => Step.next s
  | stmt :: rest, s =>
    match execSimple sub t payload minLength stmt s with
    | Step.next s1 => execSimples sub t payload minLength rest s1
    | other => other

/-- The meaning of a statement.  The guard returns `nil` when the payload
does not reach the bit, runs its body when the bit has the expected value and
does nothing otherwise. -/
def execStmt (sub : SubParsers) (t : Codec) (payload : List Nat)
    (minLength : Nat) : Stmt → State → Step
  | .simple stmt, s => execSimple sub t payload minLength stmt s
  | .guarded bit value body, s =>
    if (payload.length : Int) ≤ bit then Step.ret none s
    else if payload.get? bit.toNat = some value then
      execSimples sub t payload minLength body s
    else Step.next s

/-- A sequence of statements. -/
def execStmts (sub : SubParsers) (t : Codec) (payload : List Nat)
    (minLength : Nat) : List Stmt → State → Step
  | [], s => Step.next s
  | stmt :: rest, s =>
    match execStmt sub t payload minLength stmt s with
    | Step.next s1 => execStmts sub t payload minLength rest s1
    | other => other

/-- What a call of an emitted function leaves behind: the returned value
(`none` is `nil`), the cursor and the events, or a panic with the events up to
it. -/
inductive Outcome where
  | returned (r : Option Record) (offset : Nat) (trace : List Event)
  | panicked (trace : List Event)
  deriving DecidableEq, Repr

/-- The value of `minBitsForValid` in the prologue (lines 279-283): the entry
of `minValidMap` for the struct name, else `minLength`. -/
def minBitsForValid (t : Codec) (fn : ParseFunc) : Nat :=
  match t.minValidMap fn.name with
  | some bits => bits
  | none => uint fn.minLength

/-- The test of the prologue (line 284),
`len(payload)-int(*offset) < int(minBitsForValid)`, in 64-bit `int`. -/
def tooShort (t : Codec) (fn : ParseFunc) (payload : List Nat) (offset : Nat) :
    Bool :=
  decide (int ((payload.length : Int) - int offset) < int (minBitsForValid t fn))

/-- The value returned by the prologue when the payload is too short: `nil`
for a packet type, the untouched `p` otherwise (lines 269-271, 285). -/
def invalidResult (fn : ParseFunc) : Option Record :=
  if fn.isPacketType then none else some {}

/-- A call `parse<name>(t, payload, offset)` of an emitted function (lines
277-288 and 511-513): the prologue, the statements, `return p`. -/
def runFunc (sub : SubParsers) (t : Codec) (fn : ParseFunc)
    (payload : List Nat) (offset : Nat) : Outcome :=
  if tooShort t fn payload offset then
    Outcome.returned (invalidResult fn) offset []
  else
    match execStmts sub t payload (uint fn.minLength) fn.body
        { offset := offset } with
    | Step.next s => Outcome.returned (some s.p) s.offset s.trace
    | Step.ret r s => Outcome.returned r s.offset s.trace
    | Step.fault s => Outcome.panicked s.trace

/-! ## Observations on a run -/

/-- The state in which a step ends. -/
def Step.state : Step → State
  | Step.next s => s
  | Step.ret _ s => s
  | Step.fault s => s

/-- The cursor at which an event takes place. -/
def Event.offset : Event → Nat
  | Event.call _ offset => offset
  | Event.read offset _ => offset
  | Event.slice lo _ => lo

/-- The events of a state are those of an earlier state followed by reads
inside the payload. -/
def ReadsWithin (payload : List Nat) (before after : List Event) : Prop :=
  ∃ added, after = before ++ added ∧
    ∀ e ∈ added, ∃ o w, e = Event.read o w ∧ o + w ≤ payload.length

/-- The call events of the array elements `i, i+1, ...` (`count` of them),
element `j` being decoded at the cursor `offs j`. -/
def elemCalls (typ : String) (offs : Nat → Nat) : Nat → Nat → List Event
  | _, 0 => []
  | i, count + 1 => Event.call typ (offs i) :: elemCalls typ offs (i + 1) count

/-- Follows the spec: the length of a variable-width field at the cursor
`offset`, `(len(payload) - offset) - (sum of the widths of the fields after
it)`, as an integer. -/
def remainderLength (payload : List Nat) (offset : Nat) (remaining : Int) : Int :=
  (payload.length : Int) - offset - remaining

/-! ## Descriptions of struct fields -/

/-- The values of the `aisWidth` pairs of a tag, in order. -/
def widthTags : List Tag → List Int
  | [] => []
  | Tag.aisWidth w :: rest => w :: widthTags rest
  | _ :: rest => widthTags rest

/-- Whether a tag has an `aisDependsBit` pair. -/
def dependsTagged : List Tag → Bool
  | [] => false
  | Tag.aisDependsBit _ _ :: _ => true
  | _ :: rest => dependsTagged rest

/-- The values of the `aisDependsBit` pairs of a tag, in order. -/
def dependsBits : List Tag → List Int
  | [] => []
  | Tag.aisDependsBit _ bit :: rest => bit :: dependsBits rest
  | _ :: rest => dependsBits rest

/-- Follows the spec: the field carries an `aisDependsBit` tag (a
`dependsOnBit` rule). -/
def hasDependsTag (field : AstField) : Bool :=
  match field.tag with
  | none => false
  | some tags => dependsTagged tags

/-- Follows the spec: the `aisWidth` of a field, the value of the first
`aisWidth` pair of its tag. -/
def declaredWidth (field : AstField) : Option Int :=
  match field.tag with
  | none => none
  | some tags => (widthTags tags).head?

/-- Follows the spec: what a field adds to the structural minimum, its width
when it has no `aisDependsBit` tag and a non-variable (non-negative)
`aisWidth`, and nothing otherwise. -/
def structuralSummand (field : AstField) : Int :=
  if hasDependsTag field then 0
  else match declaredWidth field with
    | some w => if 0 ≤ w then w else 0
    | none => 0

/-- Follows the spec: the structural minimum bit length of a schema, the sum
of the widths of the fields that have no `aisDependsBit` tag and a
non-variable (non-negative) `aisWidth`. -/
def structuralMinimum (astFields : List AstField) : Int :=
  (astFields.map structuralSummand).sum

/-- A struct as the message declarations write them: an embedded field has
a tag that is a single non-negative `aisWidth` pair or has no `aisWidth` pair
at all; a named field has no tag, or a tag with at least one pair, at most
one `aisWidth` pair and at most one `aisDependsBit` pair, whose bit is not the
value -1 and which does not come with a negative width. -/
def regularField (field : AstField) : Bool :=
  match field.names, field.type, field.tag with
  | [], TypeExpr.ident _, some tags =>
    decide (widthTags tags = []) ||
      (match tags with
       | [Tag.aisWidth w] => decide (0 ≤ w)
       | _ => false)
  | [], _, _ => false
  | _ :: _, _, none => true
  | _ :: _, _, some tags =>
    decide (tags ≠ []) &&
    (match widthTags tags, dependsBits tags with
     | [], [] => true
     | [_], [] => true
     | [], [b] => decide (b ≠ -1)
     | [w], [b] => decide (b ≠ -1) && decide (0 ≤ w)
     | _, _ => false)

/-- The field types that the type switch reads with an extractor: `string`
and the numeric cases. -/
def isExtractedType (typ : String) : Bool :=
  decide (typ = "string") || (numCase typ).isSome

/-- An unconditional fixed-width field read with an extractor: a named field
of an extracted type whose tag has at least one pair, no `aisDependsBit` pair
and at most one `aisWidth` pair, which is not negative; or the field `Valid`
with a tag without a width. -/
def plainField (field : AstField) : Bool :=
  match field.names, field.type, field.tag with
  | name :: _, TypeExpr.ident typ, some tags =>
    decide (tags ≠ []) && !dependsTagged tags &&
      (if name = "Valid" then decide (widthTags tags = [])
       else isExtractedType typ &&
         (match widthTags tags with
          | [] => true
          | [w] => decide (0 ≤ w)
          | _ => false))
  | _, _, _ => false

/-- The width of a plain field as a number of bits. -/
def plainWidth (field : AstField) : Nat :=
  match field.tag with
  | some tags => ((widthTags tags).headD 0).toNat
  | none => 0

/-- The sum of the widths of a list of plain fields. -/
def totalWidth (astFields : List AstField) : Nat :=
  (astFields.map plainWidth).sum

/-- The record of an unconditional fixed-width field read with an extractor,
as the scan leaves it. -/
def PlainRecord (ft : fieldType) : Prop :=
  ft.embedded = false ∧ ft.isArray = false ∧ ft.dependsBit = -1 ∧
  ft.isVariableLength = false ∧ 0 ≤ ft.width ∧
  (ft.name = "Valid" → ft.width = 0) ∧
  (ft.name ≠ "Valid" → isExtractedType ft.typ = true)

/-! ## Example inputs -/

/-- A codec without any `minValidMap` entry. -/
def plainCodec : Codec :=
  { DropSpace := false, FloatWithoutConversion := false, minValidMap := fun _ => none }

/-- Sub-parsers that consume nothing and return a valid value. -/
def validSub : SubParsers := fun _ _ offset => some (true, offset)

/-- A struct in the style of the message declarations: an embedded header of
38 bits, the `Valid` field and two fixed-width fields. -/
def smallMessage : List AstField :=
  [ { names := [], type := .ident "Header", tag := some [.aisWidth 38] },
    { names := ["Valid"], type := .ident "bool", tag := some [.other "aisEncodeMaxLen"] },
    { names := ["Spare"], type := .ident "uint8", tag := some [.aisWidth 2] },
    { names := ["DestinationID"], type := .ident "uint32", tag := some [.aisWidth 30] } ]

/-- The records the field scan produces for `smallMessage`. -/
def smallMessageFields : List fieldType :=
  [ { embedded := true, typ := "Header", width := 38 },
    { name := "Valid", typ := "bool", dependsBit := -1 },
    { name := "Spare", typ := "uint8", width := 2, dependsBit := -1 },
    { name := "DestinationID", typ := "uint32", width := 30, dependsBit := -1 } ]

/-- The function emitted for `smallMessage` under the packet-type name
`BinaryAcknowledge`. -/
def smallMessageFunc : ParseFunc :=
  { name := "BinaryAcknowledge"
    isPacketType := true
    minLength := 70
    hasNumberParseable := true
    hasStringParseable := false
    body :=
      [ .simple (.embed "Header"), .simple .setValid,
        .simple (.lengthConst 2), .simple (.extractNumber false),
        .simple (.storeNum "Spare" .uint8),
        .simple (.lengthConst 30), .simple (.extractNumber false),
        .simple (.storeNum "DestinationID" .uint32),
        .simple .finalCheck ] }

/-- A struct with one conditional field of variable width: the text is
present when bit 5 is set and takes the remaining bits,
`Text string aisWidth:"-1" aisDependsBit:"5"`. -/
def conditionalText : List AstField :=
  [ { names := ["Text"], type := .ident "string",
      tag := some [.aisWidth (-1), .aisDependsBit false 5] } ]

/-- A conditional field in the style of the binary messages:
`DestinationID uint32 aisWidth:"30" aisDependsBit:"38"`, as the scan records
it. -/
def destinationField : fieldType :=
  { name := "DestinationID", typ := "uint32", width := 30, dependsBit := 38 }

/-- A payload of 80 bits whose bit 38 is set. -/
def payloadBit38 : List Nat :=
  List.replicate 38 0 ++ [1] ++ List.replicate 41 0

/-- A struct whose only field depends on bit 0:
`Flagged uint8 aisWidth:"8" aisDependsBit:"0"`. -/
def bitZeroStruct : List AstField :=
  [ { names := ["Flagged"], type := .ident "uint8",
      tag := some [.aisWidth 8, .aisDependsBit false 0] } ]

/-- The function emitted for `bitZeroStruct`: no guard around the read. -/
def bitZeroFunc : ParseFunc :=
  { name := "FlaggedData"
    isPacketType := false
    minLength := 0
    hasNumberParseable := true
    hasStringParseable := false
    body := [ .simple (.lengthConst 8), .simple (.extractNumber false),
              .simple (.storeNum "Flagged" .uint8) ] }

/-- A struct whose only field is a byte array that depends on bit 10:
`Data []byte aisWidth:"4" aisDependsBit:"10"`. -/
def conditionalBytes : List AstField :=
  [ { names := ["Data"], type := .array none "byte",
      tag := some [.aisWidth 4, .aisDependsBit false 10] } ]

/-- The function emitted for `conditionalBytes` under the packet-type name
`BinaryBroadcastMessage`: no guard around the slice. -/
def conditionalBytesFunc : ParseFunc :=
  { name := "BinaryBroadcastMessage"
    isPacketType := true
    minLength := 0
    hasNumberParseable := false
    hasStringParseable := false
    body := [ .simple (.lengthConst 4), .simple .checkLength,
              .simple (.sliceBytes "Data"), .simple .finalCheck ] }

/-- A struct with a conditional field before an unconditional one:
`Extra uint8 aisWidth:"8" aisDependsBit:"1"` and `Rest uint8 aisWidth:"8"`. -/
def conditionalThenFixed : List AstField :=
  [ { names := ["Extra"], type := .ident "uint8",
      tag := some [.aisWidth 8, .aisDependsBit false 1] },
    { names := ["Rest"], type := .ident "uint8", tag := some [.aisWidth 8] } ]

/-- The function emitted for `conditionalThenFixed` under the packet-type
name `SingleSlotBinaryMessage`; its minimum length is the width of `Rest`
alone. -/
def conditionalThenFixedFunc : ParseFunc :=
  { name := "SingleSlotBinaryMessage"
    isPacketType := true
    minLength := 8
    hasNumberParseable := true
    hasStringParseable := false
    body :=
      [ .guarded 1 1 [.lengthConst 8, .extractNumber false, .storeNum "Extra" .uint8],
        .simple (.lengthConst 8), .simple (.extractNumber false),
        .simple (.storeNum "Rest" .uint8), .simple .finalCheck ] }

/-- A struct of plain fields only. -/
def plainStruct : List AstField :=
  [ { names := ["Valid"], type := .ident "bool", tag := some [.other "aisEncodeMaxLen"] },
    { names := ["Spare"], type := .ident "uint8", tag := some [.aisWidth 2] },
    { names := ["Name"], type := .ident "string", tag := some [.aisWidth 12] } ]

/-- The function emitted for `plainStruct`. -/
def plainStructFunc : ParseFunc :=
  { name := "NamedData"
    isPacketType := false
    minLength := 14
    hasNumberParseable := true
    hasStringParseable := true
    body :=
      [ .simple .setValid,
        .simple (.lengthConst 2), .simple (.extractNumber false),
        .simple (.storeNum "Spare" .uint8),
        .simple (.lengthConst 12), .simple .extractString,
        .simple (.storeStr "Name") ] }

/-- An array of three acknowledgement slots that must all be valid:
`Destinations [3]BinaryAcknowledgeData aisWidth:"32"`, as the scan records
it. -/
def requiredSlots : fieldType :=
  { name := "Destinations", typ := "BinaryAcknowledgeData", width := 32,
    isArray := true, arrayLength := 3, dependsBit := -1 }

/-- Sub-parsers for slots of 32 bits: a slot that fits into the payload is
valid and moves the cursor by 32; otherwise the result is invalid and the
cursor stays. -/
def slotSub : SubParsers := fun _ payload offset =>
  if offset + 32 ≤ payload.length then some (true, offset + 32)
  else some (false, offset)

/-- The cursors of the slots in a payload of 40 bits: the first slot starts
at 0, the later ones at 32, where the second one fails. -/
def slotOffsets : Nat → Nat := fun j => if j = 0 then 0 else 32

/-- The statements emitted for `requiredSlots`. -/
def requiredSlotsStmts : List Stmt :=
  [ .simple (.declElems 3 "BinaryAcknowledgeData"),
    .simple (.elem 0 "BinaryAcknowledgeData"), .simple (.elemCheck 0),
    .simple (.elem 1 "BinaryAcknowledgeData"), .simple (.elemCheck 1),
    .simple (.elem 2 "BinaryAcknowledgeData"), .simple (.elemCheck 2),
    .simple (.assignElems "Destinations") ]

/-- A struct with an array of three slots of width 0:
`Destinations [3]BinaryAcknowledgeData aisWidth:"0"`. -/
def optionalSlotsStruct : List AstField :=
  [ { names := ["Destinations"], type := .array (some 3) "BinaryAcknowledgeData",
      tag := some [.aisWidth 0] } ]

/-- The function emitted for `optionalSlotsStruct` under the packet-type
name `BinaryAcknowledge`: only the first element is checked. -/
def optionalSlotsFunc : ParseFunc :=
  { name := "BinaryAcknowledge"
    isPacketType := true
    minLength := 0
    hasNumberParseable := false
    hasStringParseable := false
    body :=
      [ .simple (.declElems 3 "BinaryAcknowledgeData"),
        .simple (.elem 0 "BinaryAcknowledgeData"), .simple (.elemCheck 0),
        .simple (.elem 1 "BinaryAcknowledgeData"),
        .simple (.elem 2 "BinaryAcknowledgeData"),
        .simple (.assignElems "Destinations"), .simple .finalCheck ] }

/-- Sub-parsers whose result is always invalid and that leave the cursor
where it is. -/
def invalidSub : SubParsers := fun _ _ offset => some (false, offset)

/-- A sub-record field that must be valid:
`ApplicationID FieldApplicationIdentifier aisWidth:"16"`, as the scan records
it. -/
def applicationField : fieldType :=
  { name := "ApplicationID", typ := "FieldApplicationIdentifier", width := 16,
    dependsBit := -1 }

/-- The tail of a binary message: a byte array of variable width followed by
a spare field of 4 bits, `Payload []byte aisWidth:"-1"` and
`Spare2 uint8 aisWidth:"4"`, as the scan records them. -/
def binaryTail : List fieldType :=
  [ { name := "Payload", typ := "byte", width := -1, isArray := true,
      isVariableLength := true, dependsBit := -1 },
    { name := "Spare2", typ := "uint8", width := 4, dependsBit := -1 } ]

/-- A struct whose only field is a text of variable width:
`Text string aisWidth:"-1"`. -/
def trailingText : List AstField :=
  [ { names := ["Text"], type := .ident "string", tag := some [.aisWidth (-1)] } ]

/-- The function emitted for `trailingText`: the length is taken from the
payload length and `minLength`, not from the cursor. -/
def trailingTextFunc : ParseFunc :=
  { name := "TextData"
    isPacketType := false
    minLength := 0
    hasNumberParseable := false
    hasStringParseable := true
    body := [ .simple .lengthFromMin, .simple .extractString,
              .simple (.storeStr "Text") ] }

/-- A packet struct that ends with an embedded communication state of 20
bits: `Valid bool` and `CommunicationStateNoItdma aisWidth:"20"`. -/
def stateMessage : List AstField :=
  [ { names := ["Valid"], type := .ident "bool", tag := some [.other "aisEncodeMaxLen"] },
    { names := [], type := .ident "CommunicationStateNoItdma", tag := some [.aisWidth 20] } ]

/-- The records the scan produces for `stateMessage`. -/
def stateMessageFields : List fieldType :=
  [ { name := "Valid", typ := "bool", dependsBit := -1 },
    { embedded := true, typ := "CommunicationStateNoItdma", width := 20 } ]

/-- The statements emitted for the fields of `stateMessage`. -/
def stateMessageStmts : List Stmt :=
  [ .simple .setValid, .simple (.embed "CommunicationStateNoItdma") ]

/-- The function emitted for `stateMessage` under the packet-type name
`CoordinatedUTCInquiry`. -/
def stateMessageFunc : ParseFunc :=
  { name := "CoordinatedUTCInquiry"
    isPacketType := true
    minLength := 20
    hasNumberParseable := true
    hasStringParseable := false
    body := stateMessageStmts ++ [.simple .finalCheck] }

/-- Sub-parsers that take 30 bits whatever the payload holds. -/
def greedySub : SubParsers := fun _ _ offset => some (true, offset + 30)

/-- An array of three sub-records of a type outside the two array cases:
`Arrivals [3]FieldETA aisWidth:"20"`, as the scan records it. -/
def etaArray : fieldType :=
  { name := "Arrivals", typ := "FieldETA", width := 20, isArray := true,
    arrayLength := 3, dependsBit := -1 }

/-- A struct with a sub-record of an unchecked type, a sub-record of a
checked type with width 0, and a fixed-width field:
`Eta FieldETA aisWidth:"20"`, `Station2 InterrogationStation2 aisWidth:"0"`
and `Spare uint8 aisWidth:"2"`. -/
def uncheckedSubRecords : List AstField :=
  [ { names := ["Eta"], type := .ident "FieldETA", tag := some [.aisWidth 20] },
    { names := ["Station2"], type := .ident "InterrogationStation2",
      tag := some [.aisWidth 0] },
    { names := ["Spare"], type := .ident "uint8", tag := some [.aisWidth 2] } ]

/-- The function emitted for `uncheckedSubRecords`: no test of `Valid`. -/
def uncheckedSubRecordsFunc : ParseFunc :=
  { name := "VoyageData"
    isPacketType := false
    minLength := 22
    hasNumberParseable := true
    hasStringParseable := false
    body :=
      [ .simple (.lengthConst 20), .simple (.subRecord "Eta" "FieldETA"),
        .simple (.lengthConst 0),
        .simple (.subRecord "Station2" "InterrogationStation2"),
        .simple (.lengthConst 2), .simple (.extractNumber false),
        .simple (.storeNum "Spare" .uint8) ] }

/-- The type name of a field whose type is an identifier. -/
def typeName (field : AstField) : String :=
  match field.type with
  | TypeExpr.ident typ => typ
  | _ => ""

/-- An unconditional fixed-width field decoded by a sub-parser: an embedded
struct whose tag is a single non-negative `aisWidth` pair, or a named field
of one of the sub-record types of the type switch whose tag has at least one
pair, no `aisDependsBit` pair and at most one `aisWidth` pair, which is not
negative. -/
def subParserField (field : AstField) : Bool :=
  match field.names, field.type, field.tag with
  | [], TypeExpr.ident _, some [Tag.aisWidth w] => decide (0 ≤ w)
  | name :: _, TypeExpr.ident typ, some tags =>
    decide (tags ≠ []) && !dependsTagged tags && decide (name ≠ "Valid") &&
      (decide (typ ∈ checkedSubRecords) || decide (typ ∈ plainSubRecords)) &&
      (match widthTags tags with
       | [] => true
       | [w] => decide (0 ≤ w)
       | _ => false)
  | _, _, _ => false

/-- The record of an unconditional fixed-width field decoded by a
sub-parser, as the scan leaves it. -/
def SubParserRecord (ft : fieldType) : Prop :=
  ft.name ≠ "Valid" ∧ 0 ≤ ft.width ∧
  (ft.embedded = true ∨
    (ft.embedded = false ∧ ft.isArray = false ∧ ft.dependsBit = -1 ∧
     ft.isVariableLength = false ∧
     (ft.typ ∈ checkedSubRecords ∨ ft.typ ∈ plainSubRecords)))

/-- The sub-parser for the type `typ` consumes exactly `width` bits whenever
they are there: called at a cursor with `offset + width <= len(payload)` it
returns with the cursor at `offset + width`. -/
def ConsumesWidth (sub : SubParsers) (payload : List Nat) (typ : String)
    (width : Nat) : Prop :=
  ∀ offset, offset + width ≤ payload.length →
    ∃ valid, sub typ payload offset = some (valid, offset + width)

/-- The events of a state are those of an earlier state followed by reads
inside the payload and by calls of sub-parsers at cursors inside the
payload. -/
def EventsWithin (payload : List Nat) (before after : List Event) : Prop :=
  ∃ added, after = before ++ added ∧
    ∀ e ∈ added, (∃ o w, e = Event.read o w ∧ o + w ≤ payload.length)
      ∨ (∃ typ o, e = Event.call typ o ∧ o ≤ payload.length)

/-- A record that is decoded in exactly its declared width: a plain record,
or the record of a sub-parser field whose sub-parser consumes the declared
width. -/
def ExactRecord (sub : SubParsers) (payload : List Nat) (ft : fieldType) : Prop :=
  PlainRecord ft ∨
    (SubParserRecord ft ∧ ConsumesWidth sub payload ft.typ ft.width.toNat)

/-- Sub-parsers that consume 38 bits for a `Header` and 19 bits for every
other type when they are there, and fail without moving the cursor
otherwise. -/
def fixedSub : SubParsers := fun typ payload offset =>
  if typ = "Header" then
    if offset + 38 ≤ payload.length then some (true, offset + 38)
    else some (false, offset)
  else
    if offset + 19 ≤ payload.length then some (true, offset + 19)
    else some (false, offset)
/-- A step that goes on with the cursor advanced by `width`, or returns
`nil`, and whose new events lie inside the payload. -/
def AdvancesOrReturns (payload : List Nat) (s : State) (width : Nat)
    (step : Step) : Prop :=
  (∃ s1, step = Step.next s1 ∧ s1.offset = s.offset + width
      ∧ EventsWithin payload s.trace s1.trace)
  ∨ (∃ s1, step = Step.ret none s1 ∧ EventsWithin payload s.trace s1.trace)
/-- An unconditional field of fixed width: a plain field or a sub-parser
field. -/
def exactField (field : AstField) : Bool :=
  plainField field || subParserField field

/-- A struct in the style of the position reports: an embedded header, the
`Valid` field, two fixed-width fields and an embedded communication state. -/
def reportMessage : List AstField :=
  [ { names := [], type := .ident "Header", tag := some [.aisWidth 38] },
    { names := ["Valid"], type := .ident "bool", tag := some [.other "aisEncodeMaxLen"] },
    { names := ["Spare"], type := .ident "uint8", tag := some [.aisWidth 2] },
    { names := ["Raim"], type := .ident "bool", tag := some [.aisWidth 1] },
    { names := [], type := .ident "CommunicationStateNoItdma",
      tag := some [.aisWidth 19] } ]

/-- The function emitted for `reportMessage` under the packet-type name
`PositionReport`. -/
def reportMessageFunc : ParseFunc :=
  { name := "PositionReport"
    isPacketType := true
    minLength := 60
    hasNumberParseable := true
    hasStringParseable := false
    body :=
      [ .simple (.embed "Header"), .simple .setValid,
        .simple (.lengthConst 2), .simple (.extractNumber false),
        .simple (.storeNum "Spare" .uint8),
        .simple (.lengthConst 1), .simple (.extractNumber false),
        .simple (.storeNum "Raim" .bool),
        .simple (.embed "CommunicationStateNoItdma"),
        .simple .finalCheck ] }

/-! ## The dispatch table (lines 109-120) -/

/-- The entries written into the emitted map `mapper`, in the order of the
loop `for i := 1; i < 28; i++`: the identifier and the name of the bound
function, `parse` followed by `msgMap[i]`, for every `i` that is a key of
`msgMap`. -/
def mapperEntries : List (Nat × String) :=
  (List.range' 1 27).filterMap (fun i =>
    (msgMap.lookup i).map (fun name => (i, "parse" ++ name)))

/-! ## Failure returns -/

/-- Whether a block-free statement contains a `return nil` (lines 345, 373,
423 and 507). -/
def Simple.returnsNil : Simple → Bool
  | .elemCheck _ => true
  | .checkLength => true
  | .validCheck _ => true
  | .finalCheck => true
  | _ => false

/-- Whether a statement contains a `return nil`; the depends-bit guard does
(line 391). -/
def Stmt.returnsNil : Stmt → Bool
  | .simple stmt => stmt.returnsNil
  | .guarded _ _ _ => true

/-- The emitted function agrees with its return type: a `return nil` stands
in it only when its return type is `Packet`.  A function that returns the
struct type and contains `return nil` is rejected by the Go compiler. -/
def ParseFunc.returnsTyped (fn : ParseFunc) : Bool :=
  fn.isPacketType || fn.body.all (fun stmt => !stmt.returnsNil)

/-- The value returned by a call that ends at a failure return, that is, at
a return other than the final `return p`: the return of the prologue or a
return inside the field statements.  `none` when the call ends otherwise. -/
def failureReturn (sub : SubParsers) (t : Codec) (fn : ParseFunc)
    (payload : List Nat) (offset : Nat) : Option (Option Record) :=
  if tooShort t fn payload offset then some (invalidResult fn)
  else
    match execStmts sub t payload (uint fn.minLength) fn.body
        { offset := offset } with
    | Step.ret r _ => some r
    | _ => none

/-! ## Fields marked `aisOptional` -/

/-- A tag without its `aisOptional` pairs. -/
def withoutOptional : List Tag → List Tag
  | [] => []
  | Tag.aisOptional :: rest => withoutOptional rest
  | tag :: rest => tag :: withoutOptional rest

/-- A named field without the `aisOptional` pairs of its tag; an embedded
field as it is. -/
def dropOptional (field : AstField) : AstField :=
  match field.names with
  | [] => field
  | _ :: _ => { field with tag := field.tag.map withoutOptional }

/-- A record of the scan with `isSkippable` reset. -/
def clearSkippable (ft : fieldType) : fieldType :=
  { ft with isSkippable := false }

/-- A tag in which every `aisOptional` pair is replaced by an
`aisEncodeMaxLen` pair, the pair that the tag loop passes over (lines
240-243). -/
def replaceOptional : List Tag → List Tag
  | [] => []
  | Tag.aisOptional :: rest => Tag.other "aisEncodeMaxLen" :: replaceOptional rest
  | tag :: rest => tag :: replaceOptional rest

/-- A named field in whose tag every `aisOptional` pair is replaced by an
`aisEncodeMaxLen` pair; an embedded field as it is. -/
def unmarkOptional (field : AstField) : AstField :=
  match field.names with
  | [] => field
  | _ :: _ => { field with tag := field.tag.map replaceOptional }

/-- A field that keeps a pair when its `aisOptional` pairs are taken away:
the tag of a named field has a pair other than `aisOptional`. -/
def keepsPair (field : AstField) : Bool :=
  match field.names, field.tag with
  | _ :: _, some tags => decide (withoutOptional tags ≠ [])
  | _, _ => true

/-- A packet struct whose last field has no pair but the mark:
`Valid bool`, `Spare uint8 aisWidth:"2"` and `Extra uint8 aisOptional:"true"`. -/
def markOnly : List AstField :=
  [ { names := ["Valid"], type := .ident "bool", tag := some [.other "aisEncodeMaxLen"] },
    { names := ["Spare"], type := .ident "uint8", tag := some [.aisWidth 2] },
    { names := ["Extra"], type := .ident "uint8", tag := some [.aisOptional] } ]

/-- A packet struct whose last field is marked optional: `Valid bool`,
`Spare uint8 aisWidth:"2"` and `Extra uint8 aisWidth:"8" aisOptional:"true"`. -/
def optionalTail : List AstField :=
  [ { names := ["Valid"], type := .ident "bool", tag := some [.other "aisEncodeMaxLen"] },
    { names := ["Spare"], type := .ident "uint8", tag := some [.aisWidth 2] },
    { names := ["Extra"], type := .ident "uint8",
      tag := some [.aisWidth 8, .aisOptional] } ]

/-- The function emitted for `optionalTail` under the packet-type name
`SafetyBroadcastMessage`: the minimum length includes the 8 bits of `Extra`
and `Extra` is read without any test. -/
def optionalTailFunc : ParseFunc :=
  { name := "SafetyBroadcastMessage"
    isPacketType := true
    minLength := 10
    hasNumberParseable := true
    hasStringParseable := false
    body :=
      [ .simple .setValid,
        .simple (.lengthConst 2), .simple (.extractNumber false),
        .simple (.storeNum "Spare" .uint8),
        .simple (.lengthConst 8), .simple (.extractNumber false),
        .simple (.storeNum "Extra" .uint8),
        .simple .finalCheck ] }

/-! ## Scaled fields -/

/-- Follows the spec: the scale factor `k` of a scaled field type, 600000
for `FieldLatLonFine`, 600 for `FieldLatLonCoarse` and 10 for `Field10`. -/
def scaleFactor : String → Option Nat
  | "FieldLatLonFine" => some 600000
  | "FieldLatLonCoarse" => some 600
  | "Field10" => some 10
  | _ => none

/-- A latitude in the style of the position reports:
`Latitude FieldLatLonFine aisWidth:"27"`, as the scan records it. -/
def latitudeField : fieldType :=
  { name := "Latitude", typ := "FieldLatLonFine", width := 27, dependsBit := -1 }

/-- A payload of 27 bits that are all set but the last two: the signed
value -4. -/
def payloadMinusFour : List Nat :=
  List.replicate 25 1 ++ [0, 0]

/-! ## Types without a decode case -/

/-- A struct whose only field is an array of three sub-records of a type
outside the two array cases: `Arrivals [3]FieldETA aisWidth:"20"`. -/
def arrivals : List AstField :=
  [ { names := ["Arrivals"], type := .array (some 3) "FieldETA",
      tag := some [.aisWidth 20] } ]

/-- The function emitted for `arrivals`: no statement at all. -/
def arrivalsFunc : ParseFunc :=
  { name := "ArrivalData"
    isPacketType := false
    minLength := 20
    hasNumberParseable := true
    hasStringParseable := false
    body := [] }

/-- A struct whose only field is a scalar of a type outside the type switch:
`Draught FieldDraught aisWidth:"8"`. -/
def draughtScalar : List AstField :=
  [ { names := ["Draught"], type := .ident "FieldDraught", tag := some [.aisWidth 8] } ]

/-- A struct whose only field is an array of the same type:
`Draughts [2]FieldDraught aisWidth:"8"`. -/
def draughtArray : List AstField :=
  [ { names := ["Draughts"], type := .array (some 2) "FieldDraught",
      tag := some [.aisWidth 8] } ]

/-! ## String fields -/

/-- A struct whose only field is a string of 7 bits:
`Name string aisWidth:"7"`. -/
def oddText : List AstField :=
  [ { names := ["Name"], type := .ident "string", tag := some [.aisWidth 7] } ]

/-- The record the scan produces for the field of `oddText`. -/
def oddTextField : fieldType :=
  { name := "Name", typ := "string", width := 7, dependsBit := -1 }

/-- The function emitted for `oddText`. -/
def oddTextFunc : ParseFunc :=
  { name := "NamedData"
    isPacketType := false
    minLength := 7
    hasNumberParseable := false
    hasStringParseable := true
    body := [ .simple (.lengthConst 7), .simple .extractString,
              .simple (.storeStr "Name") ] }

/-! ## The depends-bit guard and the minimum length -/

/-- Whether a statement is the depends-bit guard. -/
def Stmt.isGuard : Stmt → Bool
  | .guarded _ _ _ => true
  | .simple _ => false

/-- Whether a list of statements contains the depends-bit guard. -/
def hasGuard (stmts : List Stmt) : Bool :=
  stmts.any Stmt.isGuard

/-- The condition of line 245 under which the scan takes the width of a
named field with a tag out of `minLength` again, on the record of the
field. -/
def removesWidth (ft : fieldType) : Bool :=
  decide (ft.dependsBit ≠ -1)

/-- The record the scan produces for the field of `bitZeroStruct`. -/
def flaggedField : fieldType :=
  { name := "Flagged", typ := "uint8", width := 8, dependsBit := 0 }

/-- The record the scan produces for the field of `conditionalBytes`. -/
def dataField : fieldType :=
  { name := "Data", typ := "byte", width := 4, isArray := true, dependsBit := 10 }

/-! ## The cursor after a struct of plain fields -/

/-- A struct whose field `Valid` carries a width: `Valid bool aisWidth:"1"`
and `Spare uint8 aisWidth:"2"`. -/
def wideValid : List AstField :=
  [ { names := ["Valid"], type := .ident "bool", tag := some [.aisWidth 1] },
    { names := ["Spare"], type := .ident "uint8", tag := some [.aisWidth 2] } ]

/-- The function emitted for `wideValid`: the minimum length counts the bit
of `Valid`, which is set without a read. -/
def wideValidFunc : ParseFunc :=
  { name := "FlagData"
    isPacketType := false
    minLength := 3
    hasNumberParseable := true
    hasStringParseable := false
    body :=
      [ .simple .setValid,
        .simple (.lengthConst 2), .simple (.extractNumber false),
        .simple (.storeNum "Spare" .uint8) ] }

/-! ## Signed and unsigned reads -/

/-- Follows the spec: the field types read as signed integers. -/
def signedTypes : List String :=
  [ "int16", "FieldLatLonFine", "FieldLatLonCoarse" ]

/-- Follows the spec: the field types read as unsigned integers. -/
def unsignedTypes : List String :=
  [ "bool", "uint8", "uint16", "uint32", "Field10" ]

/-- The block-free statements of a list of statements, those inside the
guards included, in order. -/
def simplesOf : List Stmt → List Simple
  | [] => []
  | Stmt.simple stmt :: rest => stmt :: simplesOf rest
  | Stmt.guarded _ _ body :: rest => body ++ simplesOf rest

/-- A flag in the style of the position reports: `Raim bool aisWidth:"1"`,
as the scan records it. -/
def raimField : fieldType :=
  { name := "Raim", typ := "bool", width := 1, dependsBit := -1 }

/-- A struct whose only field is an array of two signed numbers:
`Samples [2]int16 aisWidth:"16"`. -/
def samples : List AstField :=
  [ { names := ["Samples"], type := .array (some 2) "int16",
      tag := some [.aisWidth 16] } ]

/-- The function emitted for `samples`: no statement at all. -/
def samplesFunc : ParseFunc :=
  { name := "SampleData"
    isPacketType := false
    minLength := 16
    hasNumberParseable := true
    hasStringParseable := false
    body := [] }

/-! # Theorems -/

/-! ## Machine integers -/

theorem two64_eq : (two64 : Int) = 18446744073709551616 := by simp [two64]
theorem two63_eq : (two63 : Int) = 9223372036854775808 := by simp [two63]

theorem int_eq_self (x : Int) (hlo : -(two63 : Int) ≤ x) (hhi : x < two63) :
    int x = x := by
  have h64 := two64_eq
  have h63 := two63_eq
  unfold int
  by_cases hx : 0 ≤ x
  · have hm : x % (two64 : Int) = x := Int.emod_eq_of_lt hx (by omega)
    rw [hm, if_pos hhi]
  · have hm : x % (two64 : Int) = x + two64 := by
      have h1 : (x + two64) % (two64 : Int) = x + two64 :=
        Int.emod_eq_of_lt (by omega) (by omega)
      rw [← h1, Int.add_emod_self]
    rw [hm, if_neg (by omega)]
    omega

theorem uint_lt (x : Int) : uint x < two64 := by
  unfold uint
  have h64 := two64_eq
  have h1 : 0 ≤ x % (two64 : Int) := Int.emod_nonneg _ (by omega)
  have h2 : x % (two64 : Int) < two64 := Int.emod_lt_of_pos _ (by omega)
  omega

theorem uint_natCast (n : Nat) (h : n < two64) : uint (n : Int) = n := by
  unfold uint
  have h64 := two64_eq
  rw [Int.emod_eq_of_lt (by omega) (by omega)]
  simp

theorem uint_cast_emod (x : Int) : ((uint x : Nat) : Int) = x % (two64 : Int) := by
  unfold uint
  have h64 := two64_eq
  have h1 : 0 ≤ x % (two64 : Int) := Int.emod_nonneg _ (by omega)
  omega

theorem int_emod (x : Int) : int (x % (two64 : Int)) = int x := by
  unfold int
  rw [Int.emod_emod_of_dvd _ (dvd_refl _)]

theorem uint_int (x : Int) : uint (int x) = uint x := by
  unfold int uint
  split
  · rw [Int.emod_emod_of_dvd _ (dvd_refl _)]
  · rw [Int.sub_emod, Int.emod_self, Int.emod_emod_of_dvd _ (dvd_refl _)]
    simp

/-! ## The prologue (C1) -/
/-- One iteration of the field loop keeps `minLength` below 2^64. -/
theorem scanField_lt (m : Nat) (field : AstField) (m1 : Nat) (ft : fieldType)
    (hm : m < two64) (h : scanField m field = .ok (m1, ft)) : m1 < two64 := by
  have hpos : 0 < two64 := by decide
  unfold scanField at h
  split at h
  · split at h
    · cases h
    · split at h
      · split at h
        · cases h; exact Nat.mod_lt _ hpos
        · cases h; exact hm
      · cases h
  · split at h
    · cases h; exact hm
    · split at h
      · cases h
      simp only [Except.ok.injEq, Prod.mk.injEq] at h
      obtain ⟨h1, -⟩ := h
      subst h1
      split
      · exact Nat.mod_lt _ hpos
      · rename_i tags _ _
        -- the tag loop keeps the bound
        have key : ∀ (ts : List Tag) (v : TagVars), v.minLength < two64 →
            (ts.foldl tagStep v).minLength < two64 := by
          intro ts
          induction ts with
          | nil => intro v hv; exact hv
          | cons tg rest ih =>
            intro v hv
            apply ih
            cases tg with
            | aisWidth w =>
              simp only [tagStep]
              split
              · exact hv
              · exact Nat.mod_lt _ hpos
            | aisDependsBit a b => exact hv
            | aisOptional => exact hv
            | other n => exact hv
        exact key _ _ hm

/-- The field loop keeps `minLength` below 2^64. -/
theorem scanFrom_lt (astFields : List AstField) :
    ∀ (m : Nat) (acc : List fieldType) (m1 : Nat) (fields : List fieldType),
      m < two64 → scanFrom m acc astFields = .ok (m1, fields) → m1 < two64 := by
  induction astFields with
  | nil =>
    intro m acc m1 fields hm h
    simp only [scanFrom, Except.ok.injEq, Prod.mk.injEq] at h
    omega
  | cons field rest ih =>
    intro m acc m1 fields hm h
    unfold scanFrom at h
    split at h
    · cases h
    · rename_i m2 ft heq
      exact ih m2 _ m1 fields (scanField_lt m field m2 ft hm heq) h

/-- The `minLength` of a struct is below 2^64. -/
theorem scanFields_lt (astFields : List AstField) (m : Nat)
    (fields : List fieldType) (h : scanFields astFields = .ok (m, fields)) :
    m < two64 :=
  scanFrom_lt astFields 0 [] m fields (by decide) h

/-- The parts of an emitted function that the prologue reads. -/
theorem generate_prologue (name : String) (astFields : List AstField)
    (fn : ParseFunc) (m : Nat) (fields : List fieldType)
    (hscan : scanFields astFields = .ok (m, fields))
    (hgen : generate name astFields = .ok fn) :
    fn.name = name ∧ fn.isPacketType = isPacketType name ∧ uint fn.minLength = m := by
  unfold generate at hgen
  rw [hscan] at hgen
  simp only at hgen
  split at hgen
  · cases hgen
  · cases hgen
    refine ⟨rfl, rfl, ?_⟩
    simp only
    rw [uint_int, uint_natCast _ (scanFields_lt astFields m fields hscan)]

/-- C1: when `len(payload) - offset` is below `minBits` (the `minValidMap`
entry of the struct name when there is one, else the `minLength` the scan
computed), the emitted parser returns the invalid result at once: `nil` for a
packet type, the zero value with `Valid = false` otherwise; the cursor is
left where it was and nothing has been read.  The payload length, the cursor
and `minBits` are values of the 64-bit type `int`. -/
theorem C1_too_short_returns_invalid (name : String) (astFields : List AstField)
    (fn : ParseFunc) (minLength : Nat) (fields : List fieldType)
    (hscan : scanFields astFields = .ok (minLength, fields))
    (hgen : generate name astFields = .ok fn)
    (sub : SubParsers) (t : Codec) (payload : List Nat) (offset : Nat)
    (hlen : payload.length < two63) (hoff : offset < two63)
    (hbits : (t.minValidMap name).getD minLength < two63)
    (hshort : (payload.length : Int) - offset
        < ((t.minValidMap name).getD minLength : Nat)) :
    runFunc sub t fn payload offset
      = Outcome.returned (if isPacketType name then none else some {}) offset [] := by
  obtain ⟨hname, hpkt, hmin⟩ := generate_prologue name astFields fn minLength fields hscan hgen
  have h63 := two63_eq
  have hbitsEq : minBitsForValid t fn = (t.minValidMap name).getD minLength := by
    unfold minBitsForValid
    rw [hname, hmin]
    cases t.minValidMap name <;> rfl
  have hshortB : tooShort t fn payload offset = true := by
    unfold tooShort
    rw [hbitsEq]
    rw [int_eq_self (offset : Int) (by omega) (by omega)]
    rw [int_eq_self ((payload.length : Int) - offset) (by omega) (by omega)]
    rw [int_eq_self _ (by omega) (by exact_mod_cast hbits)]
    exact decide_eq_true hshort
  unfold runFunc
  rw [if_pos hshortB]
  unfold invalidResult
  rw [hpkt]

/-- C1 at a payload of 50 bits for a packet type of minimum length 70. -/
theorem C1_witness :
    runFunc validSub plainCodec smallMessageFunc (List.replicate 50 0) 0
      = Outcome.returned none 0 [] :=
  C1_too_short_returns_invalid "BinaryAcknowledge" smallMessage smallMessageFunc 70
    smallMessageFields (by rfl) (by rfl) validSub plainCodec
    (List.replicate 50 0) 0 (by decide) (by decide) (by decide) (by decide)

/-! ## The minimum length (C2) -/

/-- C2 at the struct `conditionalText`: the field has an `aisDependsBit` tag
and a variable width, so the sum of the claim is 0, but the scan subtracts
`uint(-1)` from `minLength` and the emitted constant is 1. -/
theorem C2_minLength_of_conditional_variable_field :
    scanFields conditionalText
      = .ok (1, [{ name := "Text", typ := "string", width := -1,
                   isVariableLength := true, dependsBit := 5 }])
    ∧ (generate "SafetyText" conditionalText).toOption.map (fun fn => fn.minLength)
      = some 1
    ∧ structuralMinimum conditionalText = 0 := by
  refine ⟨by rfl, by rfl, by decide⟩

/-! ## Sequences of statements -/

/-- A list of block-free statements run as statements is the same list run
as block-free statements. -/
theorem execStmts_map_simple (sub : SubParsers) (t : Codec) (payload : List Nat)
    (minLength : Nat) (body : List Simple) :
    ∀ s : State, execStmts sub t payload minLength (body.map Stmt.simple) s
      = execSimples sub t payload minLength body s := by
  induction body with
  | nil => intro s; rfl
  | cons stmt rest ih =>
    intro s
    simp only [List.map_cons, execStmts, execSimples, execStmt]
    cases h : execSimple sub t payload minLength stmt s with
    | next s1 => simp only [ih]
    | ret r s1 => rfl
    | fault s1 => rfl

/-- Running `first ++ rest` when `first` runs to its end. -/
theorem execStmts_append_next (sub : SubParsers) (t : Codec) (payload : List Nat)
    (minLength : Nat) (first rest : List Stmt) :
    ∀ s s1 : State, execStmts sub t payload minLength first s = Step.next s1 →
      execStmts sub t payload minLength (first ++ rest) s
        = execStmts sub t payload minLength rest s1 := by
  induction first with
  | nil =>
    intro s s1 h
    simp only [execStmts, Step.next.injEq] at h
    subst h
    rfl
  | cons stmt more ih =>
    intro s s1 h
    simp only [List.cons_append, execStmts] at h ⊢
    cases hstep : execStmt sub t payload minLength stmt s with
    | next s2 =>
      rw [hstep] at h
      simp only at h ⊢
      exact ih s2 s1 h
    | ret r s2 => rw [hstep] at h; cases h
    | fault s2 => rw [hstep] at h; cases h

/-- Running `first ++ rest` when `first` returns: `rest` is not run. -/
theorem execStmts_append_ret (sub : SubParsers) (t : Codec) (payload : List Nat)
    (minLength : Nat) (first rest : List Stmt) (r : Option Record) :
    ∀ s s1 : State, execStmts sub t payload minLength first s = Step.ret r s1 →
      execStmts sub t payload minLength (first ++ rest) s = Step.ret r s1 := by
  induction first with
  | nil => intro s s1 h; simp only [execStmts] at h; cases h
  | cons stmt more ih =>
    intro s s1 h
    simp only [List.cons_append, execStmts] at h ⊢
    cases hstep : execStmt sub t payload minLength stmt s with
    | next s2 =>
      rw [hstep] at h
      simp only at h ⊢
      exact ih s2 s1 h
    | ret r2 s2 => rw [hstep] at h; simpa using h
    | fault s2 => rw [hstep] at h; cases h

/-- Running `first ++ rest` when `first` panics: `rest` is not run. -/
theorem execStmts_append_fault (sub : SubParsers) (t : Codec) (payload : List Nat)
    (minLength : Nat) (first rest : List Stmt) :
    ∀ s s1 : State, execStmts sub t payload minLength first s = Step.fault s1 →
      execStmts sub t payload minLength (first ++ rest) s = Step.fault s1 := by
  induction first with
  | nil => intro s s1 h; simp only [execStmts] at h; cases h
  | cons stmt more ih =>
    intro s s1 h
    simp only [List.cons_append, execStmts] at h ⊢
    cases hstep : execStmt sub t payload minLength stmt s with
    | next s2 =>
      rw [hstep] at h
      simp only at h ⊢
      exact ih s2 s1 h
    | ret r2 s2 => rw [hstep] at h; cases h
    | fault s2 => rw [hstep] at h; simpa using h

/-! ## Conditional fields (C3, C4) -/

/-- The `Valid` flag of a sub-record that has just been assigned. -/
theorem Record.validOf_set (p : Record) (name : String) (valid : Bool) :
    (p.set name (Value.record valid)).validOf name = valid := by
  simp [Record.set, Record.validOf, List.lookup]

/-- The length assignment of the scalar branch leaves cursor and events as
they are. -/
theorem execSimple_emitLength (sub : SubParsers) (t : Codec) (payload : List Nat)
    (minLength : Nat) (field : fieldType) (s : State) :
    ∃ len, execSimple sub t payload minLength (emitLength field) s
      = Step.next { s with length := len } := by
  unfold emitLength
  split
  · exact ⟨_, rfl⟩
  · exact ⟨_, rfl⟩

/-- The statements of the type switch perform exactly one read at the cursor:
a call of a sub-parser or of an extractor. -/
theorem emitParse_one_event (sub : SubParsers) (t : Codec) (payload : List Nat)
    (minLength : Nat) (field : fieldType) (parse : List Simple)
    (h : emitParse field = .ok parse) (s : State) :
    ∃ e, (execSimples sub t payload minLength parse s).state.trace = s.trace ++ [e]
      ∧ e.offset = s.offset := by
  unfold emitParse at h
  split at h
  · cases h
    refine ⟨Event.call field.typ s.offset, ?_, rfl⟩
    simp only [execSimples, execSimple, callParser]
    cases hsub : sub field.typ payload s.offset with
    | none => rfl
    | some res =>
      obtain ⟨valid, off⟩ := res
      by_cases hw : field.width > 0
      · simp only [hw, if_true, execSimples, execSimple, Record.validOf_set]
        cases valid <;> rfl
      · simp only [hw, if_false, execSimples]
        rfl
  · split at h
    · cases h
      refine ⟨Event.call field.typ s.offset, ?_, rfl⟩
      simp only [execSimples, execSimple, callParser]
      cases hsub : sub field.typ payload s.offset with
      | none => rfl
      | some res => rfl
    · split at h
      · cases h
        refine ⟨Event.read s.offset s.length, ?_, rfl⟩
        simp only [execSimples, execSimple]
        cases hx : extractString payload s.offset s.length t.DropSpace with
        | none => rfl
        | some res => rfl
      · split at h
        · cases h
          refine ⟨Event.read s.offset s.length, ?_, rfl⟩
          simp only [execSimples, execSimple]
          rename_i isSigned conv _
          cases hx : extractNumber payload isSigned s.offset s.length with
          | none => rfl
          | some res => rfl
        · cases h

/-- The statements emitted for a named non-array field with a positive
depends-on bit: one guard around the length assignment and the type switch. -/
theorem emitField_guarded (fields : List fieldType) (fieldI : Nat)
    (field : fieldType) (stmts : List Stmt)
    (hname : field.name ≠ "Valid") (hemb : field.embedded = false)
    (harr : field.isArray = false) (hbit : 0 < field.dependsBit)
    (hemit : emitField fields fieldI field = .ok stmts) :
    ∃ parse, emitParse field = .ok parse ∧
      stmts = [Stmt.guarded field.dependsBit (if field.dependsAs0 then 0 else 1)
                (emitLength field :: parse)] := by
  unfold emitField at hemit
  rw [if_neg hname] at hemit
  simp only [hemb, harr, Bool.false_eq_true, if_false] at hemit
  cases hp : emitParse field with
  | error e => rw [hp] at hemit; cases hemit
  | ok parse =>
    rw [hp] at hemit
    simp only [hbit, gt_iff_lt, if_true] at hemit
    cases hemit
    exact ⟨parse, rfl, rfl⟩

/-- C3, amended: for a named non-array field (other than `Valid`) with a
depends-on bit index `i > 0` inside the payload, the emitted statements read
the field (one extractor or sub-parser call at the cursor, the statements of
the unconditional read) when `payload[i]` equals 1, or 0 for a negated
index, and otherwise leave the whole state, cursor included, unchanged. -/
theorem C3_conditional_field_read_iff_bit (fields : List fieldType) (fieldI : Nat)
    (field : fieldType) (stmts : List Stmt)
    (hname : field.name ≠ "Valid") (hemb : field.embedded = false)
    (harr : field.isArray = false) (hbit : 0 < field.dependsBit)
    (hemit : emitField fields fieldI field = .ok stmts)
    (sub : SubParsers) (t : Codec) (payload : List Nat) (minLength : Nat)
    (s : State) (hlen : field.dependsBit < payload.length) :
    (payload.get? field.dependsBit.toNat = some (if field.dependsAs0 then 0 else 1) →
      (∃ parse, emitParse field = .ok parse ∧
        execStmts sub t payload minLength stmts s
          = execSimples sub t payload minLength (emitLength field :: parse) s) ∧
      ∃ e, (execStmts sub t payload minLength stmts s).state.trace = s.trace ++ [e]
        ∧ e.offset = s.offset)
    ∧ (payload.get? field.dependsBit.toNat ≠ some (if field.dependsAs0 then 0 else 1) →
      execStmts sub t payload minLength stmts s = Step.next s) := by
  obtain ⟨parse, hparse, hstmts⟩ :=
    emitField_guarded fields fieldI field stmts hname hemb harr hbit hemit
  subst hstmts
  have hnot : ¬ ((payload.length : Int) ≤ field.dependsBit) := by omega
  constructor
  · intro hmatch
    have hrun : execStmts sub t payload minLength
        [Stmt.guarded field.dependsBit (if field.dependsAs0 then 0 else 1)
          (emitLength field :: parse)] s
        = execSimples sub t payload minLength (emitLength field :: parse) s := by
      simp only [execStmts, execStmt, if_neg hnot, if_pos hmatch]
      cases execSimples sub t payload minLength (emitLength field :: parse) s <;> rfl
    refine ⟨⟨parse, hparse, hrun⟩, ?_⟩
    rw [hrun]
    obtain ⟨len, hlenStep⟩ := execSimple_emitLength sub t payload minLength field s
    simp only [execSimples, hlenStep]
    exact emitParse_one_event sub t payload minLength field parse hparse _
  · intro hmiss
    simp only [execStmts, execStmt, if_neg hnot, if_neg hmiss]

/-- C3 at the field `DestinationID` with the bit set: the field is read at
the cursor. -/
theorem C3_witness :
    ∃ e, (execStmts validSub plainCodec payloadBit38 70
        [Stmt.guarded 38 1 [Simple.lengthConst 30, Simple.extractNumber false,
          Simple.storeNum "DestinationID" NumConv.uint32]]
        { offset := 40 }).state.trace = [] ++ [e] ∧ e.offset = 40 :=
  ((C3_conditional_field_read_iff_bit [destinationField] 0 destinationField
    [Stmt.guarded 38 1 [Simple.lengthConst 30, Simple.extractNumber false,
      Simple.storeNum "DestinationID" NumConv.uint32]]
    (by decide) rfl rfl (by decide) (by rfl) validSub plainCodec payloadBit38 70
    { offset := 40 } (by decide)).1 (by decide)).2

/-- C3 as stated fails for the bit index 0 and for arrays.  The struct
`bitZeroStruct` is scanned with `dependsBit = 0`, no guard is emitted, and on
a payload whose bit 0 is 0 the field is read all the same and the cursor
moves by 8.  The byte array of `conditionalBytes` depends on bit 10, and on a
payload whose bit 10 is 0 the array is read all the same and the cursor moves
by 4. -/
theorem C3_unguarded_fields_are_read :
    (scanFields bitZeroStruct
      = .ok (0, [{ name := "Flagged", typ := "uint8", width := 8, dependsBit := 0 }])
    ∧ generate "FlaggedData" bitZeroStruct = .ok bitZeroFunc
    ∧ (List.replicate 8 0).get? 0 = some 0
    ∧ runFunc validSub plainCodec bitZeroFunc (List.replicate 8 0) 0
      = Outcome.returned
          (some { Valid := false, fields := [("Flagged", Value.num 0)] }) 8
          [Event.read 0 8])
    ∧ (generate "BinaryBroadcastMessage" conditionalBytes = .ok conditionalBytesFunc
    ∧ (List.replicate 12 0).get? 10 = some 0
    ∧ runFunc validSub plainCodec conditionalBytesFunc (List.replicate 12 0) 0
      = Outcome.returned
          (some { Valid := false, fields := [("Data", Value.bytes [0, 0, 0, 0])] })
          4 [Event.slice 0 4]) := by
  refine ⟨⟨by rfl, by rfl, by rfl, by decide⟩, by rfl, by rfl, by decide⟩

/-- C4, amended: for a named non-array field (other than `Valid`) with a
depends-on bit index `i > 0` and a payload with `i >= len(payload)`, the
emitted statements return `nil` in the state in which they started (nothing
is read, the cursor has not moved), and no later statement is run. -/
theorem C4_bit_beyond_payload_returns_nil (fields : List fieldType) (fieldI : Nat)
    (field : fieldType) (stmts : List Stmt)
    (hname : field.name ≠ "Valid") (hemb : field.embedded = false)
    (harr : field.isArray = false) (hbit : 0 < field.dependsBit)
    (hemit : emitField fields fieldI field = .ok stmts)
    (sub : SubParsers) (t : Codec) (payload : List Nat) (minLength : Nat)
    (s : State) (rest : List Stmt)
    (hshort : (payload.length : Int) ≤ field.dependsBit) :
    execStmts sub t payload minLength (stmts ++ rest) s = Step.ret none s := by
  obtain ⟨parse, -, hstmts⟩ :=
    emitField_guarded fields fieldI field stmts hname hemb harr hbit hemit
  subst hstmts
  apply execStmts_append_ret
  simp only [execStmts, execStmt, if_pos hshort]

/-- C4 at the field `DestinationID` and a payload of 30 bits. -/
theorem C4_witness :
    execStmts validSub plainCodec (List.replicate 30 0) 70
      ([Stmt.guarded 38 1 [Simple.lengthConst 30, Simple.extractNumber false,
          Simple.storeNum "DestinationID" NumConv.uint32]]
        ++ [Stmt.simple Simple.finalCheck]) { offset := 0 }
      = Step.ret none { offset := 0 } :=
  C4_bit_beyond_payload_returns_nil [destinationField] 0 destinationField
    [Stmt.guarded 38 1 [Simple.lengthConst 30, Simple.extractNumber false,
      Simple.storeNum "DestinationID" NumConv.uint32]]
    (by decide) rfl rfl (by decide) (by rfl) validSub plainCodec
    (List.replicate 30 0) 70 { offset := 0 } [Stmt.simple Simple.finalCheck]
    (by decide)

/-- C4 as stated fails for arrays and for the bit index 0.  The byte array
of `conditionalBytes` depends on bit 10, the payload has 6 bits, and the
emitted parser reads the array and returns a value.  The field of
`bitZeroStruct` depends on bit 0, the payload is empty, and the emitted
parser calls the extractor for the field instead of returning `nil`. -/
theorem C4_unguarded_fields_are_read_beyond_payload :
    (scanFields conditionalBytes
      = .ok (0, [{ name := "Data", typ := "byte", width := 4, isArray := true,
                   dependsBit := 10 }])
    ∧ generate "BinaryBroadcastMessage" conditionalBytes = .ok conditionalBytesFunc
    ∧ runFunc validSub plainCodec conditionalBytesFunc (List.replicate 6 1) 0
      = Outcome.returned
          (some { Valid := false, fields := [("Data", Value.bytes [1, 1, 1, 1])] })
          4 [Event.slice 0 4])
    ∧ (generate "FlaggedData" bitZeroStruct = .ok bitZeroFunc
    ∧ runFunc validSub plainCodec bitZeroFunc [] 0
      = Outcome.panicked [Event.read 0 8]) := by
  refine ⟨⟨by rfl, by rfl, by decide⟩, by rfl, by decide⟩

/-! ## Structs of plain fields (C5) -/

/-- The tag loop over pairs that are neither `aisWidth` nor `aisDependsBit`
leaves the width, `minLength`, the variable-length flag and the depends-on
bit as they are. -/
theorem foldl_tagStep_noWidth (tags : List Tag) :
    ∀ v : TagVars, widthTags tags = [] → dependsTagged tags = false →
      (tags.foldl tagStep v).width = v.width ∧
      (tags.foldl tagStep v).minLength = v.minLength ∧
      (tags.foldl tagStep v).fixedLength = v.fixedLength ∧
      (tags.foldl tagStep v).dependsBit = v.dependsBit := by
  induction tags with
  | nil => intro v _ _; exact ⟨rfl, rfl, rfl, rfl⟩
  | cons tag rest ih =>
    intro v hw hd
    cases tag with
    | aisWidth w => simp [widthTags] at hw
    | aisDependsBit a b => simp [dependsTagged] at hd
    | aisOptional =>
      simp only [widthTags, dependsTagged] at hw hd
      simpa [List.foldl, tagStep] using ih (tagStep v Tag.aisOptional) hw hd
    | other n =>
      simp only [widthTags, dependsTagged] at hw hd
      simpa [List.foldl, tagStep] using ih (tagStep v (Tag.other n)) hw hd

/-- The tag loop over a tag with a single, non-negative `aisWidth` pair and
no `aisDependsBit` pair sets the width and adds it to `minLength`. -/
theorem foldl_tagStep_oneWidth (tags : List Tag) (w : Int) (hw0 : 0 ≤ w) :
    ∀ v : TagVars, widthTags tags = [w] → dependsTagged tags = false →
      (tags.foldl tagStep v).width = w ∧
      (tags.foldl tagStep v).minLength = (v.minLength + uint w) % two64 ∧
      (tags.foldl tagStep v).fixedLength = v.fixedLength ∧
      (tags.foldl tagStep v).dependsBit = v.dependsBit := by
  induction tags with
  | nil => intro v hw _; simp [widthTags] at hw
  | cons tag rest ih =>
    intro v hw hd
    cases tag with
    | aisWidth w1 =>
      simp only [widthTags, List.cons.injEq] at hw
      obtain ⟨h1, hrest⟩ := hw
      subst h1
      simp only [dependsTagged] at hd
      have hstep : tagStep v (Tag.aisWidth w1)
          = { v with width := w1, minLength := (v.minLength + uint w1) % two64 } := by
        simp only [tagStep, if_neg (not_lt.mpr hw0)]
      have := foldl_tagStep_noWidth rest (tagStep v (Tag.aisWidth w1)) hrest hd
      simp only [List.foldl]
      rw [hstep] at this ⊢
      exact this
    | aisDependsBit a b => simp [dependsTagged] at hd
    | aisOptional =>
      simp only [widthTags, dependsTagged] at hw hd
      simpa [List.foldl, tagStep] using ih (tagStep v Tag.aisOptional) hw hd
    | other n =>
      simp only [widthTags, dependsTagged] at hw hd
      simpa [List.foldl, tagStep] using ih (tagStep v (Tag.other n)) hw hd

/-- The conversion `uint` of a non-negative `int` below 2^64. -/
theorem uint_toNat (w : Int) (h0 : 0 ≤ w) (h : w < two64) : uint w = w.toNat := by
  unfold uint
  rw [Int.emod_eq_of_lt h0 h]

/-- Two scan results with the same record are equal when their minimum
lengths are. -/
theorem scan_ok_congr {a c : Nat} {ft : fieldType} (h : a = c) :
    (Except.ok (a, ft) : Except String (Nat × fieldType)) = Except.ok (c, ft) := by
  rw [h]

/-- The scan of a plain field adds its width to `minLength` and records a
plain field of that width. -/
theorem scanField_plain (m : Nat) (field : AstField) (hm : m < two64)
    (hplain : plainField field = true) :
    ∃ ft, scanField m field = .ok ((m + plainWidth field) % two64, ft)
      ∧ PlainRecord ft ∧ ft.width = plainWidth field
      ∧ (∀ name more, field.names = name :: more → ft.name = name) := by
  unfold plainField at hplain
  split at hplain
  · rename_i name more typ tags hnames htype htag
    simp only [Bool.and_eq_true, Bool.not_eq_true', decide_eq_true_eq] at hplain
    obtain ⟨⟨htags, hdep⟩, hrest⟩ := hplain
    unfold scanField
    rw [hnames, htag, htype]
    simp only [typeInfo, if_neg htags]
    by_cases hv : name = "Valid"
    · rw [if_pos hv] at hrest
      have hws : widthTags tags = [] := of_decide_eq_true hrest
      obtain ⟨h1, h2, h3, h4⟩ :=
        foldl_tagStep_noWidth tags { minLength := m } hws hdep
      simp only at h1 h2 h3 h4
      have hpw : plainWidth field = 0 := by
        simp [plainWidth, htag, hws]
      refine ⟨_, scan_ok_congr ?_, ?_, ?_, ?_⟩
      · rw [h4, h2, hpw]
        simp only [ne_eq, not_true_eq_false, if_false, Nat.add_zero]
        exact (Nat.mod_eq_of_lt hm).symm
      · refine ⟨rfl, rfl, h4, h3, ?_, ?_, ?_⟩
        · simp only [h1]; exact le_refl _
        · intro _; simp only [h1]
        · intro hne; exact absurd hv hne
      · simp only [h1, hpw]; rfl
      · intro n mo hn
        cases hn
        rfl
    · rw [if_neg hv] at hrest
      simp only [Bool.and_eq_true] at hrest
      obtain ⟨htyp, hwidth⟩ := hrest
      split at hwidth
      · rename_i hws
        obtain ⟨h1, h2, h3, h4⟩ :=
          foldl_tagStep_noWidth tags { minLength := m } hws hdep
        simp only at h1 h2 h3 h4
        have hpw : plainWidth field = 0 := by
          simp [plainWidth, htag, hws]
        refine ⟨_, scan_ok_congr ?_, ?_, ?_, ?_⟩
        · rw [h4, h2, hpw]
          simp only [ne_eq, not_true_eq_false, if_false, Nat.add_zero]
          exact (Nat.mod_eq_of_lt hm).symm
        · refine ⟨rfl, rfl, h4, h3, ?_, ?_, ?_⟩
          · simp only [h1]; exact le_refl _
          · intro _; simp only [h1]
          · intro _; exact htyp
        · simp only [h1, hpw]; rfl
        · intro n mo hn
          cases hn
          rfl
      · rename_i w hws
        have hw0 : 0 ≤ w := of_decide_eq_true hwidth
        obtain ⟨h1, h2, h3, h4⟩ :=
          foldl_tagStep_oneWidth tags w hw0 { minLength := m } hws hdep
        simp only at h1 h2 h3 h4
        have hpw : plainWidth field = w.toNat := by
          simp [plainWidth, htag, hws]
        have huw : uint w % two64 = w.toNat % two64 := by
          unfold uint
          have h64 := two64_eq
          have e1 : (w % (two64 : Int)).toNat = w.toNat % two64 := by
            have : (w.toNat : Int) = w := Int.toNat_of_nonneg hw0
            have h2 : ((w.toNat % two64 : Nat) : Int) = w % (two64 : Int) := by
              rw [Int.natCast_mod, this]
            omega
          rw [e1, Nat.mod_mod]
        refine ⟨_, scan_ok_congr ?_, ?_, ?_, ?_⟩
        · rw [h4, h2, hpw]
          simp only [ne_eq, not_true_eq_false, if_false]
          rw [Nat.add_mod, huw, ← Nat.add_mod]
        · refine ⟨rfl, rfl, h4, h3, ?_, ?_, ?_⟩
          · simp only [h1]; exact hw0
          · intro hn; exact absurd hn hv
          · intro _; exact htyp
        · simp only [h1, hpw]; exact (Int.toNat_of_nonneg hw0).symm
        · intro n mo hn
          cases hn
          rfl
      · cases hwidth
  · cases hplain



/-- The scan of a list of plain fields adds their total width to `minLength`
and appends plain records of the same widths. -/
theorem scanFrom_plain (astFields : List AstField) :
    ∀ (m : Nat) (acc : List fieldType), m < two64 →
      (∀ f ∈ astFields, plainField f = true) →
      ∃ fts, scanFrom m acc astFields
          = .ok ((m + totalWidth astFields) % two64, acc ++ fts)
        ∧ (∀ ft ∈ fts, PlainRecord ft)
        ∧ (fts.map (fun ft => ft.width.toNat)).sum = totalWidth astFields := by
  induction astFields with
  | nil =>
    intro m acc hm _
    refine ⟨[], ?_, ?_, rfl⟩
    · simp only [scanFrom, totalWidth, List.map_nil, List.sum_nil, Nat.add_zero,
        List.append_nil]
      rw [Nat.mod_eq_of_lt hm]
    · intro ft hft; cases hft
  | cons field rest ih =>
    intro m acc hm hplain
    obtain ⟨ft, hscan, hrec, hwidth, -⟩ :=
      scanField_plain m field hm (hplain field (List.mem_cons_self _ _))
    have hpos : 0 < two64 := by decide
    obtain ⟨fts, hrest, hall, hsum⟩ :=
      ih ((m + plainWidth field) % two64) (acc ++ [ft]) (Nat.mod_lt _ hpos)
        (fun f hf => hplain f (List.mem_cons_of_mem _ hf))
    refine ⟨ft :: fts, ?_, ?_, ?_⟩
    · unfold scanFrom
      rw [hscan]
      simp only
      rw [hrest]
      simp only [totalWidth, List.map_cons, List.sum_cons, List.append_assoc,
        List.singleton_append]
      congr 2
      rw [Nat.mod_add_mod, Nat.add_assoc]
    · intro x hx
      cases hx with
      | head => exact hrec
      | tail _ h => exact hall x h
    · simp only [List.map_cons, List.sum_cons, totalWidth, hsum]
      rw [hwidth]
      simp [totalWidth]

/-- The type switch for an extracted type: the string extractor or the number
extractor, followed by the assignment. -/
theorem emitParse_extracted (field : fieldType)
    (h : isExtractedType field.typ = true) :
    emitParse field = .ok [Simple.extractString, Simple.storeStr field.name]
    ∨ ∃ isSigned conv, emitParse field
        = .ok [Simple.extractNumber isSigned, Simple.storeNum field.name conv] := by
  unfold isExtractedType at h
  simp only [Bool.or_eq_true, decide_eq_true_eq] at h
  rcases h with hstr | hnum
  · left
    unfold emitParse
    rw [hstr]
    rfl
  · right
    cases hcase : numCase field.typ with
    | none => rw [hcase] at hnum; cases hnum
    | some res =>
      obtain ⟨isSigned, conv⟩ := res
      refine ⟨isSigned, conv, ?_⟩
      have hnot : field.typ ∉ checkedSubRecords ∧ field.typ ∉ plainSubRecords
          ∧ field.typ ≠ "string" := by
        unfold numCase at hcase
        split at hcase <;> first
          | (rename_i heq; rw [heq]; decide)
          | cases hcase
      unfold emitParse
      rw [if_neg hnot.1, if_neg hnot.2.1, if_neg hnot.2.2, hcase]




/-- The statements of one plain record, run at a cursor that leaves room for
its width: the run goes on, the cursor has moved by the width, and the only
new event, if any, is a read inside the payload. -/
theorem exec_plain_record (sub : SubParsers) (t : Codec) (payload : List Nat)
    (minLength : Nat) (fields : List fieldType) (fieldI : Nat) (ft : fieldType)
    (hrec : PlainRecord ft) (hw : ft.width < two64) (s : State)
    (hroom : s.offset + ft.width.toNat ≤ payload.length) :
    ∃ stmts s1, emitField fields fieldI ft = .ok stmts
      ∧ execStmts sub t payload minLength stmts s = Step.next s1
      ∧ s1.offset = s.offset + ft.width.toNat
      ∧ ReadsWithin payload s.trace s1.trace := by
  obtain ⟨hemb, harr, hdep, hvar, hw0, hvalid, htyp⟩ := hrec
  by_cases hv : ft.name = "Valid"
  · refine ⟨[Stmt.simple Simple.setValid], _, ?_, rfl, ?_, ?_⟩
    · unfold emitField; rw [if_pos hv]
    · simp only [hvalid hv, Int.toNat_zero, Nat.add_zero]
    · exact ⟨[], by simp, by intro e he; cases he⟩
  · have hlenEq : uint ft.width = ft.width.toNat := uint_toNat ft.width hw0 hw
    have hhead : ∀ parse, emitParse ft = .ok parse →
        emitField fields fieldI ft
          = .ok ((Simple.lengthConst ft.width :: parse).map Stmt.simple) := by
      intro parse hp
      unfold emitField
      rw [if_neg hv]
      simp only [hemb, harr, Bool.false_eq_true, if_false, hp, hdep]
      simp only [emitLength, hvar, Bool.false_eq_true, if_false]
      rfl
    have hone : ∀ parse, emitParse ft = .ok parse →
        (∃ s1, execSimples sub t payload minLength
            (Simple.lengthConst ft.width :: parse) s = Step.next s1
          ∧ s1.offset = s.offset + ft.width.toNat
          ∧ s1.trace = s.trace ++ [Event.read s.offset ft.width.toNat]) →
        ∃ stmts s1, emitField fields fieldI ft = .ok stmts
          ∧ execStmts sub t payload minLength stmts s = Step.next s1
          ∧ s1.offset = s.offset + ft.width.toNat
          ∧ ReadsWithin payload s.trace s1.trace := by
      intro parse hp hex
      obtain ⟨s1, hrun, hoff, htr⟩ := hex
      refine ⟨_, s1, hhead parse hp, ?_, hoff, ?_⟩
      · rw [execStmts_map_simple]; exact hrun
      · refine ⟨[Event.read s.offset ft.width.toNat], htr, ?_⟩
        intro e he
        simp only [List.mem_singleton] at he
        exact ⟨_, _, he, hroom⟩
    rcases emitParse_extracted ft (htyp hv) with hp | ⟨isSigned, conv, hp⟩
    · apply hone _ hp
      simp only [execSimples, execSimple, hlenEq, extractString, if_pos hroom]
      exact ⟨_, rfl, rfl, rfl⟩
    · apply hone _ hp
      simp only [execSimples, execSimple, hlenEq, extractNumber, if_pos hroom]
      exact ⟨_, rfl, rfl, rfl⟩

/-- The statements of a list of plain records, run at a cursor that leaves
room for their total width: the run goes on, the cursor has moved by the
total width, and the new events are reads inside the payload. -/
theorem exec_plain_records (sub : SubParsers) (t : Codec) (payload : List Nat)
    (minLength : Nat) (fields : List fieldType) (fts : List fieldType) :
    ∀ (fieldI : Nat) (s : State), (∀ ft ∈ fts, PlainRecord ft) →
      s.offset + (fts.map (fun ft => ft.width.toNat)).sum ≤ payload.length →
      payload.length < two64 →
      ∃ stmts s1, emitFrom fields fieldI fts = .ok stmts
        ∧ execStmts sub t payload minLength stmts s = Step.next s1
        ∧ s1.offset = s.offset + (fts.map (fun ft => ft.width.toNat)).sum
        ∧ ReadsWithin payload s.trace s1.trace := by
  induction fts with
  | nil =>
    intro fieldI s _ _ _
    exact ⟨[], s, rfl, rfl, by simp, ⟨[], by simp, by intro e he; cases he⟩⟩
  | cons ft rest ih =>
    intro fieldI s hall hroom hlen
    simp only [List.map_cons, List.sum_cons] at hroom
    have hrec := hall ft (List.mem_cons_self _ _)
    have hw : ft.width < two64 := by
      have h0 := hrec.2.2.2.2.1
      have : (ft.width.toNat : Int) = ft.width := Int.toNat_of_nonneg h0
      have h64 := two64_eq
      omega
    obtain ⟨stmts, s1, hemit, hrun, hoff, hreads⟩ :=
      exec_plain_record sub t payload minLength fields fieldI ft hrec hw s (by omega)
    obtain ⟨more, s2, hemit2, hrun2, hoff2, hreads2⟩ :=
      ih (fieldI + 1) s1 (fun x hx => hall x (List.mem_cons_of_mem _ hx))
        (by omega) hlen
    refine ⟨stmts ++ more, s2, ?_, ?_, ?_, ?_⟩
    · simp only [emitFrom, hemit, hemit2]
    · rw [execStmts_append_next sub t payload minLength stmts more s s1 hrun]
      exact hrun2
    · simp only [List.map_cons, List.sum_cons]; omega
    · obtain ⟨a1, ha1, hin1⟩ := hreads
      obtain ⟨a2, ha2, hin2⟩ := hreads2
      refine ⟨a1 ++ a2, by rw [ha2, ha1, List.append_assoc], ?_⟩
      intro e he
      rcases List.mem_append.mp he with h | h
      · exact hin1 e h
      · exact hin2 e h




/-- The function emitted for a struct: its statements are those of the
fields, followed by the cursor check for a packet type. -/
theorem generate_body (name : String) (astFields : List AstField)
    (fn : ParseFunc) (m : Nat) (fields : List fieldType) (stmts : List Stmt)
    (hscan : scanFields astFields = .ok (m, fields))
    (hemit : emitFields fields = .ok stmts)
    (hgen : generate name astFields = .ok fn) :
    fn.body = stmts ++
      (if isPacketType name then [Stmt.simple Simple.finalCheck] else []) := by
  unfold generate at hgen
  rw [hscan] at hgen
  simp only [hemit] at hgen
  cases hgen
  rfl

/-- A struct of plain fields runs to its end: with no `minValidMap` entry
for the struct, whenever the minimum-length check of the emitted parser
passes, the parser returns its value without a panic, every read it performs
lies inside the payload (`offset + width <= len(payload)`), and the cursor
ends at the starting offset plus the total width. -/
theorem plain_struct_runs_to_end (name : String)
    (astFields : List AstField) (fn : ParseFunc)
    (hgen : generate name astFields = .ok fn)
    (hplain : ∀ f ∈ astFields, plainField f = true)
    (hwidth : totalWidth astFields < two63)
    (sub : SubParsers) (t : Codec) (payload : List Nat) (offset : Nat)
    (hno : t.minValidMap name = none)
    (hlen : payload.length < two63) (hoff : offset < two63)
    (hpass : tooShort t fn payload offset = false) :
    ∃ p trace, runFunc sub t fn payload offset
        = Outcome.returned (some p) (offset + totalWidth astFields) trace
      ∧ ∀ o w, Event.read o w ∈ trace → o + w ≤ payload.length := by
  have h63 := two63_eq
  have h64 := two64_eq
  have h6364 : two63 < two64 := by decide
  obtain ⟨fts, hscan, hall, hsum⟩ := scanFrom_plain astFields 0 [] (by decide) hplain
  rw [Nat.zero_add, Nat.mod_eq_of_lt (by omega), List.nil_append] at hscan
  have hscan2 : scanFields astFields = .ok (totalWidth astFields, fts) := hscan
  obtain ⟨hname, -, hmin⟩ :=
    generate_prologue name astFields fn _ fts hscan2 hgen
  -- the minimum-length check
  have hbits : minBitsForValid t fn = totalWidth astFields := by
    unfold minBitsForValid
    rw [hname, hno, hmin]
  have hroom : offset + totalWidth astFields ≤ payload.length := by
    unfold tooShort at hpass
    rw [hbits, int_eq_self (offset : Int) (by omega) (by omega),
      int_eq_self ((payload.length : Int) - offset) (by omega) (by omega),
      int_eq_self _ (by omega) (by omega)] at hpass
    have := of_decide_eq_false hpass
    omega
  obtain ⟨stmts, s1, hemit, hrun, hoff1, added, htrace, hin⟩ :=
    exec_plain_records sub t payload (uint fn.minLength) fts fts 0
      { offset := offset } hall (by simp only [hsum]; exact hroom) (by omega)
  have hbody := generate_body name astFields fn _ fts stmts hscan2 hemit hgen
  simp only [hsum] at hoff1
  simp only [List.nil_append] at htrace
  have hreads : ∀ o w, Event.read o w ∈ s1.trace → o + w ≤ payload.length := by
    intro o w hmem
    rw [htrace] at hmem
    obtain ⟨o1, w1, heq, hle⟩ := hin _ hmem
    cases heq
    exact hle
  refine ⟨s1.p, s1.trace, ?_, hreads⟩
  unfold runFunc
  rw [hpass]
  simp only [Bool.false_eq_true, if_false]
  rw [hbody, execStmts_append_next sub t payload _ stmts _ _ s1 hrun]
  by_cases hpkt : isPacketType name = true
  · simp only [hpkt, if_true, execStmts, execStmt, execSimple]
    rw [if_neg (by omega)]
    simp only [hoff1]
  · simp only [hpkt, if_false, execStmts, hoff1]

/-- The struct `plainStruct` and a payload of 20 bits read from the cursor
3. -/
theorem plain_struct_runs_to_end_example :
    ∃ p trace, runFunc validSub plainCodec plainStructFunc (List.replicate 20 0) 3
        = Outcome.returned (some p) (3 + totalWidth plainStruct) trace
      ∧ ∀ o w, Event.read o w ∈ trace → o + w ≤ (List.replicate 20 0).length :=
  plain_struct_runs_to_end "NamedData" plainStruct plainStructFunc (by rfl)
    (by decide) (by decide) validSub plainCodec (List.replicate 20 0) 3 rfl
    (by decide) (by decide) (by decide)

/-- C5 as stated fails after a conditional field: for `conditionalThenFixed`
the minimum length is 8, a payload of 8 bits with bit 1 set passes the check
with no override in force, the conditional field takes the 8 bits, and the
unconditional read of `Rest` starts at the cursor 8 with width 8, beyond the
payload. -/
theorem C5_read_beyond_payload_after_conditional_field :
    generate "SingleSlotBinaryMessage" conditionalThenFixed = .ok conditionalThenFixedFunc
    ∧ plainCodec.minValidMap "SingleSlotBinaryMessage" = none
    ∧ tooShort plainCodec conditionalThenFixedFunc [0, 1, 0, 0, 0, 0, 0, 0] 0 = false
    ∧ runFunc validSub plainCodec conditionalThenFixedFunc [0, 1, 0, 0, 0, 0, 0, 0] 0
      = Outcome.panicked [Event.read 0 8, Event.read 8 8]
    ∧ ¬ (8 + 8 ≤ [0, 1, 0, 0, 0, 0, 0, 0].length) := by
  refine ⟨by rfl, rfl, by decide, by decide, by decide⟩

/-! ## Arrays of sub-records (C6) -/

/-- The flag read back from the element that has just been stored. -/
theorem getD_set_self (l : List Bool) (i : Nat) (b : Bool) (h : i < l.length) :
    (l.set i b).getD i false = b := by
  simp [List.getD, List.getElem?_set, h]

/-- An element stored as invalid is read back as invalid, whatever the
length of the array. -/
theorem getD_set_false (l : List Bool) (i : Nat) :
    (l.set i false).getD i false = false := by
  by_cases h : i < l.length
  · exact getD_set_self l i false h
  · simp [List.getD, List.getElem?_set, h]

/-- The statements of the elements `i, ..., i+count-1` of an array with a
positive width, when the elements before `k` are valid and element `k` is
not: the run returns `nil` after the call for element `k`. -/
theorem exec_emitElems_invalid (sub : SubParsers) (t : Codec) (payload : List Nat)
    (minLength : Nat) (field : fieldType) (hw : 0 < field.width)
    (offs : Nat → Nat) (k : Nat) (tail : List Simple) :
    ∀ (count i : Nat) (s : State), i ≤ k → k < i + count →
      s.elems.length = i + count → s.offset = offs i →
      (∀ j, i ≤ j → j < k → sub field.typ payload (offs j) = some (true, offs (j + 1))) →
      sub field.typ payload (offs k) = some (false, offs (k + 1)) →
      ∃ s1, execSimples sub t payload minLength (emitElems field i count ++ tail) s
          = Step.ret none s1
        ∧ s1.trace = s.trace ++ elemCalls field.typ offs i (k + 1 - i)
        ∧ s1.offset = offs (k + 1) ∧ s1.p = s.p := by
  intro count
  induction count with
  | zero => intro i s h1 h2; omega
  | succ count ih =>
    intro i s hik hk hlen hoff hvalid hbad
    have hcheck : (field.width > 0 ∨ i = 0) := Or.inl hw
    simp only [emitElems, if_pos hcheck, List.cons_append, List.nil_append,
      execSimples, execSimple, callParser, hoff]
    by_cases hki : k = i
    · subst hki
      rw [hbad]
      simp only [getD_set_false, Bool.false_eq_true, if_false]
      refine ⟨_, rfl, ?_, rfl, rfl⟩
      simp only [Nat.add_sub_cancel_left, elemCalls, hoff]
    · have hlt : i < k := by omega
      rw [hvalid i (le_refl _) hlt]
      simp only [getD_set_self s.elems i true (by omega), if_true]
      obtain ⟨s1, hrun, htr, ho, hp⟩ :=
        ih (i + 1)
          { s with offset := offs (i + 1), elems := s.elems.set i true,
                   trace := s.trace ++ [Event.call field.typ (offs i)] }
          (by omega) (by omega) (by simp only [List.length_set]; omega) rfl
          (fun j h1 h2 => hvalid j (by omega) h2) hbad
      refine ⟨s1, hrun, ?_, ho, hp⟩
      rw [htr]
      have hsplit : k + 1 - i = (k + 1 - (i + 1)) + 1 := by omega
      rw [hsplit]
      simp only [elemCalls, List.append_assoc, List.singleton_append]

/-- The statements of the elements `i, ..., i+count-1` of an array with a
positive width, when all of them are valid: the run goes on with the
statements that follow, after `count` calls in order. -/
theorem exec_emitElems_valid (sub : SubParsers) (t : Codec) (payload : List Nat)
    (minLength : Nat) (field : fieldType) (hw : 0 < field.width)
    (offs : Nat → Nat) (tail : List Simple) :
    ∀ (count i : Nat) (s : State),
      s.elems.length = i + count → s.offset = offs i →
      (∀ j, i ≤ j → j < i + count →
        sub field.typ payload (offs j) = some (true, offs (j + 1))) →
      ∃ s1, execSimples sub t payload minLength (emitElems field i count ++ tail) s
          = execSimples sub t payload minLength tail s1
        ∧ s1.trace = s.trace ++ elemCalls field.typ offs i count
        ∧ s1.offset = offs (i + count) ∧ s1.p = s.p := by
  intro count
  induction count with
  | zero =>
    intro i s _ hoff _
    exact ⟨s, rfl, by simp [elemCalls], hoff, rfl⟩
  | succ count ih =>
    intro i s hlen hoff hvalid
    have hcheck : (field.width > 0 ∨ i = 0) := Or.inl hw
    simp only [emitElems, if_pos hcheck, List.cons_append, List.nil_append,
      execSimples, execSimple, callParser, hoff]
    rw [hvalid i (le_refl _) (by omega)]
    simp only [getD_set_self s.elems i true (by omega), if_true]
    obtain ⟨s1, hrun, htr, ho, hp⟩ :=
      ih (i + 1)
        { s with offset := offs (i + 1), elems := s.elems.set i true,
                 trace := s.trace ++ [Event.call field.typ (offs i)] }
        (by simp only [List.length_set]; omega) rfl
        (fun j h1 h2 => hvalid j (by omega) (by omega))
    refine ⟨s1, hrun, ?_, ?_, hp⟩
    · rw [htr]
      simp only [elemCalls, List.append_assoc, List.singleton_append]
    · rw [ho]; congr 1; omega

/-- The statements emitted for an array of one of the three sub-record
types. -/
theorem emitField_elems (fields : List fieldType) (fieldI : Nat)
    (field : fieldType) (stmts : List Stmt)
    (hname : field.name ≠ "Valid") (hemb : field.embedded = false)
    (harr : field.isArray = true) (htyp : field.typ ∈ elemArrayTypes)
    (hemit : emitField fields fieldI field = .ok stmts) :
    stmts = (Simple.declElems field.arrayLength field.typ
      :: (emitElems field 0 field.arrayLength
          ++ [Simple.assignElems field.name])).map Stmt.simple := by
  unfold emitField at hemit
  rw [if_neg hname] at hemit
  simp only [hemb, harr, Bool.false_eq_true, if_false, if_true, emitArray,
    if_pos htyp] at hemit
  cases hemit
  simp only [List.cons_append]

/-- C6, amended: for a fixed-count array of sub-records of type
`AssignedModeCommandData`, `BinaryAcknowledgeData` or
`DataLinkManagementMessageData` whose `aisWidth` is positive, the emitted
statements decode the elements in order, element `j` at the cursor `offs j`
where the element before it stopped.  If the elements before `k` are valid
and element `k` is not, the parser returns `nil` right after the call for
element `k`: the calls are exactly those of the elements `0..k`, nothing is
assigned, and neither a later element nor a later field is decoded.  If all
elements are valid the array is assigned and decoding goes on. -/
theorem C6_array_returns_invalid_at_first_invalid_element
    (fields : List fieldType) (fieldI : Nat) (field : fieldType)
    (stmts : List Stmt)
    (hname : field.name ≠ "Valid") (hemb : field.embedded = false)
    (harr : field.isArray = true) (htyp : field.typ ∈ elemArrayTypes)
    (hw : 0 < field.width)
    (hemit : emitField fields fieldI field = .ok stmts)
    (sub : SubParsers) (t : Codec) (payload : List Nat) (minLength : Nat)
    (s : State) (rest : List Stmt) (offs : Nat → Nat)
    (h0 : offs 0 = s.offset) :
    (∀ k, k < field.arrayLength →
      (∀ j, j < k → sub field.typ payload (offs j) = some (true, offs (j + 1))) →
      sub field.typ payload (offs k) = some (false, offs (k + 1)) →
      ∃ s1, execStmts sub t payload minLength (stmts ++ rest) s = Step.ret none s1
        ∧ s1.trace = s.trace ++ elemCalls field.typ offs 0 (k + 1)
        ∧ s1.offset = offs (k + 1) ∧ s1.p = s.p)
    ∧ ((∀ j, j < field.arrayLength →
        sub field.typ payload (offs j) = some (true, offs (j + 1))) →
      ∃ s1, execStmts sub t payload minLength (stmts ++ rest) s
          = execStmts sub t payload minLength rest s1
        ∧ s1.trace = s.trace ++ elemCalls field.typ offs 0 field.arrayLength
        ∧ s1.offset = offs field.arrayLength
        ∧ s1.p = s.p.set field.name (Value.elems s1.elems)) := by
  have hstmts := emitField_elems fields fieldI field stmts hname hemb harr htyp hemit
  subst hstmts
  constructor
  · intro k hk hvalid hbad
    obtain ⟨s1, hrun, htr, ho, hp⟩ :=
      exec_emitElems_invalid sub t payload minLength field hw offs k
        [Simple.assignElems field.name] field.arrayLength 0
        { s with elems := List.replicate field.arrayLength false }
        (Nat.zero_le _) (by omega) (by simp) h0.symm
        (fun j _ h2 => hvalid j h2) hbad
    refine ⟨s1, ?_, htr, ho, hp⟩
    apply execStmts_append_ret
    rw [execStmts_map_simple]
    simp only [execSimples, execSimple]
    exact hrun
  · intro hvalid
    obtain ⟨s1, hrun, htr, ho, hp⟩ :=
      exec_emitElems_valid sub t payload minLength field hw offs
        [Simple.assignElems field.name] field.arrayLength 0
        { s with elems := List.replicate field.arrayLength false }
        (by simp) h0.symm (fun j _ h2 => hvalid j (by omega))
    refine ⟨{ s1 with p := s1.p.set field.name (Value.elems s1.elems) },
      ?_, htr, by simpa using ho, by simp only [hp]⟩
    apply execStmts_append_next
    rw [execStmts_map_simple]
    simp only [execSimples, execSimple]
    rw [hrun]
    rfl




/-- C6 at an array of three slots in a payload of 40 bits: the first slot is
valid, the second one is not, the parser returns `nil` after two calls and
the third slot is never decoded. -/
theorem C6_witness :
    ∃ s1, execStmts slotSub plainCodec (List.replicate 40 0) 0
        (requiredSlotsStmts ++ [Stmt.simple Simple.finalCheck]) { offset := 0 }
        = Step.ret none s1
      ∧ s1.trace = [] ++ elemCalls "BinaryAcknowledgeData" slotOffsets 0 (1 + 1)
      ∧ s1.offset = slotOffsets (1 + 1) ∧ s1.p = {} :=
  (C6_array_returns_invalid_at_first_invalid_element [requiredSlots] 0
    requiredSlots requiredSlotsStmts (by decide) rfl rfl (by decide) (by decide)
    (by rfl) slotSub plainCodec (List.replicate 40 0) 0 { offset := 0 }
    [Stmt.simple Simple.finalCheck] slotOffsets rfl).1 1 (by decide)
    (by intro j hj; interval_cases j; decide) (by decide)

/-- C6 as stated fails for an array whose `aisWidth` is 0 and for the other
element types.  Of the three slots of `optionalSlotsStruct` only the first is
checked; in a payload of 40 bits the second slot is invalid, the third slot
is decoded all the same and the parser returns a value.  For the array
`etaArray` of three `FieldETA` no statement is emitted at all. -/
theorem C6_unchecked_arrays_go_on_after_invalid_element :
    (generate "BinaryAcknowledge" optionalSlotsStruct = .ok optionalSlotsFunc
    ∧ slotSub "BinaryAcknowledgeData" (List.replicate 40 0) 32 = some (false, 32)
    ∧ runFunc slotSub plainCodec optionalSlotsFunc (List.replicate 40 0) 0
      = Outcome.returned
          (some { Valid := false,
                  fields := [("Destinations", Value.elems [true, false, false])] })
          32
          [Event.call "BinaryAcknowledgeData" 0, Event.call "BinaryAcknowledgeData" 32,
           Event.call "BinaryAcknowledgeData" 32])
    ∧ emitField [etaArray] 0 etaArray = .ok [] := by
  refine ⟨⟨by rfl, by decide, by decide⟩, by rfl⟩

/-! ## Sub-records and embedded structs (C7) -/

/-- C7, amended: for a sub-record field of type `InterrogationStation2`,
`InterrogationStation1Message1`, `InterrogationStation1Message2`,
`StaticDataReportA`, `StaticDataReportB` or `FieldApplicationIdentifier`
whose `aisWidth` is positive, when the field is decoded (its guard, if it has
one, lets it through) and the sub-parser returns an invalid value, the
emitted statements return `nil` right after that call, and no later field is
decoded. -/
theorem C7_checked_sub_record_invalid_returns_nil
    (fields : List fieldType) (fieldI : Nat) (field : fieldType)
    (stmts : List Stmt)
    (hname : field.name ≠ "Valid") (hemb : field.embedded = false)
    (harr : field.isArray = false) (htyp : field.typ ∈ checkedSubRecords)
    (hw : 0 < field.width)
    (hemit : emitField fields fieldI field = .ok stmts)
    (sub : SubParsers) (t : Codec) (payload : List Nat) (minLength : Nat)
    (s : State) (rest : List Stmt) (off : Nat)
    (hguard : 0 < field.dependsBit →
      field.dependsBit < payload.length ∧
      payload.get? field.dependsBit.toNat = some (if field.dependsAs0 then 0 else 1))
    (hbad : sub field.typ payload s.offset = some (false, off)) :
    ∃ s1, execStmts sub t payload minLength (stmts ++ rest) s = Step.ret none s1
      ∧ s1.trace = s.trace ++ [Event.call field.typ s.offset]
      ∧ s1.offset = off := by
  have hparse : emitParse field
      = .ok [Simple.subRecord field.name field.typ, Simple.validCheck field.name] := by
    unfold emitParse
    rw [if_pos htyp]
    simp only [gt_iff_lt, hw, if_true]
  have hbody : ∃ s1, execSimples sub t payload minLength
      (emitLength field :: [Simple.subRecord field.name field.typ,
        Simple.validCheck field.name]) s = Step.ret none s1
      ∧ s1.trace = s.trace ++ [Event.call field.typ s.offset]
      ∧ s1.offset = off := by
    obtain ⟨len, hlenStep⟩ := execSimple_emitLength sub t payload minLength field s
    simp only [execSimples]
    rw [hlenStep]
    simp only [execSimple, callParser, hbad, Record.validOf_set,
      Bool.false_eq_true, if_false]
    exact ⟨_, rfl, rfl, rfl⟩
  obtain ⟨s1, hrun, htr, ho⟩ := hbody
  refine ⟨s1, ?_, htr, ho⟩
  apply execStmts_append_ret
  unfold emitField at hemit
  rw [if_neg hname] at hemit
  simp only [hemb, harr, Bool.false_eq_true, if_false, hparse] at hemit
  by_cases hbit : 0 < field.dependsBit
  · simp only [gt_iff_lt, hbit, if_true] at hemit
    cases hemit
    obtain ⟨hin, hmatch⟩ := hguard hbit
    have hnot : ¬ ((payload.length : Int) ≤ field.dependsBit) := by omega
    simp only [execStmts, execStmt, if_neg hnot, if_pos hmatch, hrun]
  · simp only [gt_iff_lt, hbit, if_false] at hemit
    cases hemit
    rw [execStmts_map_simple]
    exact hrun

/-- C7 at the field `ApplicationID` with an invalid sub-record. -/
theorem C7_witness :
    ∃ s1, execStmts invalidSub plainCodec (List.replicate 80 0) 70
        ([Stmt.simple (Simple.lengthConst 16),
          Stmt.simple (Simple.subRecord "ApplicationID" "FieldApplicationIdentifier"),
          Stmt.simple (Simple.validCheck "ApplicationID")]
          ++ [Stmt.simple Simple.finalCheck]) { offset := 40 }
        = Step.ret none s1
      ∧ s1.trace = [] ++ [Event.call "FieldApplicationIdentifier" 40]
      ∧ s1.offset = 40 :=
  C7_checked_sub_record_invalid_returns_nil [applicationField] 0 applicationField
    [Stmt.simple (Simple.lengthConst 16),
      Stmt.simple (Simple.subRecord "ApplicationID" "FieldApplicationIdentifier"),
      Stmt.simple (Simple.validCheck "ApplicationID")]
    (by decide) rfl rfl (by decide) (by decide) (by rfl) invalidSub plainCodec
    (List.replicate 80 0) 70 { offset := 40 } [Stmt.simple Simple.finalCheck] 40
    (by intro h; exact absurd h (by decide)) rfl

/-- C7 as stated fails for an embedded header, for the unchecked sub-record
types and for a width of 0.  In `smallMessageFunc` the result of
`parseHeader` is stored without a check, so with a header parser that returns
an invalid value the fields after the header are decoded all the same and the
parser returns a value with `Valid = true`.  In `uncheckedSubRecordsFunc` the
invalid results for a `FieldETA` and for an `InterrogationStation2` of width
0 are stored and the field after them is decoded. -/
theorem C7_unchecked_sub_records_go_on :
    (generate "BinaryAcknowledge" smallMessage = .ok smallMessageFunc
    ∧ invalidSub "Header" (List.replicate 80 0) 0 = some (false, 0)
    ∧ runFunc invalidSub plainCodec smallMessageFunc (List.replicate 80 0) 0
      = Outcome.returned
          (some { Valid := true,
                  fields := [("DestinationID", Value.num 0), ("Spare", Value.num 0),
                             ("Header", Value.record false)] })
          32
          [Event.call "Header" 0, Event.read 0 2, Event.read 2 30])
    ∧ (generate "VoyageData" uncheckedSubRecords = .ok uncheckedSubRecordsFunc
    ∧ runFunc invalidSub plainCodec uncheckedSubRecordsFunc (List.replicate 30 0) 0
      = Outcome.returned
          (some { Valid := false,
                  fields := [("Spare", Value.num 0), ("Station2", Value.record false),
                             ("Eta", Value.record false)] })
          2
          [Event.call "FieldETA" 0, Event.call "InterrogationStation2" 0,
           Event.read 0 2]) := by
  refine ⟨⟨by rfl, rfl, by decide⟩, by rfl, by decide⟩

/-! ## Byte arrays of variable width (C8) -/

/-- The signed reading of a converted value is that of the value. -/
theorem int_uint (x : Int) : int (uint x : Nat) = int x := by
  rw [uint_cast_emod, int_emod]

/-- After the last field nothing remains. -/
theorem remainingWidth_last (fields : List fieldType) (fieldI : Nat)
    (h : fieldI + 1 = fields.length) : remainingWidth fields fieldI = 0 := by
  unfold remainingWidth
  rw [h, List.drop_length]
  rfl

/-- A block-free statement that goes on, followed by others. -/
theorem execSimples_cons_next (sub : SubParsers) (t : Codec) (payload : List Nat)
    (minLength : Nat) (stmt : Simple) (rest : List Simple) (s s1 : State)
    (h : execSimple sub t payload minLength stmt s = Step.next s1) :
    execSimples sub t payload minLength (stmt :: rest) s
      = execSimples sub t payload minLength rest s1 := by
  rw [execSimples, h]

/-- The statements emitted for a byte array of variable width. -/
theorem emitField_bytes (fields : List fieldType) (fieldI : Nat)
    (field : fieldType) (stmts : List Stmt)
    (hname : field.name ≠ "Valid") (hemb : field.embedded = false)
    (harr : field.isArray = true) (htyp : field.typ = "byte")
    (hw : field.width < 0)
    (hemit : emitField fields fieldI field = .ok stmts) :
    stmts = List.map Stmt.simple
      [if fieldI + 1 = fields.length then Simple.lengthRest
         else Simple.lengthRestMinus (remainingWidth fields fieldI),
       Simple.checkLength, Simple.sliceBytes field.name] := by
  have hnot : field.typ ∉ elemArrayTypes := by rw [htyp]; decide
  unfold emitField at hemit
  rw [if_neg hname] at hemit
  simp only [hemb, harr, Bool.false_eq_true, if_false, if_true, emitArray,
    if_neg hnot, htyp, emitByteLength, hw] at hemit
  cases hemit
  rfl

/-- The length assignment of a byte array of variable width computes
`len(payload) - offset - remainingWidth` in `uint`. -/
theorem exec_byteLength (sub : SubParsers) (t : Codec) (payload : List Nat)
    (minLength : Nat) (fields : List fieldType) (fieldI : Nat) (s : State)
    (v : Int)
    (hv : v = remainderLength payload s.offset (remainingWidth fields fieldI)) :
    execSimple sub t payload minLength
      (if fieldI + 1 = fields.length then Simple.lengthRest
       else Simple.lengthRestMinus (remainingWidth fields fieldI)) s
    = Step.next { s with length := uint v } := by
  subst hv
  unfold remainderLength
  by_cases h : fieldI + 1 = fields.length
  · rw [if_pos h, remainingWidth_last fields fieldI h]
    simp only [execSimple, Int.sub_zero]
  · rw [if_neg h]
    rfl

/-- The length test returns `nil` for a negative length. -/
theorem exec_checkLength_neg (sub : SubParsers) (t : Codec) (payload : List Nat)
    (minLength : Nat) (s : State) (h : int s.length < 0) :
    execSimple sub t payload minLength Simple.checkLength s = Step.ret none s := by
  simp only [execSimple, if_pos h]

/-- The length test lets a non-negative length through. -/
theorem exec_checkLength_nonneg (sub : SubParsers) (t : Codec) (payload : List Nat)
    (minLength : Nat) (s : State) (h : ¬ int s.length < 0) :
    execSimple sub t payload minLength Simple.checkLength s = Step.next s := by
  simp only [execSimple, if_neg h]

/-- The slice of `length` bits at the cursor, when it lies inside the
payload: the bits are stored and the cursor advances by `length`. -/
theorem exec_sliceBytes (sub : SubParsers) (t : Codec) (payload : List Nat)
    (minLength : Nat) (name : String) (s : State)
    (h : s.offset + s.length ≤ payload.length) (hlen : payload.length < two64) :
    execSimple sub t payload minLength (Simple.sliceBytes name) s
      = Step.next { s with
          offset := s.offset + s.length
          p := s.p.set name (Value.bytes ((payload.drop s.offset).take s.length))
          trace := s.trace ++ [Event.slice s.offset (s.offset + s.length)] } := by
  have hhi : (s.offset + s.length) % two64 = s.offset + s.length :=
    Nat.mod_eq_of_lt (by omega)
  have hin : s.offset ≤ s.offset + s.length ∧ s.offset + s.length ≤ payload.length :=
    ⟨Nat.le_add_right _ _, h⟩
  simp only [execSimple, hhi, if_pos hin, Nat.add_sub_cancel_left]

/-- C8: for a byte-array field with a negative `aisWidth`, the emitted
statements compute `length = (len(payload) - offset) - (sum of the widths of
the fields declared after it)`, which is `len(payload) - offset` for the last
field.  When that value, a 64-bit `int`, is negative they return `nil`;
otherwise they store `payload[offset : offset+length]` and advance the
cursor by `length`.  The widths of the later fields are fixed, so that their
sum is not negative. -/
theorem C8_variable_byte_run (fields : List fieldType) (fieldI : Nat)
    (field : fieldType) (stmts : List Stmt)
    (hname : field.name ≠ "Valid") (hemb : field.embedded = false)
    (harr : field.isArray = true) (htyp : field.typ = "byte")
    (hw : field.width < 0)
    (hemit : emitField fields fieldI field = .ok stmts)
    (sub : SubParsers) (t : Codec) (payload : List Nat) (minLength : Nat)
    (s : State) (v : Int)
    (hv : v = remainderLength payload s.offset (remainingWidth fields fieldI))
    (hlen : payload.length < two63)
    (hrem : 0 ≤ remainingWidth fields fieldI)
    (hrange : -(two63 : Int) ≤ v) :
    (fieldI + 1 = fields.length → v = (payload.length : Int) - s.offset)
    ∧ (v < 0 →
        execStmts sub t payload minLength stmts s
          = Step.ret none { s with length := uint v })
    ∧ (0 ≤ v →
        execStmts sub t payload minLength stmts s
          = Step.next { s with
              length := v.toNat
              offset := s.offset + v.toNat
              p := s.p.set field.name
                (Value.bytes ((payload.drop s.offset).take v.toNat))
              trace := s.trace ++ [Event.slice s.offset (s.offset + v.toNat)] }) := by
  have hstmts := emitField_bytes fields fieldI field stmts hname hemb harr htyp hw hemit
  subst hstmts
  have h63 := two63_eq
  have h64 := two64_eq
  have h6364 : two63 < two64 := by decide
  have hvlt : v < two63 := by
    rw [hv]; unfold remainderLength; omega
  have hstep := exec_byteLength sub t payload minLength fields fieldI s v hv
  refine ⟨?_, ?_, ?_⟩
  · intro hlast
    rw [hv, remainingWidth_last fields fieldI hlast]
    unfold remainderLength
    omega
  · intro hneg
    have hint : int (uint v : Nat) < 0 := by
      rw [int_uint, int_eq_self _ hrange hvlt]
      exact hneg
    rw [execStmts_map_simple, execSimples_cons_next sub t payload minLength _ _ s _ hstep,
      execSimples,
      exec_checkLength_neg sub t payload minLength { s with length := uint v } hint]
  · intro hpos
    have hu : uint v = v.toNat := uint_toNat v hpos (by omega)
    have hcast : (v.toNat : Int) = v := Int.toNat_of_nonneg hpos
    have hint : ¬ int (v.toNat : Nat) < 0 := by
      rw [hcast, int_eq_self v (by omega) hvlt]
      omega
    have hbound : s.offset + v.toNat ≤ payload.length := by
      have : v = (payload.length : Int) - s.offset - remainingWidth fields fieldI := by
        rw [hv]; rfl
      omega
    rw [hu] at hstep
    rw [execStmts_map_simple, execSimples_cons_next sub t payload minLength _ _ s _ hstep,
      execSimples,
      exec_checkLength_nonneg sub t payload minLength { s with length := v.toNat } hint]
    simp only []
    rw [execSimples, exec_sliceBytes sub t payload minLength field.name
      { s with length := v.toNat } hbound (by omega)]
    rfl

/-- C8 at the byte array of `binaryTail`, read in a payload of 20 bits from
the cursor 6: the spare field after it has 4 bits, so the array takes 10
bits. -/
theorem C8_witness :
    execStmts validSub plainCodec (List.replicate 20 1) 4
      [Stmt.simple (Simple.lengthRestMinus 4), Stmt.simple Simple.checkLength,
       Stmt.simple (Simple.sliceBytes "Payload")] { offset := 6 }
    = Step.next { offset := 16, length := 10,
                  p := { fields := [("Payload", Value.bytes (List.replicate 10 1))] },
                  trace := [Event.slice 6 16] } :=
  (C8_variable_byte_run binaryTail 0
    { name := "Payload", typ := "byte", width := -1, isArray := true,
      isVariableLength := true, dependsBit := -1 }
    [Stmt.simple (Simple.lengthRestMinus 4), Stmt.simple Simple.checkLength,
     Stmt.simple (Simple.sliceBytes "Payload")]
    (by decide) rfl rfl rfl (by decide) (by rfl) validSub plainCodec
    (List.replicate 20 1) 4 { offset := 6 } 10 (by decide) (by decide) (by decide)
    (by decide)).2.2 (by decide)

/-! ## Variable width outside arrays (C9) -/

/-- The length of a variable-width field outside the array branch: whatever
the cursor and whatever fields follow, the emitted statement sets `length` to
`uint(len(payload)) - minLength`. -/
theorem exec_emitLength_variable (sub : SubParsers) (t : Codec) (payload : List Nat)
    (minLength : Nat) (field : fieldType) (hvar : field.isVariableLength = true)
    (s : State) :
    execSimple sub t payload minLength (emitLength field) s
      = Step.next { s with length := uint ((payload.length : Int) - minLength) } := by
  unfold emitLength
  rw [if_pos hvar]
  rfl

/-- C9 at the struct `trailingText`, a payload of 12 bits and the starting
offset 6: the length of the claim is `12 - 6 - 0 = 6`, but the emitted
statement is `length = uint(len(payload)) - minLength`, which is 12 whatever
the cursor; the extractor is called with width 12 at the cursor 6 and reads
beyond the payload.  No test of the length is emitted. -/
theorem C9_variable_string_length_ignores_offset :
    generate "TextData" trailingText = .ok trailingTextFunc
    ∧ remainderLength (List.replicate 12 0) 6 (remainingWidth
        [{ name := "Text", typ := "string", width := -1, isVariableLength := true,
           dependsBit := -1 }] 0) = 6
    ∧ execStmts validSub plainCodec (List.replicate 12 0) 0
        [Stmt.simple Simple.lengthFromMin] { offset := 6 }
      = Step.next { offset := 6, length := 12 }
    ∧ runFunc validSub plainCodec trailingTextFunc (List.replicate 12 0) 6
      = Outcome.panicked [Event.read 6 12] := by
  refine ⟨by rfl, by decide, by decide, by decide⟩

/-! ## The final cursor check (C10) -/

/-- A call of a sub-parser never returns from the calling function. -/
theorem callParser_ne_ret (sub : SubParsers) (payload : List Nat) (typ : String)
    (store : Bool → State → State) (s s1 : State) (r : Option Record)
    (h : callParser sub payload typ store s = Step.ret r s1) : False := by
  unfold callParser at h
  simp only at h
  split at h <;> cases h

/-- A block-free statement returns nothing but `nil`. -/
theorem execSimple_ret_none (sub : SubParsers) (t : Codec) (payload : List Nat)
    (minLength : Nat) (stmt : Simple) (s s1 : State) (r : Option Record)
    (h : execSimple sub t payload minLength stmt s = Step.ret r s1) : r = none := by
  cases stmt with
  | setValid => simp only [execSimple] at h; cases h
  | embed typ =>
    simp only [execSimple] at h
    exact (callParser_ne_ret sub payload typ _ s s1 r h).elim
  | declElems n typ => simp only [execSimple] at h; cases h
  | elem i typ =>
    simp only [execSimple] at h
    exact (callParser_ne_ret sub payload typ _ s s1 r h).elim
  | elemCheck i =>
    simp only [execSimple] at h
    split at h
    · cases h
    · cases h; rfl
  | assignElems name => simp only [execSimple] at h; cases h
  | lengthRest => simp only [execSimple] at h; cases h
  | lengthRestMinus r1 => simp only [execSimple] at h; cases h
  | lengthConst w => simp only [execSimple] at h; cases h
  | lengthFromMin => simp only [execSimple] at h; cases h
  | checkLength =>
    simp only [execSimple] at h
    split at h
    · cases h; rfl
    · cases h
  | sliceBytes name =>
    simp only [execSimple] at h
    split at h <;> cases h
  | subRecord name typ =>
    simp only [execSimple] at h
    exact (callParser_ne_ret sub payload typ _ s s1 r h).elim
  | validCheck name =>
    simp only [execSimple] at h
    split at h
    · cases h
    · cases h; rfl
  | extractNumber isSigned =>
    simp only [execSimple] at h
    split at h <;> cases h
  | storeNum name conv => simp only [execSimple] at h; cases h
  | extractString =>
    simp only [execSimple] at h
    split at h <;> cases h
  | storeStr name => simp only [execSimple] at h; cases h
  | finalCheck =>
    simp only [execSimple] at h
    split at h
    · cases h; rfl
    · cases h

/-- A sequence of block-free statements returns nothing but `nil`. -/
theorem execSimples_ret_none (sub : SubParsers) (t : Codec) (payload : List Nat)
    (minLength : Nat) (body : List Simple) :
    ∀ (s s1 : State) (r : Option Record),
      execSimples sub t payload minLength body s = Step.ret r s1 → r = none := by
  induction body with
  | nil => intro s s1 r h; simp only [execSimples] at h; cases h
  | cons stmt rest ih =>
    intro s s1 r h
    rw [execSimples] at h
    cases hstep : execSimple sub t payload minLength stmt s with
    | next s2 => rw [hstep] at h; exact ih s2 s1 r h
    | ret r2 s2 =>
      rw [hstep] at h
      cases h
      exact execSimple_ret_none sub t payload minLength stmt s s1 r hstep
    | fault s2 => rw [hstep] at h; cases h

/-- A sequence of statements returns nothing but `nil`. -/
theorem execStmts_ret_none (sub : SubParsers) (t : Codec) (payload : List Nat)
    (minLength : Nat) (stmts : List Stmt) :
    ∀ (s s1 : State) (r : Option Record),
      execStmts sub t payload minLength stmts s = Step.ret r s1 → r = none := by
  induction stmts with
  | nil => intro s s1 r h; simp only [execStmts] at h; cases h
  | cons stmt rest ih =>
    intro s s1 r h
    rw [execStmts] at h
    cases hstep : execStmt sub t payload minLength stmt s with
    | next s2 => rw [hstep] at h; exact ih s2 s1 r h
    | ret r2 s2 =>
      rw [hstep] at h
      cases h
      cases stmt with
      | simple st => exact execSimple_ret_none sub t payload minLength st s s1 r hstep
      | guarded bit value body =>
        simp only [execStmt] at hstep
        split at hstep
        · cases hstep; rfl
        · split at hstep
          · exact execSimples_ret_none sub t payload minLength body s s1 r hstep
          · cases hstep
    | fault s2 => rw [hstep] at h; cases h

/-- The packet-type test: the name is a value of `msgMap`. -/
theorem isPacketType_iff (name : String) :
    isPacketType name = true ↔ ∃ id, (id, name) ∈ msgMap := by
  unfold isPacketType
  rw [List.any_eq_true]
  constructor
  · rintro ⟨⟨id, n⟩, hmem, heq⟩
    have : n = name := by simpa using heq
    subst this
    exact ⟨id, hmem⟩
  · rintro ⟨id, hmem⟩
    exact ⟨(id, name), hmem, by simp⟩

/-- C10: the emitted function is a packet parser (return type `Packet`,
final cursor check) exactly when the struct name is a value of `msgMap`.
For such a struct, when all field statements have run, the parser returns
`nil` if the cursor exceeds `len(payload)` and the populated value `p`
otherwise; and whenever it returns a value at all, the cursor is at most
`len(payload)`. -/
theorem C10_packet_type_final_cursor_check (name : String)
    (astFields : List AstField) (fn : ParseFunc) (minLength : Nat)
    (fields : List fieldType) (stmts : List Stmt)
    (hscan : scanFields astFields = .ok (minLength, fields))
    (hemit : emitFields fields = .ok stmts)
    (hgen : generate name astFields = .ok fn)
    (sub : SubParsers) (t : Codec) (payload : List Nat) (offset : Nat) :
    (fn.isPacketType = true ↔ ∃ id, (id, name) ∈ msgMap)
    ∧ fn.body = stmts ++
        (if fn.isPacketType then [Stmt.simple Simple.finalCheck] else [])
    ∧ (fn.isPacketType = true →
        (∀ s, tooShort t fn payload offset = false →
          execStmts sub t payload (uint fn.minLength) stmts { offset := offset }
            = Step.next s →
          runFunc sub t fn payload offset
            = Outcome.returned (if s.offset > payload.length then none else some s.p)
                s.offset s.trace)
        ∧ (∀ p off trace,
          runFunc sub t fn payload offset = Outcome.returned (some p) off trace →
          off ≤ payload.length)) := by
  obtain ⟨-, hpkt, -⟩ := generate_prologue name astFields fn minLength fields hscan hgen
  have hbody := generate_body name astFields fn minLength fields stmts hscan hemit hgen
  rw [← hpkt] at hbody
  refine ⟨?_, hbody, ?_⟩
  · rw [hpkt]; exact isPacketType_iff name
  · intro hp
    rw [hp] at hbody
    simp only [if_true] at hbody
    have hfinal : ∀ s, execStmts sub t payload (uint fn.minLength)
        [Stmt.simple Simple.finalCheck] s
        = if s.offset > payload.length then Step.ret none s else Step.next s := by
      intro s
      simp only [execStmts, execStmt, execSimple]
      by_cases hover : s.offset > payload.length
      · simp only [if_pos hover]
      · simp only [if_neg hover]
    constructor
    · intro s hpass hrun
      unfold runFunc
      rw [hpass]
      simp only [Bool.false_eq_true, if_false]
      rw [hbody, execStmts_append_next sub t payload _ stmts _ _ s hrun, hfinal]
      by_cases hover : s.offset > payload.length
      · simp only [if_pos hover]
      · simp only [if_neg hover]
    · intro p off trace hret
      unfold runFunc at hret
      split at hret
      · simp only [invalidResult, hp, if_true] at hret
        cases hret
      · rw [hbody] at hret
        cases hrun : execStmts sub t payload (uint fn.minLength) stmts
            { offset := offset } with
        | next s =>
          rw [execStmts_append_next sub t payload _ stmts _ _ s hrun, hfinal] at hret
          by_cases hover : s.offset > payload.length
          · rw [if_pos hover] at hret
            cases hret
          · rw [if_neg hover] at hret
            cases hret
            omega
        | ret r s =>
          rw [execStmts_append_ret sub t payload _ stmts _ r _ s hrun] at hret
          have := execStmts_ret_none sub t payload _ stmts _ s r hrun
          subst this
          cases hret
        | fault s =>
          rw [execStmts_append_fault sub t payload _ stmts _ _ s hrun] at hret
          cases hret

/-- C10 at the packet struct `stateMessage` with a sub-parser that takes 30
bits of a payload of 25: all fields are decoded, the cursor ends at 30, and
the parser returns `nil`. -/
theorem C10_witness :
    runFunc greedySub plainCodec stateMessageFunc (List.replicate 25 0) 0
      = Outcome.returned
          (if 30 > (List.replicate 25 0).length then none
           else some { Valid := true,
                       fields := [("CommunicationStateNoItdma", Value.record true)] })
          30 [Event.call "CommunicationStateNoItdma" 0] :=
  (C10_packet_type_final_cursor_check "CoordinatedUTCInquiry" stateMessage
    stateMessageFunc 20 stateMessageFields stateMessageStmts (by rfl) (by rfl)
    (by rfl) greedySub plainCodec (List.replicate 25 0) 0).2.2 rfl |>.1
    { offset := 30
      p := { Valid := true,
             fields := [("CommunicationStateNoItdma", Value.record true)] }
      trace := [Event.call "CommunicationStateNoItdma" 0] }
    (by decide) (by decide)

/-! ## The minimum length of regular structs -/

/-- The tag loop over a tag without an `aisWidth` pair leaves the width and
`minLength` as they are. -/
theorem foldl_tagStep_width_nil (tags : List Tag) :
    ∀ v : TagVars, widthTags tags = [] →
      (tags.foldl tagStep v).width = v.width ∧
      (tags.foldl tagStep v).minLength = v.minLength := by
  induction tags with
  | nil => intro v _; exact ⟨rfl, rfl⟩
  | cons tag rest ih =>
    intro v hw
    cases tag with
    | aisWidth w => simp [widthTags] at hw
    | aisDependsBit a b =>
      simp only [widthTags] at hw
      simpa [List.foldl, tagStep] using ih (tagStep v (Tag.aisDependsBit a b)) hw
    | aisOptional =>
      simp only [widthTags] at hw
      simpa [List.foldl, tagStep] using ih (tagStep v Tag.aisOptional) hw
    | other n =>
      simp only [widthTags] at hw
      simpa [List.foldl, tagStep] using ih (tagStep v (Tag.other n)) hw

/-- The tag loop over a tag with a single `aisWidth` pair sets the width and
adds it to `minLength` unless it is negative. -/
theorem foldl_tagStep_width_one (tags : List Tag) (w : Int) :
    ∀ v : TagVars, widthTags tags = [w] →
      (tags.foldl tagStep v).width = w ∧
      (tags.foldl tagStep v).minLength
        = if 0 ≤ w then (v.minLength + uint w) % two64 else v.minLength := by
  induction tags with
  | nil => intro v hw; simp [widthTags] at hw
  | cons tag rest ih =>
    intro v hw
    cases tag with
    | aisWidth w1 =>
      simp only [widthTags, List.cons.injEq] at hw
      obtain ⟨h1, hrest⟩ := hw
      subst h1
      obtain ⟨h2, h3⟩ := foldl_tagStep_width_nil rest (tagStep v (Tag.aisWidth w1)) hrest
      simp only [List.foldl]
      rw [h2, h3]
      by_cases hneg : w1 < 0
      · simp only [tagStep, if_pos hneg, if_neg (not_le.mpr hneg), and_self]
      · simp only [tagStep, if_neg hneg, if_pos (not_lt.mp hneg), and_self]
    | aisDependsBit a b =>
      simp only [widthTags] at hw
      simpa [List.foldl, tagStep] using ih (tagStep v (Tag.aisDependsBit a b)) hw
    | aisOptional =>
      simp only [widthTags] at hw
      simpa [List.foldl, tagStep] using ih (tagStep v Tag.aisOptional) hw
    | other n =>
      simp only [widthTags] at hw
      simpa [List.foldl, tagStep] using ih (tagStep v (Tag.other n)) hw

/-- The tag loop over a tag without an `aisDependsBit` pair leaves the
depends-on bit as it is. -/
theorem foldl_tagStep_depends_nil (tags : List Tag) :
    ∀ v : TagVars, dependsBits tags = [] →
      (tags.foldl tagStep v).dependsBit = v.dependsBit := by
  induction tags with
  | nil => intro v _; rfl
  | cons tag rest ih =>
    intro v hd
    cases tag with
    | aisWidth w =>
      simp only [dependsBits] at hd
      rw [List.foldl, ih _ hd]
      simp only [tagStep]
      split <;> rfl
    | aisDependsBit a b => simp [dependsBits] at hd
    | aisOptional =>
      simp only [dependsBits] at hd
      rw [List.foldl, ih _ hd]
      rfl
    | other n =>
      simp only [dependsBits] at hd
      rw [List.foldl, ih _ hd]
      rfl

/-- The tag loop over a tag with a single `aisDependsBit` pair records its
bit. -/
theorem foldl_tagStep_depends_one (tags : List Tag) (b : Int) :
    ∀ v : TagVars, dependsBits tags = [b] →
      (tags.foldl tagStep v).dependsBit = b := by
  induction tags with
  | nil => intro v hd; simp [dependsBits] at hd
  | cons tag rest ih =>
    intro v hd
    cases tag with
    | aisWidth w =>
      simp only [dependsBits] at hd
      rw [List.foldl, ih _ hd]
    | aisDependsBit a b1 =>
      simp only [dependsBits, List.cons.injEq] at hd
      obtain ⟨h1, hrest⟩ := hd
      subst h1
      rw [List.foldl, foldl_tagStep_depends_nil rest _ hrest]
      rfl
    | aisOptional =>
      simp only [dependsBits] at hd
      rw [List.foldl, ih _ hd]
    | other n =>
      simp only [dependsBits] at hd
      rw [List.foldl, ih _ hd]

/-- A tag has an `aisDependsBit` pair exactly when the list of its bits is
not empty. -/
theorem dependsTagged_eq (tags : List Tag) :
    dependsTagged tags = !(dependsBits tags).isEmpty := by
  induction tags with
  | nil => rfl
  | cons tag rest ih =>
    cases tag with
    | aisWidth w => simpa [dependsTagged, dependsBits] using ih
    | aisDependsBit a b => simp [dependsTagged, dependsBits]
    | aisOptional => simpa [dependsTagged, dependsBits] using ih
    | other n => simpa [dependsTagged, dependsBits] using ih

/-- Adding a non-negative width in `uint`. -/
theorem add_uint_mod (m : Nat) (w : Int) (hw : 0 ≤ w) :
    (m + uint w) % two64 = (m + w.toNat) % two64 := by
  have huw : uint w % two64 = w.toNat % two64 := by
    unfold uint
    have h64 := two64_eq
    have e1 : (w % (two64 : Int)).toNat = w.toNat % two64 := by
      have : (w.toNat : Int) = w := Int.toNat_of_nonneg hw
      have h2 : ((w.toNat % two64 : Nat) : Int) = w % (two64 : Int) := by
        rw [Int.natCast_mod, this]
      omega
    rw [e1, Nat.mod_mod]
  rw [Nat.add_mod, huw, ← Nat.add_mod]

/-- Subtracting in `uint` a width that has just been added gives back the
old value. -/
theorem add_sub_uint (m u : Nat) (hm : m < two64) (hu : u < two64) :
    ((m + u) % two64 + two64 - u) % two64 = m := by
  unfold two64 at *
  omega

/-- The scan of a regular field adds to `minLength` what the field adds to
the structural minimum. -/
theorem scanField_regular (m : Nat) (field : AstField) (hm : m < two64)
    (hreg : regularField field = true) :
    0 ≤ structuralSummand field ∧
    ∃ ft, scanField m field
      = .ok ((m + (structuralSummand field).toNat) % two64, ft) := by
  have hself : m = (m + 0) % two64 := by
    rw [Nat.add_zero, Nat.mod_eq_of_lt hm]
  unfold regularField at hreg
  split at hreg
  · -- an embedded struct
    rename_i typ tags hnames htype htag
    unfold scanField
    rw [hnames, htag, htype]
    simp only
    rcases tags with _ | ⟨tag, rest⟩
    · have hs : structuralSummand field = 0 := by
        simp [structuralSummand, hasDependsTag, declaredWidth, htag, dependsTagged,
          widthTags]
      rw [hs]
      exact ⟨le_refl _, _, scan_ok_congr hself⟩
    · cases tag with
      | aisWidth w =>
        cases rest with
        | nil =>
          simp only [widthTags, List.cons_ne_nil, decide_False, Bool.false_or,
            decide_eq_true_eq, reduceCtorEq] at hreg
          have hs : structuralSummand field = w := by
            simp [structuralSummand, hasDependsTag, declaredWidth, htag, dependsTagged,
              widthTags, hreg]
          rw [hs]
          exact ⟨hreg, _, scan_ok_congr (add_uint_mod m w hreg)⟩
        | cons t2 more =>
          simp [widthTags] at hreg
      | aisDependsBit a b =>
        simp only [widthTags, decide_eq_true_eq, Bool.or_false] at hreg
        have hs : structuralSummand field = 0 := by
          simp [structuralSummand, hasDependsTag, htag, dependsTagged]
        rw [hs]
        exact ⟨le_refl _, _, scan_ok_congr hself⟩
      | aisOptional =>
        simp only [widthTags, decide_eq_true_eq, Bool.or_false] at hreg
        have hs : structuralSummand field = 0 := by
          simp [structuralSummand, declaredWidth, htag, widthTags, hreg]
        rw [hs]
        exact ⟨le_refl _, _, scan_ok_congr hself⟩
      | other n =>
        simp only [widthTags, decide_eq_true_eq, Bool.or_false] at hreg
        have hs : structuralSummand field = 0 := by
          simp [structuralSummand, declaredWidth, htag, widthTags, hreg]
        rw [hs]
        exact ⟨le_refl _, _, scan_ok_congr hself⟩
  · cases hreg
  · -- a named field without a tag
    rename_i name more typ hnames htag
    have hs : structuralSummand field = 0 := by
      simp [structuralSummand, hasDependsTag, declaredWidth, htag]
    rw [hs]
    unfold scanField
    rw [hnames, htag]
    exact ⟨le_refl _, _, scan_ok_congr hself⟩
  · -- a named field with a tag
    rename_i name more typ tags hnames htag
    rw [Bool.and_eq_true] at hreg
    obtain ⟨htags, hreg⟩ := hreg
    have htags : tags ≠ [] := of_decide_eq_true htags
    unfold scanField
    rw [hnames, htag]
    simp only [if_neg htags]
    have hdt := dependsTagged_eq tags
    split at hreg
    · rename_i hw hd
      obtain ⟨-, h2⟩ := foldl_tagStep_width_nil tags { minLength := m } hw
      have h3 := foldl_tagStep_depends_nil tags { minLength := m } hd
      simp only at h2 h3
      have hs : structuralSummand field = 0 := by
        simp [structuralSummand, hasDependsTag, declaredWidth, htag, hw]
      rw [hs, h3, h2]
      simp only [ne_eq, not_true_eq_false, if_false]
      exact ⟨le_refl _, _, scan_ok_congr hself⟩
    · rename_i w hw hd
      obtain ⟨-, h2⟩ := foldl_tagStep_width_one tags w { minLength := m } hw
      have h3 := foldl_tagStep_depends_nil tags { minLength := m } hd
      simp only at h2 h3
      rw [hd] at hdt
      rw [h3, h2]
      simp only [ne_eq, not_true_eq_false, if_false]
      by_cases hw0 : 0 ≤ w
      · have hs : structuralSummand field = w := by
          simp [structuralSummand, hasDependsTag, declaredWidth, htag, hw, hdt, hw0]
        rw [hs, if_pos hw0]
        exact ⟨hw0, _, scan_ok_congr (add_uint_mod m w hw0)⟩
      · have hs : structuralSummand field = 0 := by
          simp [structuralSummand, hasDependsTag, declaredWidth, htag, hw, hdt, hw0]
        rw [hs, if_neg hw0]
        exact ⟨le_refl _, _, scan_ok_congr hself⟩
    · rename_i b hw hd
      have hb : b ≠ -1 := of_decide_eq_true hreg
      obtain ⟨h1, h2⟩ := foldl_tagStep_width_nil tags { minLength := m } hw
      have h3 := foldl_tagStep_depends_one tags b { minLength := m } hd
      simp only at h1 h2 h3
      rw [hd] at hdt
      have hs : structuralSummand field = 0 := by
        simp [structuralSummand, hasDependsTag, htag, hdt]
      rw [hs, h3, h2, h1, if_pos hb]
      refine ⟨le_refl _, _, scan_ok_congr ?_⟩
      have hu0 : uint 0 = 0 := by decide
      rw [hu0]
      simp only [Int.toNat_zero, Nat.add_zero, Nat.sub_zero, Nat.add_mod_right]
    · rename_i w b hw hd
      simp only [Bool.and_eq_true, decide_eq_true_eq] at hreg
      obtain ⟨hb, hw0⟩ := hreg
      obtain ⟨h1, h2⟩ := foldl_tagStep_width_one tags w { minLength := m } hw
      have h3 := foldl_tagStep_depends_one tags b { minLength := m } hd
      simp only at h1 h2 h3
      rw [hd] at hdt
      have hs : structuralSummand field = 0 := by
        simp [structuralSummand, hasDependsTag, htag, hdt]
      rw [hs, h3, h2, h1, if_pos hb, if_pos hw0]
      refine ⟨le_refl _, _, scan_ok_congr ?_⟩
      rw [add_sub_uint m (uint w) hm (uint_lt w)]
      exact hself
    · cases hreg

/-- The field loop over regular fields adds the structural minimum to
`minLength`, modulo 2^64. -/
theorem scanFrom_regular (astFields : List AstField) :
    ∀ (m : Nat) (acc : List fieldType), m < two64 →
      (∀ f ∈ astFields, regularField f = true) →
      0 ≤ structuralMinimum astFields ∧
      ∃ fields, scanFrom m acc astFields
        = .ok ((m + (structuralMinimum astFields).toNat) % two64, fields) := by
  induction astFields with
  | nil =>
    intro m acc hm _
    refine ⟨le_refl _, acc, ?_⟩
    simp only [scanFrom, structuralMinimum, List.map_nil, List.sum_nil,
      Int.toNat_zero, Nat.add_zero]
    rw [Nat.mod_eq_of_lt hm]
  | cons field rest ih =>
    intro m acc hm hreg
    obtain ⟨h0, ft, hscan⟩ :=
      scanField_regular m field hm (hreg field (List.mem_cons_self _ _))
    have hpos : 0 < two64 := by decide
    obtain ⟨hrest0, fields, hrest⟩ :=
      ih ((m + (structuralSummand field).toNat) % two64) (acc ++ [ft])
        (Nat.mod_lt _ hpos) (fun f hf => hreg f (List.mem_cons_of_mem _ hf))
    have hsum : structuralMinimum (field :: rest)
        = structuralSummand field + structuralMinimum rest := by
      simp only [structuralMinimum, List.map_cons, List.sum_cons]
    refine ⟨by rw [hsum]; omega, fields, ?_⟩
    unfold scanFrom
    rw [hscan]
    simp only
    rw [hrest, hsum, Int.toNat_add h0 hrest0, Nat.mod_add_mod, Nat.add_assoc]

/-- The minimum length of a regular struct: when every field is regular and
the structural minimum is below 2^64, the `minLength` the scan computes is
the sum of the widths of the fields that have no `aisDependsBit` tag and a
non-negative `aisWidth`. -/
theorem scanFields_minLength_regular (astFields : List AstField)
    (hreg : ∀ f ∈ astFields, regularField f = true)
    (hsum : structuralMinimum astFields < two64) :
    ∃ minLength fields, scanFields astFields = .ok (minLength, fields)
      ∧ (minLength : Int) = structuralMinimum astFields := by
  obtain ⟨h0, fields, hscan⟩ := scanFrom_regular astFields 0 [] (by decide) hreg
  refine ⟨_, fields, hscan, ?_⟩
  have h64 := two64_eq
  have hlt : (structuralMinimum astFields).toNat < two64 := by omega
  rw [Nat.zero_add, Nat.mod_eq_of_lt hlt]
  exact Int.toNat_of_nonneg h0

/-- The regular-struct lemma at `smallMessage`: the minimum length is
`38 + 2 + 30`. -/
theorem scanFields_minLength_smallMessage :
    ∃ minLength fields, scanFields smallMessage = .ok (minLength, fields)
      ∧ (minLength : Int) = structuralMinimum smallMessage :=
  scanFields_minLength_regular smallMessage (by decide) (by decide)

/-! ## Structs of fields of fixed width (C5) -/

/-- The scan of a sub-parser field adds its width to `minLength` and records
a sub-parser field of that width and type. -/
theorem scanField_subParser (m : Nat) (field : AstField) (hm : m < two64)
    (hsub : subParserField field = true) :
    ∃ ft, scanField m field = .ok ((m + plainWidth field) % two64, ft)
      ∧ SubParserRecord ft ∧ ft.width = plainWidth field
      ∧ ft.typ = typeName field := by
  have hself : m = (m + 0) % two64 := by
    rw [Nat.add_zero, Nat.mod_eq_of_lt hm]
  unfold subParserField at hsub
  split at hsub
  · -- an embedded struct
    rename_i typ w hnames htype htag
    have hw0 : 0 ≤ w := of_decide_eq_true hsub
    have hpw : plainWidth field = w.toNat := by
      simp [plainWidth, htag, widthTags]
    unfold scanField
    rw [hnames, htag, htype]
    simp only
    refine ⟨_, scan_ok_congr ?_, ?_, ?_, ?_⟩
    · rw [hpw]; exact add_uint_mod m w hw0
    · exact ⟨(by decide : ("" : String) ≠ "Valid"), hw0, Or.inl rfl⟩
    · simp only [hpw]; exact (Int.toNat_of_nonneg hw0).symm
    · simp only [typeName, htype]
  · -- a named sub-record
    rename_i name more typ tags hnames htype htag
    simp only [Bool.and_eq_true, Bool.not_eq_true', decide_eq_true_eq,
      Bool.or_eq_true] at hsub
    obtain ⟨⟨⟨⟨htags, hdep⟩, hname⟩, htyp⟩, hwidth⟩ := hsub
    unfold scanField
    rw [hnames, htag, htype]
    simp only [typeInfo, if_neg htags]
    split at hwidth
    · rename_i hws
      obtain ⟨h1, h2, h3, h4⟩ :=
        foldl_tagStep_noWidth tags { minLength := m } hws hdep
      simp only at h1 h2 h3 h4
      have hpw : plainWidth field = 0 := by
        simp [plainWidth, htag, hws]
      refine ⟨_, scan_ok_congr ?_, ?_, ?_, ?_⟩
      · rw [h4, h2, hpw]
        simp only [ne_eq, not_true_eq_false, if_false]
        exact hself
      · refine ⟨hname, ?_, Or.inr ⟨rfl, rfl, h4, h3, htyp⟩⟩
        simp only [h1]; exact le_refl _
      · simp only [h1, hpw]; rfl
      · simp only [typeName, htype]
    · rename_i w hws
      have hw0 : 0 ≤ w := of_decide_eq_true hwidth
      obtain ⟨h1, h2, h3, h4⟩ :=
        foldl_tagStep_oneWidth tags w hw0 { minLength := m } hws hdep
      simp only at h1 h2 h3 h4
      have hpw : plainWidth field = w.toNat := by
        simp [plainWidth, htag, hws]
      refine ⟨_, scan_ok_congr ?_, ?_, ?_, ?_⟩
      · rw [h4, h2, hpw]
        simp only [ne_eq, not_true_eq_false, if_false]
        exact add_uint_mod m w hw0
      · refine ⟨hname, ?_, Or.inr ⟨rfl, rfl, h4, h3, htyp⟩⟩
        simp only [h1]; exact hw0
      · simp only [h1, hpw]; exact (Int.toNat_of_nonneg hw0).symm
      · simp only [typeName, htype]
    · cases hwidth
  · cases hsub

/-- The two lists of sub-record types have no type in common. -/
theorem plainSubRecords_not_checked (typ : String) (h : typ ∈ plainSubRecords) :
    typ ∉ checkedSubRecords := by
  simp only [plainSubRecords, List.mem_cons, List.mem_singleton, List.not_mem_nil,
    or_false] at h
  rcases h with h | h | h | h <;> (rw [h]; decide)

/-- One call event at a cursor inside the payload. -/
theorem eventsWithin_call (payload : List Nat) (trace : List Event) (typ : String)
    (o : Nat) (h : o ≤ payload.length) :
    EventsWithin payload trace (trace ++ [Event.call typ o]) := by
  refine ⟨[Event.call typ o], rfl, ?_⟩
  intro e he
  simp only [List.mem_singleton] at he
  exact Or.inr ⟨typ, o, he, h⟩

/-- The statements of one sub-parser record whose sub-parser consumes the
declared width, run at a cursor that leaves room for it: the run goes on with
the cursor advanced by the width, or returns `nil` because the result is
invalid; the only new event is the call, at the cursor. -/
theorem exec_subParser_record (sub : SubParsers) (t : Codec) (payload : List Nat)
    (minLength : Nat) (fields : List fieldType) (fieldI : Nat) (ft : fieldType)
    (hrec : SubParserRecord ft)
    (hcons : ConsumesWidth sub payload ft.typ ft.width.toNat) (s : State)
    (hroom : s.offset + ft.width.toNat ≤ payload.length) :
    ∃ stmts, emitField fields fieldI ft = .ok stmts
      ∧ AdvancesOrReturns payload s ft.width.toNat
          (execStmts sub t payload minLength stmts s) := by
  obtain ⟨hname, hw0, hkind⟩ := hrec
  obtain ⟨valid, hcall⟩ := hcons s.offset hroom
  have hin : s.offset ≤ payload.length := by omega
  rcases hkind with hemb | ⟨hemb, harr, hdep, hvar, htyp⟩
  · refine ⟨[Stmt.simple (Simple.embed ft.typ)], ?_, Or.inl ?_⟩
    · unfold emitField
      rw [if_neg hname]
      simp only [hemb, if_true]
    · simp only [execStmts, execStmt, execSimple, callParser, hcall]
      exact ⟨_, rfl, rfl, eventsWithin_call payload s.trace ft.typ s.offset hin⟩
  · have hhead : ∀ parse, emitParse ft = .ok parse →
        emitField fields fieldI ft
          = .ok ((Simple.lengthConst ft.width :: parse).map Stmt.simple) := by
      intro parse hp
      unfold emitField
      rw [if_neg hname]
      simp only [hemb, harr, Bool.false_eq_true, if_false, hp, hdep]
      simp only [emitLength, hvar, Bool.false_eq_true, if_false]
      rfl
    by_cases hchecked : ft.typ ∈ checkedSubRecords
    · by_cases hwpos : ft.width > 0
      · have hp : emitParse ft = .ok [Simple.subRecord ft.name ft.typ,
            Simple.validCheck ft.name] := by
          unfold emitParse
          rw [if_pos hchecked]
          simp only [hwpos, if_true]
        refine ⟨_, hhead _ hp, ?_⟩
        rw [execStmts_map_simple]
        simp only [execSimples, execSimple, callParser, hcall, Record.validOf_set]
        cases valid with
        | true =>
          exact Or.inl ⟨_, rfl, rfl,
            eventsWithin_call payload s.trace ft.typ s.offset hin⟩
        | false =>
          exact Or.inr ⟨_, rfl,
            eventsWithin_call payload s.trace ft.typ s.offset hin⟩
      · have hp : emitParse ft = .ok [Simple.subRecord ft.name ft.typ] := by
          unfold emitParse
          rw [if_pos hchecked]
          simp only [hwpos, if_false]
        refine ⟨_, hhead _ hp, Or.inl ?_⟩
        rw [execStmts_map_simple]
        simp only [execSimples, execSimple, callParser, hcall]
        exact ⟨_, rfl, rfl, eventsWithin_call payload s.trace ft.typ s.offset hin⟩
    · have hplain : ft.typ ∈ plainSubRecords := by
        rcases htyp with h | h
        · exact absurd h hchecked
        · exact h
      have hp : emitParse ft = .ok [Simple.subRecord ft.name ft.typ] := by
        unfold emitParse
        rw [if_neg hchecked, if_pos hplain]
      refine ⟨_, hhead _ hp, Or.inl ?_⟩
      rw [execStmts_map_simple]
      simp only [execSimples, execSimple, callParser, hcall]
      exact ⟨_, rfl, rfl, eventsWithin_call payload s.trace ft.typ s.offset hin⟩

/-- Reads inside the payload are events inside the payload. -/
theorem ReadsWithin.eventsWithin {payload : List Nat} {before after : List Event}
    (h : ReadsWithin payload before after) : EventsWithin payload before after := by
  obtain ⟨added, heq, hin⟩ := h
  exact ⟨added, heq, fun e he => Or.inl (hin e he)⟩

/-- Events inside the payload, followed by events inside the payload. -/
theorem EventsWithin.trans {payload : List Nat} {a b c : List Event}
    (h1 : EventsWithin payload a b) (h2 : EventsWithin payload b c) :
    EventsWithin payload a c := by
  obtain ⟨x, hx, hinx⟩ := h1
  obtain ⟨y, hy, hiny⟩ := h2
  refine ⟨x ++ y, by rw [hy, hx, List.append_assoc], ?_⟩
  intro e he
  rcases List.mem_append.mp he with h | h
  · exact hinx e h
  · exact hiny e h

/-- The statements of one exact record, run at a cursor that leaves room for
its width. -/
theorem exec_exact_record (sub : SubParsers) (t : Codec) (payload : List Nat)
    (minLength : Nat) (fields : List fieldType) (fieldI : Nat) (ft : fieldType)
    (hrec : ExactRecord sub payload ft) (hw : ft.width < two64) (s : State)
    (hroom : s.offset + ft.width.toNat ≤ payload.length) :
    ∃ stmts, emitField fields fieldI ft = .ok stmts
      ∧ AdvancesOrReturns payload s ft.width.toNat
          (execStmts sub t payload minLength stmts s) := by
  rcases hrec with hplain | ⟨hsubrec, hcons⟩
  · obtain ⟨stmts, s1, hemit, hrun, hoff, hreads⟩ :=
      exec_plain_record sub t payload minLength fields fieldI ft hplain hw s hroom
    exact ⟨stmts, hemit, Or.inl ⟨s1, hrun, hoff, hreads.eventsWithin⟩⟩
  · exact exec_subParser_record sub t payload minLength fields fieldI ft hsubrec
      hcons s hroom

/-- The width of an exact record is not negative. -/
theorem ExactRecord.width_nonneg {sub : SubParsers} {payload : List Nat}
    {ft : fieldType} (h : ExactRecord sub payload ft) : 0 ≤ ft.width := by
  rcases h with hplain | ⟨hsubrec, -⟩
  · exact hplain.2.2.2.2.1
  · exact hsubrec.2.1

/-- The statements of a list of exact records, run at a cursor that leaves
room for their total width: the run does not panic; it goes on with the
cursor advanced by the total width, or returns `nil`, and the new events lie
inside the payload. -/
theorem exec_exact_records (sub : SubParsers) (t : Codec) (payload : List Nat)
    (minLength : Nat) (fields : List fieldType) (fts : List fieldType) :
    ∀ (fieldI : Nat) (s : State), (∀ ft ∈ fts, ExactRecord sub payload ft) →
      s.offset + (fts.map (fun ft => ft.width.toNat)).sum ≤ payload.length →
      payload.length < two64 →
      ∃ stmts, emitFrom fields fieldI fts = .ok stmts
        ∧ AdvancesOrReturns payload s (fts.map (fun ft => ft.width.toNat)).sum
            (execStmts sub t payload minLength stmts s) := by
  induction fts with
  | nil =>
    intro fieldI s _ _ _
    exact ⟨[], rfl, Or.inl ⟨s, rfl, by simp, ⟨[], by simp, by intro e he; cases he⟩⟩⟩
  | cons ft rest ih =>
    intro fieldI s hall hroom hlen
    simp only [List.map_cons, List.sum_cons] at hroom
    have hrec := hall ft (List.mem_cons_self _ _)
    have hw : ft.width < two64 := by
      have h0 := hrec.width_nonneg
      have : (ft.width.toNat : Int) = ft.width := Int.toNat_of_nonneg h0
      have h64 := two64_eq
      omega
    obtain ⟨stmts, hemit, hstep⟩ :=
      exec_exact_record sub t payload minLength fields fieldI ft hrec hw s (by omega)
    rcases hstep with ⟨s1, hrun, hoff, hev⟩ | ⟨s1, hrun, hev⟩
    · obtain ⟨more, hemit2, hstep2⟩ :=
        ih (fieldI + 1) s1 (fun x hx => hall x (List.mem_cons_of_mem _ hx))
          (by omega) hlen
      refine ⟨stmts ++ more, by simp only [emitFrom, hemit, hemit2], ?_⟩
      rw [execStmts_append_next sub t payload minLength stmts more s s1 hrun]
      rcases hstep2 with ⟨s2, hrun2, hoff2, hev2⟩ | ⟨s2, hrun2, hev2⟩
      · refine Or.inl ⟨s2, hrun2, ?_, hev.trans hev2⟩
        simp only [List.map_cons, List.sum_cons]; omega
      · exact Or.inr ⟨s2, hrun2, hev.trans hev2⟩
    · -- the statements of the other records are emitted but not run
      have hrest : ∃ more, emitFrom fields (fieldI + 1) rest = .ok more := by
        obtain ⟨more, hemit2, -⟩ :=
          ih (fieldI + 1) { s with offset := s.offset + ft.width.toNat }
            (fun x hx => hall x (List.mem_cons_of_mem _ hx)) (by simp only; omega) hlen
        exact ⟨more, hemit2⟩
      obtain ⟨more, hemit2⟩ := hrest
      refine ⟨stmts ++ more, by simp only [emitFrom, hemit, hemit2], ?_⟩
      rw [execStmts_append_ret sub t payload minLength stmts more none s s1 hrun]
      exact Or.inr ⟨s1, rfl, hev⟩

/-- The scan of an exact field adds its width to `minLength` and records an
exact record of that width. -/
theorem scanField_exact (sub : SubParsers) (payload : List Nat) (m : Nat)
    (field : AstField) (hm : m < two64) (hexact : exactField field = true)
    (hcons : subParserField field = true →
      ConsumesWidth sub payload (typeName field) (plainWidth field)) :
    ∃ ft, scanField m field = .ok ((m + plainWidth field) % two64, ft)
      ∧ ExactRecord sub payload ft ∧ ft.width.toNat = plainWidth field := by
  unfold exactField at hexact
  rw [Bool.or_eq_true] at hexact
  by_cases hsubf : subParserField field = true
  · obtain ⟨ft, hscan, hrec, hwidth, htyp⟩ := scanField_subParser m field hm hsubf
    refine ⟨ft, hscan, Or.inr ⟨hrec, ?_⟩, by rw [hwidth]; rfl⟩
    rw [htyp, hwidth]
    exact hcons hsubf
  · rcases hexact with hplain | h
    · obtain ⟨ft, hscan, hrec, hwidth, -⟩ := scanField_plain m field hm hplain
      exact ⟨ft, hscan, Or.inl hrec, by rw [hwidth]; rfl⟩
    · exact absurd h hsubf

/-- The scan of a list of exact fields adds their total width to `minLength`
and appends exact records of the same widths. -/
theorem scanFrom_exact (sub : SubParsers) (payload : List Nat)
    (astFields : List AstField) :
    ∀ (m : Nat) (acc : List fieldType), m < two64 →
      (∀ f ∈ astFields, exactField f = true) →
      (∀ f ∈ astFields, subParserField f = true →
        ConsumesWidth sub payload (typeName f) (plainWidth f)) →
      ∃ fts, scanFrom m acc astFields
          = .ok ((m + totalWidth astFields) % two64, acc ++ fts)
        ∧ (∀ ft ∈ fts, ExactRecord sub payload ft)
        ∧ (fts.map (fun ft => ft.width.toNat)).sum = totalWidth astFields := by
  induction astFields with
  | nil =>
    intro m acc hm _ _
    refine ⟨[], ?_, ?_, rfl⟩
    · simp only [scanFrom, totalWidth, List.map_nil, List.sum_nil, Nat.add_zero,
        List.append_nil]
      rw [Nat.mod_eq_of_lt hm]
    · intro ft hft; cases hft
  | cons field rest ih =>
    intro m acc hm hexact hcons
    obtain ⟨ft, hscan, hrec, hwidth⟩ :=
      scanField_exact sub payload m field hm (hexact field (List.mem_cons_self _ _))
        (hcons field (List.mem_cons_self _ _))
    have hpos : 0 < two64 := by decide
    obtain ⟨fts, hrest, hall, hsum⟩ :=
      ih ((m + plainWidth field) % two64) (acc ++ [ft]) (Nat.mod_lt _ hpos)
        (fun f hf => hexact f (List.mem_cons_of_mem _ hf))
        (fun f hf => hcons f (List.mem_cons_of_mem _ hf))
    refine ⟨ft :: fts, ?_, ?_, ?_⟩
    · unfold scanFrom
      rw [hscan]
      simp only
      rw [hrest]
      simp only [totalWidth, List.map_cons, List.sum_cons, List.append_assoc,
        List.singleton_append]
      congr 2
      rw [Nat.mod_add_mod, Nat.add_assoc]
    · intro x hx
      cases hx with
      | head => exact hrec
      | tail _ h => exact hall x h
    · simp only [List.map_cons, List.sum_cons, totalWidth, hsum, hwidth]

/-- C5, amended: with no `minValidMap` entry for the struct, for a struct
whose fields are all unconditional and of fixed width (fields read with an
extractor, `Valid`, and embedded structs or sub-records whose parsers consume
exactly the declared width), whenever the minimum-length check of the emitted
parser passes, the parser does not panic, every read it performs lies inside
the payload (`offset + width <= len(payload)`), every call of a sub-parser
starts at a cursor inside the payload, and a value is returned only with the
cursor at the starting offset plus the total width. -/
theorem C5_fixed_width_struct_reads_in_bounds (name : String)
    (astFields : List AstField) (fn : ParseFunc)
    (hgen : generate name astFields = .ok fn)
    (hexact : ∀ f ∈ astFields, exactField f = true)
    (hwidth : totalWidth astFields < two63)
    (sub : SubParsers) (t : Codec) (payload : List Nat) (offset : Nat)
    (hcons : ∀ f ∈ astFields, subParserField f = true →
      ConsumesWidth sub payload (typeName f) (plainWidth f))
    (hno : t.minValidMap name = none)
    (hlen : payload.length < two63) (hoff : offset < two63)
    (hpass : tooShort t fn payload offset = false) :
    ∃ r off trace, runFunc sub t fn payload offset = Outcome.returned r off trace
      ∧ (∀ o w, Event.read o w ∈ trace → o + w ≤ payload.length)
      ∧ (∀ typ o, Event.call typ o ∈ trace → o ≤ payload.length)
      ∧ (r ≠ none → off = offset + totalWidth astFields) := by
  have h63 := two63_eq
  have h64 := two64_eq
  have h6364 : two63 < two64 := by decide
  obtain ⟨fts, hscan, hall, hsum⟩ :=
    scanFrom_exact sub payload astFields 0 [] (by decide) hexact hcons
  rw [Nat.zero_add, Nat.mod_eq_of_lt (by omega), List.nil_append] at hscan
  have hscan2 : scanFields astFields = .ok (totalWidth astFields, fts) := hscan
  obtain ⟨hname, -, hmin⟩ :=
    generate_prologue name astFields fn _ fts hscan2 hgen
  have hbits : minBitsForValid t fn = totalWidth astFields := by
    unfold minBitsForValid
    rw [hname, hno, hmin]
  have hroom : offset + totalWidth astFields ≤ payload.length := by
    unfold tooShort at hpass
    rw [hbits, int_eq_self (offset : Int) (by omega) (by omega),
      int_eq_self ((payload.length : Int) - offset) (by omega) (by omega),
      int_eq_self _ (by omega) (by omega)] at hpass
    have := of_decide_eq_false hpass
    omega
  obtain ⟨stmts, hemit, hstep⟩ :=
    exec_exact_records sub t payload (uint fn.minLength) fts fts 0
      { offset := offset } hall (by simp only [hsum]; exact hroom) (by omega)
  have hbody := generate_body name astFields fn _ fts stmts hscan2 hemit hgen
  have hevents : ∀ trace, EventsWithin payload [] trace →
      (∀ o w, Event.read o w ∈ trace → o + w ≤ payload.length)
      ∧ (∀ typ o, Event.call typ o ∈ trace → o ≤ payload.length) := by
    intro trace hev
    obtain ⟨added, heq, hin⟩ := hev
    rw [List.nil_append] at heq
    subst heq
    constructor
    · intro o w hmem
      rcases hin _ hmem with ⟨o1, w1, he, hle⟩ | ⟨typ, o1, he, -⟩
      · cases he; exact hle
      · cases he
    · intro typ o hmem
      rcases hin _ hmem with ⟨o1, w1, he, -⟩ | ⟨typ1, o1, he, hle⟩
      · cases he
      · cases he; exact hle
  unfold runFunc
  rw [hpass]
  simp only [Bool.false_eq_true, if_false]
  rw [hbody]
  rcases hstep with ⟨s1, hrun, hoff1, hev⟩ | ⟨s1, hrun, hev⟩
  · simp only [hsum] at hoff1
    rw [execStmts_append_next sub t payload _ stmts _ _ s1 hrun]
    obtain ⟨hr, hc⟩ := hevents s1.trace hev
    by_cases hpkt : isPacketType name = true
    · simp only [hpkt, if_true, execStmts, execStmt, execSimple]
      rw [if_neg (by omega)]
      exact ⟨_, _, _, rfl, hr, hc, fun _ => hoff1⟩
    · simp only [hpkt, if_false, execStmts]
      exact ⟨_, _, _, rfl, hr, hc, fun _ => hoff1⟩
  · rw [execStmts_append_ret sub t payload _ stmts _ none _ s1 hrun]
    obtain ⟨hr, hc⟩ := hevents s1.trace hev
    exact ⟨_, _, _, rfl, hr, hc, fun h => absurd rfl h⟩

/-- The sub-parsers `fixedSub` consume 38 bits for a `Header`. -/
theorem fixedSub_header (payload : List Nat) :
    ConsumesWidth fixedSub payload "Header" 38 := by
  intro offset h
  exact ⟨true, by simp [fixedSub, h]⟩

/-- The sub-parsers `fixedSub` consume 19 bits for a communication state. -/
theorem fixedSub_state (payload : List Nat) :
    ConsumesWidth fixedSub payload "CommunicationStateNoItdma" 19 := by
  intro offset h
  exact ⟨true, by simp [fixedSub, h]⟩

/-- C5 at the struct `reportMessage` and a payload of 70 bits read from the
cursor 5. -/
theorem C5_witness :
    ∃ r off trace, runFunc fixedSub plainCodec reportMessageFunc (List.replicate 70 0) 5
        = Outcome.returned r off trace
      ∧ (∀ o w, Event.read o w ∈ trace → o + w ≤ (List.replicate 70 0).length)
      ∧ (∀ typ o, Event.call typ o ∈ trace → o ≤ (List.replicate 70 0).length)
      ∧ (r ≠ none → off = 5 + totalWidth reportMessage) :=
  C5_fixed_width_struct_reads_in_bounds "PositionReport" reportMessage
    reportMessageFunc (by rfl) (by decide) (by decide) fixedSub plainCodec
    (List.replicate 70 0) 5
    (by
      intro f hf hs
      simp only [reportMessage, List.mem_cons, List.mem_singleton, List.not_mem_nil,
        or_false] at hf
      rcases hf with h | h | h | h | h
      · subst h; exact fixedSub_header _
      · subst h; exact absurd hs (by decide)
      · subst h; exact absurd hs (by decide)
      · subst h; exact absurd hs (by decide)
      · subst h; exact fixedSub_state _)
    rfl (by decide) (by decide) (by decide)

/-! ## The dispatch table (C11) -/

/-- C11: the emitted dispatch table has its entries in ascending order of
the identifiers, which are exactly 1 to 27; the entry of an identifier is
bound to `parse` followed by `msgMap[id]`; the identifiers 1, 2 and 3 are
bound to the same parser `parsePositionReport`; an identifier outside 1 to
27, such as 99, has no entry. -/
theorem C11_dispatch_table :
    mapperEntries.map Prod.fst = List.range' 1 27
    ∧ (∀ id, 1 ≤ id → id ≤ 27 →
        (mapperEntries.lookup id).isSome = true ∧
        mapperEntries.lookup id
          = (msgMap.lookup id).map (fun name => "parse" ++ name))
    ∧ mapperEntries.lookup 1 = some "parsePositionReport"
    ∧ mapperEntries.lookup 2 = some "parsePositionReport"
    ∧ mapperEntries.lookup 3 = some "parsePositionReport"
    ∧ mapperEntries.lookup 99 = none
    ∧ (∀ id, (id < 1 ∨ 27 < id) → mapperEntries.lookup id = none) := by
  have hkeys : mapperEntries.map Prod.fst = List.range' 1 27 := by decide
  refine ⟨hkeys, ?_, by decide, by decide, by decide, by decide, ?_⟩
  · have hall : ∀ id ∈ List.range' 1 27,
        (mapperEntries.lookup id).isSome = true ∧
        mapperEntries.lookup id
          = (msgMap.lookup id).map (fun name => "parse" ++ name) := by decide
    intro id h1 h27
    exact hall id (by rw [List.mem_range']; exact ⟨id - 1, by omega, by omega⟩)
  · intro id hout
    rw [List.lookup_eq_none_iff]
    intro e he
    have hmem : e.1 ∈ mapperEntries.map Prod.fst := List.mem_map_of_mem Prod.fst he
    rw [hkeys, List.mem_range'] at hmem
    obtain ⟨i, hi, heq⟩ := hmem
    have hne : id ≠ e.1 := by omega
    simpa using hne

/-! ## Failure returns (C12) -/

/-- A block-free statement that returns contains a `return nil`. -/
theorem execSimple_ret_returnsNil (sub : SubParsers) (t : Codec) (payload : List Nat)
    (minLength : Nat) (stmt : Simple) (s s1 : State) (r : Option Record)
    (h : execSimple sub t payload minLength stmt s = Step.ret r s1) :
    stmt.returnsNil = true := by
  cases stmt with
  | setValid => simp only [execSimple] at h; cases h
  | embed typ =>
    simp only [execSimple] at h
    exact (callParser_ne_ret sub payload typ _ s s1 r h).elim
  | declElems n typ => simp only [execSimple] at h; cases h
  | elem i typ =>
    simp only [execSimple] at h
    exact (callParser_ne_ret sub payload typ _ s s1 r h).elim
  | elemCheck i => rfl
  | assignElems name => simp only [execSimple] at h; cases h
  | lengthRest => simp only [execSimple] at h; cases h
  | lengthRestMinus r1 => simp only [execSimple] at h; cases h
  | lengthConst w => simp only [execSimple] at h; cases h
  | lengthFromMin => simp only [execSimple] at h; cases h
  | checkLength => rfl
  | sliceBytes name =>
    simp only [execSimple] at h
    split at h <;> cases h
  | subRecord name typ =>
    simp only [execSimple] at h
    exact (callParser_ne_ret sub payload typ _ s s1 r h).elim
  | validCheck name => rfl
  | extractNumber isSigned =>
    simp only [execSimple] at h
    split at h <;> cases h
  | storeNum name conv => simp only [execSimple] at h; cases h
  | extractString =>
    simp only [execSimple] at h
    split at h <;> cases h
  | storeStr name => simp only [execSimple] at h; cases h
  | finalCheck => rfl

/-- Statements without a `return nil` do not return. -/
theorem execStmts_no_return (sub : SubParsers) (t : Codec) (payload : List Nat)
    (minLength : Nat) (stmts : List Stmt)
    (hall : stmts.all (fun stmt => !stmt.returnsNil) = true) :
    ∀ (s s1 : State) (r : Option Record),
      execStmts sub t payload minLength stmts s ≠ Step.ret r s1 := by
  induction stmts with
  | nil => intro s s1 r h; simp only [execStmts] at h; cases h
  | cons stmt rest ih =>
    intro s s1 r h
    rw [List.all_cons, Bool.and_eq_true] at hall
    rw [execStmts] at h
    cases hstep : execStmt sub t payload minLength stmt s with
    | next s2 => rw [hstep] at h; exact ih hall.2 s2 s1 r h
    | ret r2 s2 =>
      cases stmt with
      | simple st =>
        have := execSimple_ret_returnsNil sub t payload minLength st s s2 r2 hstep
        have h1 := hall.1
        simp only [Stmt.returnsNil, this] at h1
        cases h1
      | guarded bit value body =>
        have h1 := hall.1
        simp only [Stmt.returnsNil] at h1
        cases h1
    | fault s2 => rw [hstep] at h; cases h

/-- C12: a call of a generated parser that ends at a failure return (the
return of the prologue or a return inside the field statements) returns
`nil` or the untouched zero value, whose `Valid` is false and which has no
field assigned; a packet parser returns `nil`, and a sub-record parser that
agrees with its return type returns the untouched zero value.  The failure
return is the result of the call. -/
theorem C12_failure_returns_expose_no_partial_value (name : String)
    (astFields : List AstField) (fn : ParseFunc)
    (hgen : generate name astFields = .ok fn)
    (sub : SubParsers) (t : Codec) (payload : List Nat) (offset : Nat)
    (r : Option Record)
    (hfail : failureReturn sub t fn payload offset = some r) :
    (r = none ∨ r = some { Valid := false, fields := [] })
    ∧ (isPacketType name = true → r = none)
    ∧ (isPacketType name = false → fn.returnsTyped = true →
        r = some { Valid := false, fields := [] })
    ∧ (∃ off trace, runFunc sub t fn payload offset = Outcome.returned r off trace) := by
  have hpkt : fn.isPacketType = isPacketType name := by
    unfold generate at hgen
    split at hgen
    · cases hgen
    · split at hgen
      · cases hgen
      · cases hgen; rfl
  unfold failureReturn at hfail
  by_cases hshort : tooShort t fn payload offset = true
  · rw [if_pos hshort] at hfail
    cases hfail
    refine ⟨?_, ?_, ?_, ?_⟩
    · unfold invalidResult
      split
      · exact Or.inl rfl
      · exact Or.inr rfl
    · intro hp
      rw [← hpkt] at hp
      simp only [invalidResult, hp, if_true]
    · intro hp _
      rw [← hpkt] at hp
      simp only [invalidResult, hp, Bool.false_eq_true, if_false]
    · exact ⟨offset, [], by unfold runFunc; rw [if_pos hshort]⟩
  · rw [if_neg hshort] at hfail
    cases hrun : execStmts sub t payload (uint fn.minLength) fn.body
        { offset := offset } with
    | next s => rw [hrun] at hfail; cases hfail
    | fault s => rw [hrun] at hfail; cases hfail
    | ret r1 s =>
      rw [hrun] at hfail
      cases hfail
      have hnone := execStmts_ret_none sub t payload _ fn.body _ s r hrun
      subst hnone
      refine ⟨Or.inl rfl, fun _ => rfl, ?_, ?_⟩
      · intro hp htyped
        rw [← hpkt] at hp
        unfold ParseFunc.returnsTyped at htyped
        rw [hp, Bool.false_or] at htyped
        exact (execStmts_no_return sub t payload _ fn.body htyped _ s none hrun).elim
      · exact ⟨s.offset, s.trace, by unfold runFunc; rw [if_neg hshort, hrun]⟩

/-- C12 at the sub-record struct `plainStruct` with a payload of 10 bits,
less than the 14 it needs: the call returns the untouched zero value. -/
theorem C12_witness :
    failureReturn validSub plainCodec plainStructFunc (List.replicate 10 0) 0
      = some (some { Valid := false, fields := [] })
    ∧ plainStructFunc.returnsTyped = true
    ∧ ((some { Valid := false, fields := [] } : Option Record) = none
        ∨ (some { Valid := false, fields := [] } : Option Record)
            = some { Valid := false, fields := [] }) :=
  ⟨by decide, by decide,
   (C12_failure_returns_expose_no_partial_value "NamedData" plainStruct
      plainStructFunc (by rfl) validSub plainCodec (List.replicate 10 0) 0
      (some { Valid := false, fields := [] }) (by decide)).1⟩

/-! ## Fields marked `aisOptional` (C13) -/

/-- The tag loop over a tag without its `aisOptional` pairs leaves the same
variables apart from `skippable`. -/
theorem foldl_tagStep_withoutOptional (tags : List Tag) :
    ∀ v : TagVars,
      (withoutOptional tags).foldl tagStep { v with skippable := false }
        = { tags.foldl tagStep v with skippable := false } := by
  induction tags with
  | nil => intro v; rfl
  | cons tag rest ih =>
    intro v
    cases tag with
    | aisWidth w =>
      simp only [withoutOptional, List.foldl_cons]
      rw [← ih]
      congr 1
      simp only [tagStep]
      split <;> rfl
    | aisDependsBit as0 b =>
      simp only [withoutOptional, List.foldl_cons]
      rw [← ih]
      rfl
    | aisOptional =>
      simp only [withoutOptional, List.foldl_cons]
      rw [← ih]
      rfl
    | other n =>
      simp only [withoutOptional, List.foldl_cons]
      rw [← ih]
      rfl

/-- The tag loop over a tag whose `aisOptional` pairs are replaced leaves
the same variables apart from `skippable`. -/
theorem foldl_tagStep_replaceOptional (tags : List Tag) :
    ∀ v : TagVars,
      (replaceOptional tags).foldl tagStep { v with skippable := false }
        = { tags.foldl tagStep v with skippable := false } := by
  induction tags with
  | nil => intro v; rfl
  | cons tag rest ih =>
    intro v
    cases tag with
    | aisWidth w =>
      simp only [replaceOptional, List.foldl_cons]
      rw [← ih]
      congr 1
      simp only [tagStep]
      split <;> rfl
    | aisDependsBit as0 b =>
      simp only [replaceOptional, List.foldl_cons]
      rw [← ih]
      rfl
    | aisOptional =>
      simp only [replaceOptional, List.foldl_cons]
      rw [← ih]
      rfl
    | other n =>
      simp only [replaceOptional, List.foldl_cons]
      rw [← ih]
      rfl

/-- Replacing the `aisOptional` pairs keeps the number of pairs. -/
theorem replaceOptional_eq_nil (tags : List Tag) :
    replaceOptional tags = [] ↔ tags = [] := by
  cases tags with
  | nil => exact ⟨fun _ => rfl, fun _ => rfl⟩
  | cons tag rest =>
    cases tag <;> simp [replaceOptional]

/-- A tag that keeps a pair without its `aisOptional` pairs has a pair. -/
theorem ne_nil_of_withoutOptional (tags : List Tag)
    (h : withoutOptional tags ≠ []) : tags ≠ [] := by
  intro hnil
  rw [hnil] at h
  exact h rfl

/-- The scan of a named field looks at its tag only through the tag loop
and the test for a tag without pairs: two tags that agree on both give the
same minimum length and the same record apart from `isSkippable`. -/
theorem scanField_tags_congr (m : Nat) (fieldName : String) (rest : List String)
    (type : TypeExpr) (tags other : List Tag)
    (hnil : other = [] ↔ tags = [])
    (hfold : other.foldl tagStep { minLength := m }
      = { tags.foldl tagStep { minLength := m } with skippable := false }) :
    scanField m { names := fieldName :: rest, type := type, tag := some other }
      = match scanField m
            { names := fieldName :: rest, type := type, tag := some tags } with
        | .error e => .error e
        | .ok (m1, ft) => .ok (m1, clearSkippable ft) := by
  unfold scanField
  simp only
  by_cases htags : tags = []
  · rw [if_pos htags, if_pos (hnil.mpr htags)]
  · rw [if_neg htags, if_neg (fun h => htags (hnil.mp h)), hfold]
    rfl

/-- The scan of a field whose `aisOptional` pairs are replaced: the same
minimum length and the same record apart from `isSkippable`. -/
theorem scanField_unmarkOptional (m : Nat) (field : AstField) :
    scanField m (unmarkOptional field)
      = match scanField m field with
        | .error e => .error e
        | .ok (m1, ft) => .ok (m1, clearSkippable ft) := by
  obtain ⟨names, type, tag⟩ := field
  cases names with
  | nil =>
    simp only [unmarkOptional]
    unfold scanField
    simp only
    cases tag with
    | none => rfl
    | some tags =>
      simp only
      cases type with
      | ident typ =>
        simp only
        split <;> rfl
      | array len elt => rfl
      | other => rfl
  | cons fieldName rest =>
    cases tag with
    | none => rfl
    | some tags =>
      simp only [unmarkOptional, Option.map_some']
      exact scanField_tags_congr m fieldName rest type tags (replaceOptional tags)
        (replaceOptional_eq_nil tags)
        (foldl_tagStep_replaceOptional tags { minLength := m })

/-- The scan of a field without its `aisOptional` pairs, when a pair is
left: the same minimum length and the same record apart from `isSkippable`. -/
theorem scanField_dropOptional (m : Nat) (field : AstField)
    (hkeep : keepsPair field = true) :
    scanField m (dropOptional field)
      = match scanField m field with
        | .error e => .error e
        | .ok (m1, ft) => .ok (m1, clearSkippable ft) := by
  obtain ⟨names, type, tag⟩ := field
  cases names with
  | nil =>
    simp only [dropOptional]
    unfold scanField
    simp only
    cases tag with
    | none => rfl
    | some tags =>
      simp only
      cases type with
      | ident typ =>
        simp only
        split <;> rfl
      | array len elt => rfl
      | other => rfl
  | cons fieldName rest =>
    cases tag with
    | none => rfl
    | some tags =>
      simp only [keepsPair, decide_eq_true_eq] at hkeep
      simp only [dropOptional, Option.map_some']
      exact scanField_tags_congr m fieldName rest type tags (withoutOptional tags)
        ⟨fun h => (hkeep h).elim, fun h => (ne_nil_of_withoutOptional tags hkeep h).elim⟩
        (foldl_tagStep_withoutOptional tags { minLength := m })

/-- The scan of a struct whose fields are changed in a way that the scan of
a field sees in `isSkippable` only: the same minimum length and the same
records apart from `isSkippable`. -/
theorem scanFrom_map_congr (change : AstField → AstField)
    (astFields : List AstField) :
    (∀ field ∈ astFields, ∀ m, scanField m (change field)
      = match scanField m field with
        | .error e => .error e
        | .ok (m1, ft) => .ok (m1, clearSkippable ft)) →
    ∀ (m : Nat) (fields : List fieldType),
      scanFrom m (fields.map clearSkippable) (astFields.map change)
        = match scanFrom m fields astFields with
          | .error e => .error e
          | .ok (m1, fs) => .ok (m1, fs.map clearSkippable) := by
  induction astFields with
  | nil => intro _ m fields; rfl
  | cons field rest ih =>
    intro hchange m fields
    simp only [List.map_cons, scanFrom]
    rw [hchange field (List.mem_cons_self _ _)]
    cases hscan : scanField m field with
    | error e => rfl
    | ok res =>
      obtain ⟨m1, ft⟩ := res
      simp only
      have happ : fields.map clearSkippable ++ [clearSkippable ft]
          = (fields ++ [ft]).map clearSkippable := by
        rw [List.map_append]; rfl
      rw [happ]
      exact ih (fun f hf => hchange f (List.mem_cons_of_mem _ hf)) m1 (fields ++ [ft])

/-- The statements of the array elements do not look at `isSkippable`. -/
theorem emitElems_clearSkippable (field : fieldType) (count : Nat) :
    ∀ i, emitElems (clearSkippable field) i count = emitElems field i count := by
  induction count with
  | zero => intro i; rfl
  | succ n ih =>
    intro i
    rw [emitElems, emitElems, ih]
    rfl

/-- The sum of the widths of the later fields does not look at
`isSkippable`. -/
theorem remainingWidth_clearSkippable (fields : List fieldType) (fieldI : Nat) :
    remainingWidth (fields.map clearSkippable) fieldI = remainingWidth fields fieldI := by
  unfold remainingWidth
  rw [← List.map_drop, List.map_map]
  rfl

/-- The statements emitted for a field do not look at `isSkippable`. -/
theorem emitField_clearSkippable (fields : List fieldType) (fieldI : Nat)
    (field : fieldType) :
    emitField (fields.map clearSkippable) fieldI (clearSkippable field)
      = emitField fields fieldI field := by
  have harr : emitArray (fields.map clearSkippable) fieldI (clearSkippable field)
      = emitArray fields fieldI field := by
    unfold emitArray emitByteLength
    rw [emitElems_clearSkippable, remainingWidth_clearSkippable, List.length_map]
    rfl
  unfold emitField
  rw [harr]
  rfl

/-- The emission loop does not look at `isSkippable`. -/
theorem emitFrom_clearSkippable (fields : List fieldType) (rest : List fieldType) :
    ∀ fieldI, emitFrom (fields.map clearSkippable) fieldI (rest.map clearSkippable)
      = emitFrom fields fieldI rest := by
  induction rest with
  | nil => intro fieldI; rfl
  | cons field rest ih =>
    intro fieldI
    simp only [List.map_cons, emitFrom]
    rw [emitField_clearSkippable, ih]

/-- The generator emits the same function for a struct whose fields are
changed in a way that the scan of a field sees in `isSkippable` only. -/
theorem generate_map_congr (name : String) (change : AstField → AstField)
    (astFields : List AstField)
    (hchange : ∀ field ∈ astFields, ∀ m, scanField m (change field)
      = match scanField m field with
        | .error e => .error e
        | .ok (m1, ft) => .ok (m1, clearSkippable ft)) :
    generate name astFields = generate name (astFields.map change) := by
  unfold generate scanFields
  have hscan := scanFrom_map_congr change astFields hchange 0 []
  rw [List.map_nil] at hscan
  rw [hscan]
  cases hres : scanFrom 0 [] astFields with
  | error e => rfl
  | ok res =>
    obtain ⟨m, fs⟩ := res
    simp only
    unfold emitFields
    rw [emitFrom_clearSkippable]
    cases hemit : emitFrom fs 0 fs with
    | error e => rfl
    | ok stmts =>
      simp only [List.any_map]
      rfl

/-- C13 (amended): the mark `aisOptional` has no effect on the generated
parser.  For every struct, the generator emits the same function as for the
struct in which every `aisOptional` pair of a named field is replaced by an
`aisEncodeMaxLen` pair, which the generator passes over; and, when every
named field with a tag has a pair other than the mark, the same function as
for the struct without the `aisOptional` pairs.  The minimum length includes
the width of the marked fields and the statements are the same; so a payload
shorter than the minimum length yields the invalid result whether or not the
missing field is marked. -/
theorem C13_optional_mark_has_no_effect (name : String)
    (astFields : List AstField) :
    generate name astFields = generate name (astFields.map unmarkOptional)
    ∧ ((∀ field ∈ astFields, keepsPair field = true) →
        generate name astFields = generate name (astFields.map dropOptional)) :=
  ⟨generate_map_congr name unmarkOptional astFields
      (fun field _ m => scanField_unmarkOptional m field),
   fun hkeep => generate_map_congr name dropOptional astFields
      (fun field hfield m => scanField_dropOptional m field (hkeep field hfield))⟩

/-- The condition `keepsPair` is needed when the pairs are taken away: for
the struct `markOnly`, whose last field has no pair but the mark, generation
succeeds, while without the mark the field is left with a tag without pairs
and the generator stops. -/
theorem generate_markOnly :
    (∃ fn, generate "SafetyBroadcastMessage" markOnly = .ok fn)
    ∧ generate "SafetyBroadcastMessage" (markOnly.map dropOptional)
        = .error "index out of range" :=
  ⟨⟨_, by rfl⟩, by rfl⟩

/-- C13 fails at the packet struct `optionalTail`, whose field `Extra` of 8
bits is marked `aisOptional`: the minimum length is 10, and a payload that
holds the 2 bits of `Spare` but not `Extra` is answered with `nil`, not with
a valid message. -/
theorem C13_optional_field_missing_returns_nil :
    generate "SafetyBroadcastMessage" optionalTail = .ok optionalTailFunc
    ∧ runFunc validSub plainCodec optionalTailFunc [1, 0] 0
        = Outcome.returned none 0 [] := by
  refine ⟨by rfl, by decide⟩

/-! ## Scaled fields (C14) -/

/-- The statements of the type switch for a type with a numeric case. -/
theorem emitParse_numCase (field : fieldType) (isSigned : Bool) (conv : NumConv)
    (hcase : numCase field.typ = some (isSigned, conv)) :
    emitParse field
      = .ok [Simple.extractNumber isSigned, Simple.storeNum field.name conv] := by
  have hnot : field.typ ∉ checkedSubRecords ∧ field.typ ∉ plainSubRecords
      ∧ field.typ ≠ "string" := by
    unfold numCase at hcase
    split at hcase <;> first
      | (rename_i heq; rw [heq]; decide)
      | cases hcase
  unfold emitParse
  rw [if_neg hnot.1, if_neg hnot.2.1, if_neg hnot.2.2, hcase]

/-- The nearest integer is at most one half away. -/
theorem roundHalfEven_sub_le (t : Rat) : |(roundHalfEven t : Rat) - t| ≤ 1 / 2 := by
  have h1 := Int.floor_le t
  have h2 := Int.lt_floor_add_one t
  unfold roundHalfEven
  split
  · rw [abs_le]; constructor <;> linarith
  · split
    · push_cast
      rw [abs_le]; constructor <;> linarith
    · have heq : t - ⌊t⌋ = 1 / 2 := by
        rename_i h3 h4
        linarith [not_lt.mp h3, not_lt.mp h4]
      split
      · rw [abs_le]; constructor <;> linarith
      · push_cast
        rw [abs_le]; constructor <;> linarith

/-- An integer less than one half away is the nearest integer. -/
theorem roundHalfEven_eq (t : Rat) (z : Int) (h : |t - z| < 1 / 2) :
    roundHalfEven t = z := by
  rw [abs_lt] at h
  obtain ⟨hlo, hhi⟩ := h
  by_cases hge : (z : Rat) ≤ t
  · have hf : ⌊t⌋ = z := by
      rw [Int.floor_eq_iff]
      constructor
      · exact hge
      · linarith
    unfold roundHalfEven
    rw [hf, if_pos (by linarith)]
  · have hf : ⌊t⌋ = z - 1 := by
      rw [Int.floor_eq_iff]
      push_cast
      constructor <;> linarith
    unfold roundHalfEven
    rw [hf]
    push_cast
    rw [if_neg (by linarith), if_pos (by linarith)]
    ring

/-- The nearest integer of an integer is the integer itself. -/
theorem roundHalfEven_intCast (z : Int) : roundHalfEven (z : Rat) = z :=
  roundHalfEven_eq _ z (by simp)

/-- Rounding to `float64` changes a value by at most 2^-53 of it. -/
theorem round64_sub_le (q : Rat) : |round64 q - q| ≤ |q| / 2 ^ 53 := by
  unfold round64
  by_cases hq : q = 0
  · rw [if_pos hq, hq]; simp
  · rw [if_neg hq]
    have habs : 0 < |q| := abs_pos.mpr hq
    have hlog := Int.zpow_log_le_self (b := 2) (by norm_num) habs
    set e := Int.log 2 |q| with he
    have hu : (0 : Rat) < 2 ^ (e - 52) := zpow_pos (by norm_num) _
    have hr := roundHalfEven_sub_le (q / 2 ^ (e - 52))
    have hfact : (roundHalfEven (q / 2 ^ (e - 52)) : Rat) * 2 ^ (e - 52) - q
        = ((roundHalfEven (q / 2 ^ (e - 52)) : Rat) - q / 2 ^ (e - 52)) * 2 ^ (e - 52) := by
      field_simp
    rw [hfact, abs_mul, abs_of_pos hu]
    have hsplit : (2 : Rat) ^ (e - 52) = 2 ^ e / 2 ^ 52 := by
      rw [zpow_sub₀ (by norm_num)]
      norm_num
    have hlog2 : ((2 : ℕ) : Rat) ^ e ≤ |q| := hlog
    have hlog3 : (2 : Rat) ^ e ≤ |q| := by exact_mod_cast hlog2
    calc |(roundHalfEven (q / 2 ^ (e - 52)) : Rat) - q / 2 ^ (e - 52)| * 2 ^ (e - 52)
        ≤ 1 / 2 * 2 ^ (e - 52) := by
          exact mul_le_mul_of_nonneg_right hr hu.le
      _ = 2 ^ e / 2 ^ 53 := by rw [hsplit]; ring
      _ ≤ |q| / 2 ^ 53 := by
          exact div_le_div_of_nonneg_right hlog3 (by positivity)


/-- The value of `round64` at a rational whose binary exponent and nearest
multiple of the unit in the last place are known. -/
theorem round64_eq_of (q : Rat) (e z : Int) (hq : q ≠ 0)
    (h1 : (2 : Rat) ^ e ≤ |q|) (h2 : |q| < (2 : Rat) ^ (e + 1))
    (hz : |q / 2 ^ (e - 52) - z| < 1 / 2) :
    round64 q = z * 2 ^ (e - 52) := by
  have habs : 0 < |q| := abs_pos.mpr hq
  have hlog : Int.log 2 |q| = e := by
    have ha : e ≤ Int.log 2 |q| := by
      rw [← Int.zpow_le_iff_le_log (by norm_num) habs]
      exact_mod_cast h1
    have hb : Int.log 2 |q| < e + 1 := by
      rw [← Int.lt_zpow_iff_log_lt (by norm_num) habs]
      exact_mod_cast h2
    omega
  unfold round64
  rw [if_neg hq, hlog, roundHalfEven_eq _ z hz]

/-- Rounding leaves a value with a significand of at most 53 bits as it
is. -/
theorem round64_exact (n j : Int) (hn : |n| < 2 ^ 53) :
    round64 ((n : Rat) * 2 ^ j) = (n : Rat) * 2 ^ j := by
  by_cases h0 : n = 0
  · rw [h0]
    unfold round64
    simp
  · have h2pos : (0 : Rat) < 2 ^ j := zpow_pos (by norm_num) _
    have hq : (n : Rat) * 2 ^ j ≠ 0 :=
      mul_ne_zero (by exact_mod_cast h0) h2pos.ne'
    have habs : 0 < |(n : Rat) * 2 ^ j| := abs_pos.mpr hq
    set e := Int.log 2 |(n : Rat) * 2 ^ j| with he
    have hlt : e < 53 + j := by
      rw [he, ← Int.lt_zpow_iff_log_lt (by norm_num) habs]
      rw [abs_mul, abs_of_pos h2pos]
      have hn2 : |(n : Rat)| < 2 ^ 53 := by exact_mod_cast hn
      have : ((2 : ℕ) : Rat) ^ (53 + j) = 2 ^ 53 * 2 ^ j := by
        rw [zpow_add₀ (by norm_num)]
        norm_num
      rw [this]
      exact mul_lt_mul_of_pos_right hn2 h2pos
    obtain ⟨k, hk⟩ : ∃ k : Nat, (k : Int) = 52 + j - e := ⟨(52 + j - e).toNat, by omega⟩
    have hdiv : (n : Rat) * 2 ^ j / 2 ^ (e - 52) = ((n * 2 ^ k : Int) : Rat) := by
      rw [mul_div_assoc, ← zpow_sub₀ (by norm_num)]
      have : j - (e - 52) = (k : Int) := by omega
      rw [this, zpow_natCast]
      push_cast
      ring
    unfold round64
    rw [if_neg hq, ← he, hdiv, roundHalfEven_intCast]
    push_cast
    rw [mul_assoc, ← zpow_natCast, ← zpow_add₀ (by norm_num)]
    congr 2
    omega

/-- The conversion of an integer of at most 53 bits is exact. -/
theorem f64ofInt_exact (n : Int) (hn : |n| < 2 ^ 53) : f64ofInt n = n := by
  have := round64_exact n 0 hn
  simpa [f64ofInt] using this


/-- A rounded division differs from the quotient by at most 2^-53 of it. -/
theorem f64div_sub_le (x y : Rat) : |f64div x y - x / y| ≤ |x / y| / 2 ^ 53 :=
  round64_sub_le (x / y)

/-- Two rounded divisions in a row differ from the quotient by the product
by at most 2^-51 of it. -/
theorem f64div_f64div_sub_le (x a b : Rat) (hb : 0 < b) :
    |f64div (f64div x a) b - x / (a * b)| ≤ |x / (a * b)| / 2 ^ 51 := by
  have h1 := f64div_sub_le x a
  have h2 := f64div_sub_le (f64div x a) b
  have hquot : x / (a * b) = x / a / b := by rw [div_div]
  rw [hquot]
  set x1 := f64div x a with hx1
  set x2 := f64div x1 b with hx2
  have hA : 0 ≤ |x / a| := abs_nonneg _
  have h3 : |x1| ≤ |x / a| + |x / a| / 2 ^ 53 := by
    have := abs_sub_abs_le_abs_sub x1 (x / a)
    linarith
  have h4 : |x1 / b - x / a / b| = |x1 - x / a| / b := by
    rw [← sub_div, abs_div, abs_of_pos hb]
  have h5 : |x1 / b| = |x1| / b := by rw [abs_div, abs_of_pos hb]
  have h6 : |x / a / b| = |x / a| / b := by rw [abs_div, abs_of_pos hb]
  have htri : |x2 - x / a / b| ≤ |x2 - x1 / b| + |x1 / b - x / a / b| :=
    abs_sub_le _ _ _
  rw [h5] at h2
  rw [h4] at htri
  rw [h6]
  have hb1 : |x1 - x / a| / b ≤ |x / a| / 2 ^ 53 / b :=
    div_le_div_of_nonneg_right h1 hb.le
  have hb2 : |x1| / b / 2 ^ 53 ≤ (|x / a| + |x / a| / 2 ^ 53) / b / 2 ^ 53 :=
    div_le_div_of_nonneg_right (div_le_div_of_nonneg_right h3 hb.le) (by positivity)
  have hB : 0 ≤ |x / a| / b := div_nonneg hA hb.le
  have hb0 : b ≠ 0 := hb.ne'
  generalize |x / a| = A at *
  have e1 : A / 2 ^ 53 / b = A / b * (1 / 2 ^ 53) := by ring
  have e2 : (A + A / 2 ^ 53) / b / 2 ^ 53
      = A / b * ((1 + 1 / 2 ^ 53) * (1 / 2 ^ 53)) := by ring
  have e3 : A / b / 2 ^ 51 = A / b * (1 / 2 ^ 51) := by ring
  rw [e1] at hb1
  rw [e2] at hb2
  rw [e3]
  have hconst : (1 + 1 / 2 ^ 53) * (1 / 2 ^ 53) + 1 / 2 ^ 53 ≤ (1 / 2 ^ 51 : Rat) := by
    norm_num
  have := mul_le_mul_of_nonneg_left hconst hB
  linarith

/-- Two rounded divisions of a multiple of the product are exact. -/
theorem f64div_f64div_exact (a b : Nat) (j : Int) (ha : 0 < a) (hb : 0 < b)
    (hN : |(a : Int) * b * j| < 2 ^ 53) :
    f64div (f64div (f64ofInt ((a : Int) * b * j)) a) b = j := by
  have hbj : |(b : Int) * j| < 2 ^ 53 := by
    have : |(b : Int) * j| ≤ |(a : Int) * b * j| := by
      rw [mul_assoc, abs_mul (a : Int)]
      have ha1 : (1 : Int) ≤ |(a : Int)| := by
        rw [abs_of_nonneg (by positivity)]
        exact_mod_cast ha
      exact le_mul_of_one_le_left (abs_nonneg _) ha1
    omega
  have hj : |j| < 2 ^ 53 := by
    have : |j| ≤ |(b : Int) * j| := by
      rw [abs_mul]
      have hb1 : (1 : Int) ≤ |(b : Int)| := by
        rw [abs_of_nonneg (by positivity)]
        exact_mod_cast hb
      exact le_mul_of_one_le_left (abs_nonneg _) hb1
    omega
  have ha0 : (a : Rat) ≠ 0 := by exact_mod_cast ha.ne'
  have hb0 : (b : Rat) ≠ 0 := by exact_mod_cast hb.ne'
  rw [f64ofInt_exact _ hN]
  have e1 : (((a : Int) * b * j : Int) : Rat) / a = (((b : Int) * j : Int) : Rat) := by
    push_cast
    field_simp
    ring
  have r1 : f64div (((a : Int) * b * j : Int) : Rat) a = (((b : Int) * j : Int) : Rat) := by
    unfold f64div
    rw [e1]
    have := round64_exact ((b : Int) * j) 0 hbj
    simpa using this
  rw [r1]
  have e2 : (((b : Int) * j : Int) : Rat) / b = (j : Rat) := by
    push_cast
    field_simp
  unfold f64div
  rw [e2]
  have := round64_exact j 0 hj
  simpa using this

/-- One rounded division of a multiple is exact. -/
theorem f64div_exact (a : Nat) (j : Int) (ha : 0 < a)
    (hN : |(a : Int) * j| < 2 ^ 53) :
    f64div (f64ofInt ((a : Int) * j)) a = j := by
  have hj : |j| < 2 ^ 53 := by
    have : |j| ≤ |(a : Int) * j| := by
      rw [abs_mul]
      have ha1 : (1 : Int) ≤ |(a : Int)| := by
        rw [abs_of_nonneg (by positivity)]
        exact_mod_cast ha
      exact le_mul_of_one_le_left (abs_nonneg _) ha1
    omega
  have ha0 : (a : Rat) ≠ 0 := by exact_mod_cast ha.ne'
  rw [f64ofInt_exact _ hN]
  have e2 : (((a : Int) * j : Int) : Rat) / a = (j : Rat) := by
    push_cast
    field_simp
  unfold f64div
  rw [e2]
  have := round64_exact j 0 hj
  simpa using this

/-- The `float64` value of `-4 / 10000 / 60`. -/
theorem f64div_minus_four :
    f64div (f64div (f64ofInt (-4)) 10000) 60 = -7870610804782742 / 2 ^ 70 := by
  rw [f64ofInt_exact (-4) (by norm_num)]
  have r1 : f64div ((-4 : Int) : Rat) 10000 = (-7378697629483821 : Int) * 2 ^ (-12 - 52 : Int) := by
    unfold f64div
    apply round64_eq_of
    · norm_num
    · norm_num [abs_div]
    · norm_num [abs_div]
    · norm_num [abs_lt]
  rw [r1]
  have r2 : f64div ((-7378697629483821 : Int) * 2 ^ (-12 - 52 : Int)) 60
      = (-7870610804782742 : Int) * 2 ^ (-18 - 52 : Int) := by
    unfold f64div
    apply round64_eq_of
    · norm_num
    · norm_num [abs_div]
    · norm_num [abs_div]
    · norm_num [abs_lt]
  rw [r2]
  norm_num

/-- The value of two rounded divisions of an integer of at most 53 bits:
within 2^-51 of the quotient by the product, and the quotient itself when
the product divides the integer. -/
theorem scaled_twice (N : Int) (a b : Nat) (ha : 0 < a) (hb : 0 < b)
    (hN : |N| < 2 ^ 53) :
    |f64div (f64div (f64ofInt N) a) b - (N : Rat) / ((a * b : Nat) : Rat)|
        ≤ |(N : Rat) / ((a * b : Nat) : Rat)| / 2 ^ 51
    ∧ (((a * b : Nat) : Int) ∣ N →
        f64div (f64div (f64ofInt N) a) b = (N : Rat) / ((a * b : Nat) : Rat)) := by
  have ha0 : (a : Rat) ≠ 0 := by exact_mod_cast ha.ne'
  have hb0 : (b : Rat) ≠ 0 := by exact_mod_cast hb.ne'
  constructor
  · rw [f64ofInt_exact N hN]
    have := f64div_f64div_sub_le (N : Rat) a b (by exact_mod_cast hb)
    push_cast
    exact this
  · rintro ⟨j, hj⟩
    have hN2 : |(a : Int) * b * j| < 2 ^ 53 := by
      have : (a : Int) * b * j = N := by rw [hj]; push_cast; ring
      rw [this]
      exact hN
    have h := f64div_f64div_exact a b j ha hb hN2
    have hNeq : N = (a : Int) * b * j := by rw [hj]; push_cast; ring
    rw [hNeq, h]
    push_cast
    field_simp

/-- The value of one rounded division of an integer of at most 53 bits:
within 2^-51 of the quotient, and the quotient itself when the divisor
divides the integer. -/
theorem scaled_once (N : Int) (a : Nat) (ha : 0 < a) (hN : |N| < 2 ^ 53) :
    |f64div (f64ofInt N) a - (N : Rat) / (a : Rat)| ≤ |(N : Rat) / (a : Rat)| / 2 ^ 51
    ∧ ((a : Int) ∣ N → f64div (f64ofInt N) a = (N : Rat) / (a : Rat)) := by
  have ha0 : (a : Rat) ≠ 0 := by exact_mod_cast ha.ne'
  constructor
  · rw [f64ofInt_exact N hN]
    have h := f64div_sub_le (N : Rat) a
    have hle : |(N : Rat) / (a : Rat)| / 2 ^ 53 ≤ |(N : Rat) / (a : Rat)| / 2 ^ 51 := by
      apply div_le_div_of_nonneg_left (abs_nonneg _) (by positivity)
      norm_num
    exact le_trans h hle
  · rintro ⟨j, hj⟩
    have hN2 : |(a : Int) * j| < 2 ^ 53 := by rw [← hj]; exact hN
    have h := f64div_exact a j ha hN2
    rw [hj, h]
    push_cast
    field_simp

/-- C14 (amended): for a field of a scaled type with scale factor `k`
(`FieldLatLonFine` with 600000, `FieldLatLonCoarse` with 600, `Field10` with
10) the generator emits the extraction of `num` and the store of its
conversion.  When the extraction yields the integer `N` with `|N| < 2^53`:
if `FloatWithoutConversion` is true the stored value is `N` itself; if it is
false, the stored value is the result of the emitted `float64` divisions,
which differs from `N / k` by at most `2^-51` of `N / k` and equals `N / k`
when `k` divides `N`. -/
theorem C14_scaled_field_stores_rounded_quotient (field : fieldType) (k : Nat)
    (hk : scaleFactor field.typ = some k)
    (isSigned : Bool) (conv : NumConv)
    (hcase : numCase field.typ = some (isSigned, conv))
    (sub : SubParsers) (t : Codec) (payload : List Nat) (minLength : Nat)
    (s : State) (N : Int) (off : Nat)
    (hread : extractNumber payload isSigned s.offset s.length = some (N, off))
    (hN : |N| < 2 ^ 53) :
    emitParse field
      = .ok [Simple.extractNumber isSigned, Simple.storeNum field.name conv]
    ∧ ∃ s1 v, execSimples sub t payload minLength
          [Simple.extractNumber isSigned, Simple.storeNum field.name conv] s
          = Step.next s1
        ∧ s1.num = N ∧ s1.offset = off
        ∧ s1.p = s.p.set field.name (Value.float v)
        ∧ (t.FloatWithoutConversion = true → v = (N : Rat))
        ∧ (t.FloatWithoutConversion = false →
            |v - (N : Rat) / (k : Rat)| ≤ |(N : Rat) / (k : Rat)| / 2 ^ 51
            ∧ ((k : Int) ∣ N → v = (N : Rat) / (k : Rat))) := by
  refine ⟨emitParse_numCase field isSigned conv hcase, ?_⟩
  have hconv : ∃ v, convert t N conv = Value.float v
      ∧ (t.FloatWithoutConversion = true → v = (N : Rat))
      ∧ (t.FloatWithoutConversion = false →
          |v - (N : Rat) / (k : Rat)| ≤ |(N : Rat) / (k : Rat)| / 2 ^ 51
          ∧ ((k : Int) ∣ N → v = (N : Rat) / (k : Rat))) := by
    unfold scaleFactor at hk
    split at hk
    · rename_i heq
      rw [heq] at hcase
      cases hcase
      cases hk
      have h2 := scaled_twice N 10000 60 (by norm_num) (by norm_num) hN
      simp only [convert]
      cases hf : t.FloatWithoutConversion
      · refine ⟨f64div (f64div (f64ofInt N) 10000) 60,
          (by simp only [Bool.not_false, if_true]), (fun h => by cases h), (fun _ => ?_)⟩
        norm_num at h2 ⊢
        exact h2
      · exact ⟨f64ofInt N,
          (by simp only [Bool.not_true, Bool.false_eq_true, if_false]),
          (fun _ => f64ofInt_exact N hN), (fun h => by cases h)⟩
    · rename_i heq
      rw [heq] at hcase
      cases hcase
      cases hk
      have h2 := scaled_twice N 10 60 (by norm_num) (by norm_num) hN
      simp only [convert]
      cases hf : t.FloatWithoutConversion
      · refine ⟨f64div (f64div (f64ofInt N) 10) 60,
          (by simp only [Bool.not_false, if_true]), (fun h => by cases h), (fun _ => ?_)⟩
        norm_num at h2 ⊢
        exact h2
      · exact ⟨f64ofInt N,
          (by simp only [Bool.not_true, Bool.false_eq_true, if_false]),
          (fun _ => f64ofInt_exact N hN), (fun h => by cases h)⟩
    · rename_i heq
      rw [heq] at hcase
      cases hcase
      cases hk
      have h2 := scaled_once N 10 (by norm_num) hN
      simp only [convert]
      cases hf : t.FloatWithoutConversion
      · refine ⟨f64div (f64ofInt N) 10,
          (by simp only [Bool.not_false, if_true]), (fun h => by cases h), (fun _ => ?_)⟩
        norm_num at h2 ⊢
        exact h2
      · exact ⟨f64ofInt N,
          (by simp only [Bool.not_true, Bool.false_eq_true, if_false]),
          (fun _ => f64ofInt_exact N hN), (fun h => by cases h)⟩
    · cases hk
  obtain ⟨v, hv, hoff, hon⟩ := hconv
  simp only [execSimples, execSimple, hread]
  exact ⟨_, v, rfl, rfl, rfl, by rw [← hv], hoff, hon⟩

/-- C14 (amended) at the field `Latitude` of type `FieldLatLonFine` and a
payload whose 27 bits are the signed value -4. -/
theorem C14_witness :
    emitParse latitudeField
      = .ok [Simple.extractNumber true, Simple.storeNum "Latitude" NumConv.latLonFine]
    ∧ ∃ s1 v, execSimples validSub plainCodec payloadMinusFour 27
          [Simple.extractNumber true, Simple.storeNum "Latitude" NumConv.latLonFine]
          { offset := 0, length := 27 }
          = Step.next s1
        ∧ s1.num = -4 ∧ s1.offset = 27
        ∧ s1.p = ({} : Record).set "Latitude" (Value.float v)
        ∧ (plainCodec.FloatWithoutConversion = true → v = ((-4 : Int) : Rat))
        ∧ (plainCodec.FloatWithoutConversion = false →
            |v - ((-4 : Int) : Rat) / ((600000 : Nat) : Rat)|
              ≤ |((-4 : Int) : Rat) / ((600000 : Nat) : Rat)| / 2 ^ 51
            ∧ (((600000 : Nat) : Int) ∣ (-4 : Int) →
                v = ((-4 : Int) : Rat) / ((600000 : Nat) : Rat))) :=
  C14_scaled_field_stores_rounded_quotient latitudeField 600000 (by rfl) true
    NumConv.latLonFine (by rfl) validSub plainCodec payloadMinusFour 27
    { offset := 0, length := 27 } (-4) 27 (by decide) (by decide)

/-- C14 fails at the field `Latitude` of type `FieldLatLonFine` and a payload
whose 27 bits are the signed value -4: with the scaling applied the stored
value is the `float64` -7870610804782742 / 2^70, the result of the two
rounded divisions by 10000 and by 60, which is not the rational
-4 / 600000. -/
theorem C14_stored_value_is_not_the_quotient :
    plainCodec.FloatWithoutConversion = false
    ∧ extractNumber payloadMinusFour true 0 27 = some (-4, 27)
    ∧ execSimples validSub plainCodec payloadMinusFour 27
          [Simple.extractNumber true, Simple.storeNum "Latitude" NumConv.latLonFine]
          { offset := 0, length := 27 }
        = Step.next
            { offset := 27, length := 27, num := -4,
              p := ({} : Record).set "Latitude"
                (Value.float (-7870610804782742 / 2 ^ 70)),
              trace := [Event.read 0 27] }
    ∧ (-7870610804782742 / 2 ^ 70 : Rat) ≠ (-4 : Rat) / 600000 := by
  have hread : extractNumber payloadMinusFour true 0 27 = some (-4, 27) := by decide
  refine ⟨rfl, hread, ?_, by norm_num⟩
  simp only [execSimples, execSimple, hread, convert, plainCodec, Bool.not_false,
    if_true, f64div_minus_four]
  rfl

/-! ## Types without a decode case (C15) -/

/-- A named non-array field of a type outside the type switch stops the
generator with the panic of the default case (line 492). -/
theorem emitField_unhandled_scalar (fields : List fieldType) (fieldI : Nat)
    (field : fieldType) (hname : field.name ≠ "Valid")
    (hemb : field.embedded = false) (harr : field.isArray = false)
    (hchecked : field.typ ∉ checkedSubRecords)
    (hplain : field.typ ∉ plainSubRecords) (hstr : field.typ ≠ "string")
    (hnum : numCase field.typ = none) :
    emitField fields fieldI field = .error ("unhandled type: " ++ field.typ) := by
  unfold emitField emitParse
  rw [if_neg hname, hemb, harr, if_neg hchecked, if_neg hplain, if_neg hstr, hnum]
  rfl

/-- An array field whose element type is outside the two array cases emits
no statement. -/
theorem emitField_unhandled_array (fields : List fieldType) (fieldI : Nat)
    (field : fieldType) (hname : field.name ≠ "Valid")
    (hemb : field.embedded = false) (harr : field.isArray = true)
    (helem : field.typ ∉ elemArrayTypes) (hbyte : field.typ ≠ "byte") :
    emitField fields fieldI field = .ok [] := by
  unfold emitField emitArray
  rw [if_neg hname, hemb, harr, if_neg helem, if_neg hbyte]
  rfl

/-- C15 fails for arrays: the array branch has no default case.  For the
struct `arrivals`, an array of `FieldETA`, generation succeeds and the
emitted function has no statement: run on 20 bits it returns the zero value
without reading anything.  The same holds for an array of a type unknown to
the generator, `draughtArray`, while a scalar field of that type,
`draughtScalar`, stops the generator with the panic of the default case. -/
theorem C15_arrays_of_unhandled_types_are_ignored :
    generate "ArrivalData" arrivals = .ok arrivalsFunc
    ∧ arrivalsFunc.body = []
    ∧ runFunc validSub plainCodec arrivalsFunc (List.replicate 20 1) 0
        = Outcome.returned (some { Valid := false, fields := [] }) 0 []
    ∧ (∃ fn, generate "DraughtData" draughtArray = .ok fn ∧ fn.body = [])
    ∧ generate "DraughtData" draughtScalar = .error "unhandled type: FieldDraught" := by
  refine ⟨by rfl, rfl, by decide, ⟨_, by rfl, rfl⟩, by rfl⟩

/-! ## String fields (C16) -/

/-- C16 (amended): the generator does not examine the width of a string
field.  For a named non-array field of type `string`, whatever its width,
generation of the field does not fail: the emitted statements are the
length assignment, the call of `extractString` and the store of `str`,
inside the depends-bit guard when the bit is positive. -/
theorem C16_string_field_of_any_width_is_emitted (fields : List fieldType)
    (fieldI : Nat) (field : fieldType) (hname : field.name ≠ "Valid")
    (hemb : field.embedded = false) (harr : field.isArray = false)
    (htyp : field.typ = "string") :
    emitField fields fieldI field
      = .ok (if field.dependsBit > 0 then
               [Stmt.guarded field.dependsBit (if field.dependsAs0 then 0 else 1)
                 [emitLength field, Simple.extractString, Simple.storeStr field.name]]
             else
               [Stmt.simple (emitLength field), Stmt.simple Simple.extractString,
                Stmt.simple (Simple.storeStr field.name)]) := by
  have hparse : emitParse field
      = .ok [Simple.extractString, Simple.storeStr field.name] := by
    unfold emitParse
    rw [htyp]
    rfl
  unfold emitField
  rw [if_neg hname, hemb, harr, hparse]
  simp only [Bool.false_eq_true, if_false]
  split <;> rfl

/-- C16 (amended) at the field `Name string aisWidth:"7"`. -/
theorem C16_witness :
    emitField [oddTextField] 0 oddTextField
      = .ok (if oddTextField.dependsBit > 0 then
               [Stmt.guarded oddTextField.dependsBit
                 (if oddTextField.dependsAs0 then 0 else 1)
                 [emitLength oddTextField, Simple.extractString,
                  Simple.storeStr oddTextField.name]]
             else
               [Stmt.simple (emitLength oddTextField), Stmt.simple Simple.extractString,
                Stmt.simple (Simple.storeStr oddTextField.name)]) :=
  C16_string_field_of_any_width_is_emitted [oddTextField] 0 oddTextField
    (by decide) rfl rfl rfl

/-- C16 fails at the struct `oddText`, whose string field has a width of 7
bits: generation succeeds, and the emitted function reads the 7 bits as one
character. -/
theorem C16_width_not_multiple_of_six_is_accepted :
    ¬ (6 ∣ (7 : Int))
    ∧ generate "NamedData" oddText = .ok oddTextFunc
    ∧ runFunc validSub plainCodec oddTextFunc [0, 0, 0, 0, 0, 1, 1] 0
        = Outcome.returned
            (some { Valid := false, fields := [("Name", Value.str [65])] })
            7 [Event.read 0 7] := by
  refine ⟨by decide, by rfl, by decide⟩

/-! ## The depends-bit guard and the minimum length (C17) -/

/-- Block-free statements contain no guard. -/
theorem hasGuard_map_simple (body : List Simple) :
    hasGuard (body.map Stmt.simple) = false := by
  unfold hasGuard
  induction body with
  | nil => rfl
  | cons stmt rest ih =>
    rw [List.map_cons, List.any_cons, ih]
    rfl

/-- The scan of a named field with a tag: the record keeps the depends-on
bit of the tag loop, and the new minimum length is the one of the tag loop,
less the width exactly when `removesWidth` holds for the record. -/
theorem scanField_removesWidth (m : Nat) (fieldName : String) (rest : List String)
    (type : TypeExpr) (tags : List Tag) (m1 : Nat) (ft : fieldType)
    (hscan : scanField m { names := fieldName :: rest, type := type, tag := some tags }
      = .ok (m1, ft)) :
    ft.dependsBit = (tags.foldl tagStep { minLength := m }).dependsBit
    ∧ ft.width = (tags.foldl tagStep { minLength := m }).width
    ∧ m1 = (if removesWidth ft = true
            then ((tags.foldl tagStep { minLength := m }).minLength + two64
                    - uint ft.width) % two64
            else (tags.foldl tagStep { minLength := m }).minLength) := by
  unfold scanField at hscan
  simp only at hscan
  split at hscan
  · cases hscan
  injection hscan with hscan
  injection hscan with h1 h2
  subst h2
  refine ⟨rfl, rfl, ?_⟩
  rw [← h1]
  unfold removesWidth
  simp only [decide_eq_true_eq]

/-- The statements emitted for a field other than `Valid` contain the
depends-bit guard exactly when the field is a named non-array field with a
positive depends-on bit. -/
theorem emitField_hasGuard_iff (fields : List fieldType) (fieldI : Nat)
    (field : fieldType) (stmts : List Stmt)
    (hemit : emitField fields fieldI field = .ok stmts) :
    hasGuard stmts = true
      ↔ (field.name ≠ "Valid" ∧ field.embedded = false ∧ field.isArray = false
          ∧ field.dependsBit > 0) := by
  unfold emitField at hemit
  by_cases hname : field.name = "Valid"
  · rw [if_pos hname] at hemit
    cases hemit
    constructor
    · intro h; cases h
    · intro h; exact (h.1 hname).elim
  · rw [if_neg hname] at hemit
    cases hemb : field.embedded with
    | true =>
      rw [hemb] at hemit
      simp only [if_true] at hemit
      cases hemit
      constructor
      · intro h; cases h
      · intro h; cases h.2.1
    | false =>
      rw [hemb] at hemit
      simp only [Bool.false_eq_true, if_false] at hemit
      cases harr : field.isArray with
      | true =>
        rw [harr] at hemit
        simp only [if_true] at hemit
        cases hemit
        rw [hasGuard_map_simple]
        constructor
        · intro h; cases h
        · intro h; cases h.2.2.1
      | false =>
        rw [harr] at hemit
        simp only [Bool.false_eq_true, if_false] at hemit
        cases hp : emitParse field with
        | error e => rw [hp] at hemit; cases hemit
        | ok parse =>
          rw [hp] at hemit
          simp only at hemit
          by_cases hbit : field.dependsBit > 0
          · rw [if_pos hbit] at hemit
            cases hemit
            constructor
            · intro _; exact ⟨hname, rfl, rfl, hbit⟩
            · intro _; rfl
          · rw [if_neg hbit] at hemit
            cases hemit
            rw [hasGuard_map_simple]
            constructor
            · intro h; cases h
            · intro h; exact (hbit h.2.2.2).elim

/-- C17 fails at the struct `bitZeroStruct`, whose field of 8 bits depends
on bit 0: the scan takes the width out of the minimum length, which is 0,
but the emitted function has no guard, so that the field is read whatever
the payload holds, and a payload of one bit, which passes the check of the
minimum length, is read beyond its end.  It fails as well at the struct
`conditionalBytes`, a byte array that depends on bit 10: the minimum length
is 0 and the slice is taken without a guard. -/
theorem C17_width_removed_without_guard :
    (scanFields bitZeroStruct = .ok (0, [flaggedField])
      ∧ removesWidth flaggedField = true
      ∧ generate "FlaggedData" bitZeroStruct = .ok bitZeroFunc
      ∧ hasGuard bitZeroFunc.body = false
      ∧ runFunc validSub plainCodec bitZeroFunc (List.replicate 8 0) 0
          = Outcome.returned
              (some { Valid := false, fields := [("Flagged", Value.num 0)] }) 8
              [Event.read 0 8]
      ∧ runFunc validSub plainCodec bitZeroFunc [0] 0
          = Outcome.panicked [Event.read 0 8])
    ∧ (scanFields conditionalBytes = .ok (0, [dataField])
      ∧ removesWidth dataField = true
      ∧ generate "BinaryBroadcastMessage" conditionalBytes = .ok conditionalBytesFunc
      ∧ hasGuard conditionalBytesFunc.body = false) := by
  refine ⟨⟨by rfl, by decide, by rfl, by decide, by decide, by decide⟩,
    by rfl, by decide, by rfl, by decide⟩

/-! ## The cursor after a struct of plain fields (C18) -/

/-- A sequence of statements that runs to its end runs through each of its
parts. -/
theorem execStmts_append_next_inv (sub : SubParsers) (t : Codec) (payload : List Nat)
    (minLength : Nat) (stmts more : List Stmt) (s s2 : State)
    (h : execStmts sub t payload minLength (stmts ++ more) s = Step.next s2) :
    ∃ s1, execStmts sub t payload minLength stmts s = Step.next s1
      ∧ execStmts sub t payload minLength more s1 = Step.next s2 := by
  cases hrun : execStmts sub t payload minLength stmts s with
  | next s1 =>
    rw [execStmts_append_next sub t payload minLength stmts more s s1 hrun] at h
    exact ⟨s1, rfl, h⟩
  | ret r s1 =>
    rw [execStmts_append_ret sub t payload minLength stmts more r s s1 hrun] at h
    cases h
  | fault s1 =>
    rw [execStmts_append_fault sub t payload minLength stmts more s s1 hrun] at h
    cases h

/-- The statements of one plain record, when they run to their end, leave
the cursor advanced by the width of the record. -/
theorem exec_plain_record_next (sub : SubParsers) (t : Codec) (payload : List Nat)
    (minLength : Nat) (fields : List fieldType) (fieldI : Nat) (ft : fieldType)
    (hrec : PlainRecord ft) (hw : ft.width < two64) (stmts : List Stmt)
    (hemit : emitField fields fieldI ft = .ok stmts) (s s1 : State)
    (hrun : execStmts sub t payload minLength stmts s = Step.next s1) :
    s1.offset = s.offset + ft.width.toNat := by
  by_cases hroom : s.offset + ft.width.toNat ≤ payload.length
  · obtain ⟨stmts2, s2, hemit2, hrun2, hoff2, -⟩ :=
      exec_plain_record sub t payload minLength fields fieldI ft hrec hw s hroom
    rw [hemit] at hemit2
    cases hemit2
    rw [hrun] at hrun2
    cases hrun2
    exact hoff2
  · obtain ⟨hemb, harr, hdep, hvar, hw0, hvalid, htyp⟩ := hrec
    by_cases hv : ft.name = "Valid"
    · unfold emitField at hemit
      rw [if_pos hv] at hemit
      cases hemit
      simp only [execStmts, execStmt, execSimple] at hrun
      cases hrun
      simp only [hvalid hv, Int.toNat_zero, Nat.add_zero]
    · have hlenEq : uint ft.width = ft.width.toNat := uint_toNat ft.width hw0 hw
      have hhead : ∀ parse, emitParse ft = .ok parse →
          emitField fields fieldI ft
            = .ok ((Simple.lengthConst ft.width :: parse).map Stmt.simple) := by
        intro parse hp
        unfold emitField
        rw [if_neg hv]
        simp only [hemb, harr, Bool.false_eq_true, if_false, hp, hdep]
        simp only [emitLength, hvar, Bool.false_eq_true, if_false]
        rfl
      rcases emitParse_extracted ft (htyp hv) with hp | ⟨isSigned, conv, hp⟩
      · rw [hhead _ hp] at hemit
        cases hemit
        rw [execStmts_map_simple] at hrun
        simp only [execSimples, execSimple, hlenEq, extractString, if_neg hroom] at hrun
        cases hrun
      · rw [hhead _ hp] at hemit
        cases hemit
        rw [execStmts_map_simple] at hrun
        simp only [execSimples, execSimple, hlenEq, extractNumber, if_neg hroom] at hrun
        cases hrun

/-- The statements of a list of plain records, when they run to their end,
leave the cursor advanced by the total width of the records. -/
theorem exec_plain_records_next (sub : SubParsers) (t : Codec) (payload : List Nat)
    (minLength : Nat) (fields : List fieldType) (fts : List fieldType) :
    ∀ (fieldI : Nat) (stmts : List Stmt) (s s1 : State),
      (∀ ft ∈ fts, PlainRecord ft) →
      (fts.map (fun ft => ft.width.toNat)).sum < two64 →
      emitFrom fields fieldI fts = .ok stmts →
      execStmts sub t payload minLength stmts s = Step.next s1 →
      s1.offset = s.offset + (fts.map (fun ft => ft.width.toNat)).sum := by
  induction fts with
  | nil =>
    intro fieldI stmts s s1 _ _ hemit hrun
    simp only [emitFrom] at hemit
    cases hemit
    simp only [execStmts] at hrun
    cases hrun
    simp
  | cons ft rest ih =>
    intro fieldI stmts s s1 hall hsum hemit hrun
    simp only [List.map_cons, List.sum_cons] at hsum ⊢
    have hrec := hall ft (List.mem_cons_self _ _)
    have hw : ft.width < two64 := by
      have h0 := hrec.2.2.2.2.1
      have : (ft.width.toNat : Int) = ft.width := Int.toNat_of_nonneg h0
      have h64 := two64_eq
      omega
    rw [emitFrom] at hemit
    cases hfield : emitField fields fieldI ft with
    | error e => rw [hfield] at hemit; cases hemit
    | ok first =>
      rw [hfield] at hemit
      simp only at hemit
      cases hrest : emitFrom fields (fieldI + 1) rest with
      | error e => rw [hrest] at hemit; cases hemit
      | ok more =>
        rw [hrest] at hemit
        cases hemit
        obtain ⟨s2, hrun1, hrun2⟩ :=
          execStmts_append_next_inv sub t payload minLength first more s s1 hrun
        have h1 := exec_plain_record_next sub t payload minLength fields fieldI ft
          hrec hw first hfield s s2 hrun1
        have h2 := ih (fieldI + 1) more s2 s1
          (fun x hx => hall x (List.mem_cons_of_mem _ hx)) (by omega) hrest hrun2
        omega

/-- C18 (amended): for a struct of plain fields (named fields of type
`string` or of a numeric type, with no `aisDependsBit` pair and at most one
`aisWidth` pair, which is not negative, and a field `Valid` without a
width) whose widths total less than 2^63, the minimum length of the emitted
parser is the total width, and every run that passes the prologue and
returns a value leaves the cursor at the starting offset plus the minimum
length. -/
theorem C18_plain_struct_ends_at_minLength (name : String)
    (astFields : List AstField) (fn : ParseFunc)
    (hgen : generate name astFields = .ok fn)
    (hplain : ∀ f ∈ astFields, plainField f = true)
    (hwidth : totalWidth astFields < two63)
    (sub : SubParsers) (t : Codec) (payload : List Nat) (offset : Nat)
    (p : Record) (off : Nat) (trace : List Event)
    (hpass : tooShort t fn payload offset = false)
    (hrun : runFunc sub t fn payload offset = Outcome.returned (some p) off trace) :
    uint fn.minLength = totalWidth astFields
    ∧ off = offset + uint fn.minLength := by
  have h6364 : two63 < two64 := by decide
  obtain ⟨fts, hscan, hall, hsum⟩ := scanFrom_plain astFields 0 [] (by decide) hplain
  rw [Nat.zero_add, Nat.mod_eq_of_lt (by omega), List.nil_append] at hscan
  have hscan2 : scanFields astFields = .ok (totalWidth astFields, fts) := hscan
  obtain ⟨-, -, hmin⟩ := generate_prologue name astFields fn _ fts hscan2 hgen
  refine ⟨hmin, ?_⟩
  rw [hmin]
  cases hemit : emitFields fts with
  | error e =>
    unfold generate at hgen
    rw [hscan2] at hgen
    simp only [hemit] at hgen
    cases hgen
  | ok stmts =>
    have hbody := generate_body name astFields fn _ fts stmts hscan2 hemit hgen
    unfold runFunc at hrun
    rw [hpass] at hrun
    simp only [Bool.false_eq_true, if_false] at hrun
    rw [hbody] at hrun
    have hend : ∀ s1, execStmts sub t payload (uint fn.minLength) stmts
        { offset := offset } = Step.next s1 → s1.offset = offset + totalWidth astFields := by
      intro s1 h1
      have := exec_plain_records_next sub t payload (uint fn.minLength) fts fts 0
        stmts { offset := offset } s1 hall (by rw [hsum]; omega) hemit h1
      rw [hsum] at this
      exact this
    cases hfields : execStmts sub t payload (uint fn.minLength) stmts
        { offset := offset } with
    | next s1 =>
      rw [execStmts_append_next sub t payload _ stmts _ _ s1 hfields] at hrun
      have hoff := hend s1 hfields
      by_cases hpkt : isPacketType name = true
      · by_cases hover : s1.offset > payload.length
        · simp only [hpkt, if_true, execStmts, execStmt, execSimple, if_pos hover] at hrun
          cases hrun
        · simp only [hpkt, if_true, execStmts, execStmt, execSimple, if_neg hover] at hrun
          cases hrun
          exact hoff
      · simp only [hpkt, if_false, execStmts] at hrun
        cases hrun
        exact hoff
    | ret r s1 =>
      rw [execStmts_append_ret sub t payload _ stmts _ r _ s1 hfields] at hrun
      have := execStmts_ret_none sub t payload _ stmts _ s1 r hfields
      subst this
      cases hrun
    | fault s1 =>
      rw [execStmts_append_fault sub t payload _ stmts _ _ s1 hfields] at hrun
      cases hrun

/-- C18 (amended) at the struct `plainStruct` with a payload of 20 bits read
from the cursor 3: the cursor ends at 17, the starting offset plus the
minimum length 14. -/
theorem C18_witness :
    runFunc validSub plainCodec plainStructFunc (List.replicate 20 0) 3
      = Outcome.returned
          (some { Valid := true,
                  fields := [("Name", Value.str [64, 64]), ("Spare", Value.num 0)] })
          17 [Event.read 3 2, Event.read 5 12]
    ∧ uint plainStructFunc.minLength = totalWidth plainStruct
    ∧ 17 = 3 + uint plainStructFunc.minLength :=
  ⟨by decide,
   C18_plain_struct_ends_at_minLength "NamedData" plainStruct plainStructFunc
     (by rfl) (by decide) (by decide) validSub plainCodec (List.replicate 20 0) 3
     { Valid := true,
       fields := [("Name", Value.str [64, 64]), ("Spare", Value.num 0)] }
     17 [Event.read 3 2, Event.read 5 12] (by decide) (by decide)⟩

/-- C18 fails at the struct `wideValid`, whose field `Valid` carries a width
of one bit: the minimum length is 3, the emitted function sets `Valid`
without a read, and a run on 3 bits from the cursor 0 returns its value with
the cursor at 2. -/
theorem C18_valid_field_with_width_is_not_read :
    generate "FlagData" wideValid = .ok wideValidFunc
    ∧ uint wideValidFunc.minLength = 3
    ∧ tooShort plainCodec wideValidFunc [1, 0, 1] 0 = false
    ∧ runFunc validSub plainCodec wideValidFunc [1, 0, 1] 0
        = Outcome.returned
            (some { Valid := true, fields := [("Spare", Value.num 2)] })
            2 [Event.read 0 2] := by
  refine ⟨by rfl, by decide, by decide, by decide⟩

/-! ## Signed and unsigned reads (C19) -/

/-- The `isSigned` argument of a numeric case is `true` exactly for the
signed types, and `false` exactly for the unsigned ones. -/
theorem numCase_signed (typ : String) (isSigned : Bool) (conv : NumConv)
    (hcase : numCase typ = some (isSigned, conv)) :
    (isSigned = true ↔ typ ∈ signedTypes)
    ∧ (isSigned = false ↔ typ ∈ unsignedTypes)
    ∧ (typ = "bool" → conv = NumConv.bool) := by
  unfold numCase at hcase
  split at hcase
  all_goals first
    | (cases hcase; decide)
    | cases hcase

/-- The block-free statements of a list of block-free statements. -/
theorem simplesOf_map_simple (body : List Simple) :
    simplesOf (body.map Stmt.simple) = body := by
  induction body with
  | nil => rfl
  | cons stmt rest ih => rw [List.map_cons, simplesOf, ih]

/-- A call of `extractNumber` in the statements of the type switch is signed
exactly for the signed types. -/
theorem emitParse_extractNumber_mem (field : fieldType) (parse : List Simple)
    (hparse : emitParse field = .ok parse) (isSigned : Bool)
    (hmem : Simple.extractNumber isSigned ∈ parse) :
    (isSigned = true ↔ field.typ ∈ signedTypes) := by
  unfold emitParse at hparse
  by_cases h1 : field.typ ∈ checkedSubRecords
  · rw [if_pos h1] at hparse
    cases hparse
    by_cases hw : field.width > 0
    · rw [if_pos hw] at hmem
      simp at hmem
    · rw [if_neg hw] at hmem
      simp at hmem
  · rw [if_neg h1] at hparse
    by_cases h2 : field.typ ∈ plainSubRecords
    · rw [if_pos h2] at hparse
      cases hparse
      simp at hmem
    · rw [if_neg h2] at hparse
      by_cases h3 : field.typ = "string"
      · rw [if_pos h3] at hparse
        cases hparse
        simp at hmem
      · rw [if_neg h3] at hparse
        cases hcase : numCase field.typ with
        | none => rw [hcase] at hparse; cases hparse
        | some res =>
          obtain ⟨b, conv⟩ := res
          rw [hcase] at hparse
          cases hparse
          simp only [List.mem_cons, Simple.extractNumber.injEq, reduceCtorEq,
            List.mem_singleton, List.not_mem_nil, or_false] at hmem
          subst hmem
          exact (numCase_signed field.typ isSigned conv hcase).1

/-- The statements of the array elements are calls of the sub-parser and
tests of the results. -/
theorem mem_emitElems (field : fieldType) (stmt : Simple) (count : Nat) :
    ∀ i, stmt ∈ emitElems field i count →
      (∃ j, stmt = Simple.elem j field.typ) ∨ (∃ j, stmt = Simple.elemCheck j) := by
  induction count with
  | zero => intro i h; simp [emitElems] at h
  | succ n ih =>
    intro i h
    rw [emitElems] at h
    rcases List.mem_append.mp h with h1 | h1
    · rcases List.mem_cons.mp h1 with h2 | h2
      · exact Or.inl ⟨i, h2⟩
      · split at h2
        · rw [List.mem_singleton] at h2
          exact Or.inr ⟨i, h2⟩
        · cases h2
    · exact ih (i + 1) h1

/-- The array branch emits no call of `extractNumber`. -/
theorem extractNumber_not_mem_emitArray (fields : List fieldType) (fieldI : Nat)
    (field : fieldType) (isSigned : Bool) :
    Simple.extractNumber isSigned ∉ emitArray fields fieldI field := by
  intro hmem
  unfold emitArray at hmem
  split at hmem
  · rcases List.mem_cons.mp hmem with h | h
    · cases h
    · rcases List.mem_append.mp h with h1 | h1
      · rcases mem_emitElems field _ _ 0 h1 with ⟨j, hj⟩ | ⟨j, hj⟩ <;> cases hj
      · rw [List.mem_singleton] at h1
        cases h1
  · split at hmem
    · have hlen : ∀ isSigned, emitByteLength fields fieldI field
          ≠ Simple.extractNumber isSigned := by
        intro b
        unfold emitByteLength
        by_cases hw : field.width < 0
        · rw [if_pos hw]
          by_cases hlast : fieldI + 1 = fields.length
          · rw [if_pos hlast]; intro h; cases h
          · rw [if_neg hlast]; intro h; cases h
        · rw [if_neg hw]; intro h; cases h
      rcases List.mem_cons.mp hmem with h | h
      · exact hlen isSigned h.symm
      · rcases List.mem_cons.mp h with h1 | h1
        · cases h1
        · rw [List.mem_singleton] at h1
          cases h1
    · cases hmem

/-- The statements emitted for a named non-array field other than `Valid`:
the length assignment and the statements of the type switch, inside the
guard or not. -/
theorem emitField_simplesOf (fields : List fieldType) (fieldI : Nat)
    (field : fieldType) (stmts : List Stmt)
    (hname : field.name ≠ "Valid") (hemb : field.embedded = false)
    (harr : field.isArray = false)
    (hemit : emitField fields fieldI field = .ok stmts) :
    ∃ parse, emitParse field = .ok parse
      ∧ simplesOf stmts = emitLength field :: parse := by
  unfold emitField at hemit
  rw [if_neg hname] at hemit
  simp only [hemb, harr, Bool.false_eq_true, if_false] at hemit
  cases hp : emitParse field with
  | error e => rw [hp] at hemit; cases hemit
  | ok parse =>
    rw [hp] at hemit
    simp only at hemit
    refine ⟨parse, rfl, ?_⟩
    by_cases hbit : field.dependsBit > 0
    · rw [if_pos hbit] at hemit
      cases hemit
      simp only [simplesOf, List.append_nil]
    · rw [if_neg hbit] at hemit
      cases hemit
      exact simplesOf_map_simple _

/-- C19 (amended): in the statements emitted for a field, a call of
`extractNumber` is signed exactly when the type of the field is `int16`,
`FieldLatLonFine` or `FieldLatLonCoarse`.  For a named non-array field other
than `Valid` the statements (inside the guard, if there is one) are the
length assignment, the call of `extractNumber` and the store: the call is
signed for the three signed types, unsigned for `bool`, `uint8`, `uint16`,
`uint32` and `Field10`, and for `bool` the value stored when the extraction
yields `N` is the truth value of `N == 1`. -/
theorem C19_signed_reads_of_scalar_fields (fields : List fieldType)
    (fieldI : Nat) (field : fieldType) (stmts : List Stmt)
    (hemit : emitField fields fieldI field = .ok stmts) :
    (∀ isSigned, Simple.extractNumber isSigned ∈ simplesOf stmts →
        (isSigned = true ↔ field.typ ∈ signedTypes))
    ∧ (field.name ≠ "Valid" → field.embedded = false → field.isArray = false →
        (field.typ ∈ signedTypes →
          ∃ conv, simplesOf stmts
            = [emitLength field, Simple.extractNumber true,
               Simple.storeNum field.name conv])
        ∧ (field.typ ∈ unsignedTypes →
          ∃ conv, simplesOf stmts
            = [emitLength field, Simple.extractNumber false,
               Simple.storeNum field.name conv])
        ∧ (field.typ = "bool" →
            simplesOf stmts
              = [emitLength field, Simple.extractNumber false,
                 Simple.storeNum field.name NumConv.bool]
            ∧ ∀ (sub : SubParsers) (t : Codec) (payload : List Nat)
                (minLength : Nat) (s : State) (N : Int) (off : Nat),
              extractNumber payload false s.offset s.length = some (N, off) →
              execSimples sub t payload minLength
                  [Simple.extractNumber false,
                   Simple.storeNum field.name NumConv.bool] s
                = Step.next { s with
                    trace := s.trace ++ [Event.read s.offset s.length]
                    num := N
                    offset := off
                    p := s.p.set field.name (Value.bool (decide (N = 1))) })) := by
  constructor
  · intro isSigned hmem
    by_cases hname : field.name = "Valid"
    · unfold emitField at hemit
      rw [if_pos hname] at hemit
      cases hemit
      simp [simplesOf] at hmem
    · cases hemb : field.embedded with
      | true =>
        unfold emitField at hemit
        rw [if_neg hname, hemb] at hemit
        simp only [if_true] at hemit
        cases hemit
        simp [simplesOf] at hmem
      | false =>
        cases harr : field.isArray with
        | true =>
          unfold emitField at hemit
          rw [if_neg hname, hemb, harr] at hemit
          simp only [Bool.false_eq_true, if_false, if_true] at hemit
          cases hemit
          rw [simplesOf_map_simple] at hmem
          exact (extractNumber_not_mem_emitArray fields fieldI field isSigned hmem).elim
        | false =>
          obtain ⟨parse, hparse, hs⟩ :=
            emitField_simplesOf fields fieldI field stmts hname hemb harr hemit
          rw [hs] at hmem
          rcases List.mem_cons.mp hmem with h | h
          · unfold emitLength at h
            split at h <;> cases h
          · exact emitParse_extractNumber_mem field parse hparse isSigned h
  · intro hname hemb harr
    obtain ⟨parse, hparse, hs⟩ :=
      emitField_simplesOf fields fieldI field stmts hname hemb harr hemit
    have hsigned : ∀ b conv, numCase field.typ = some (b, conv) →
        simplesOf stmts
          = [emitLength field, Simple.extractNumber b, Simple.storeNum field.name conv] := by
      intro b conv hcase
      rw [emitParse_numCase field b conv hcase] at hparse
      cases hparse
      exact hs
    refine ⟨?_, ?_, ?_⟩
    · intro hmem
      simp only [signedTypes, List.mem_cons, List.mem_singleton, List.not_mem_nil,
        or_false] at hmem
      rcases hmem with h | h | h
      · exact ⟨NumConv.int16, hsigned true _ (by rw [h]; rfl)⟩
      · exact ⟨NumConv.latLonFine, hsigned true _ (by rw [h]; rfl)⟩
      · exact ⟨NumConv.latLonCoarse, hsigned true _ (by rw [h]; rfl)⟩
    · intro hmem
      simp only [unsignedTypes, List.mem_cons, List.mem_singleton, List.not_mem_nil,
        or_false] at hmem
      rcases hmem with h | h | h | h | h
      · exact ⟨NumConv.bool, hsigned false _ (by rw [h]; rfl)⟩
      · exact ⟨NumConv.uint8, hsigned false _ (by rw [h]; rfl)⟩
      · exact ⟨NumConv.uint16, hsigned false _ (by rw [h]; rfl)⟩
      · exact ⟨NumConv.uint32, hsigned false _ (by rw [h]; rfl)⟩
      · exact ⟨NumConv.field10, hsigned false _ (by rw [h]; rfl)⟩
    · intro hbool
      refine ⟨hsigned false _ (by rw [hbool]; rfl), ?_⟩
      intro sub t payload minLength s N off hread
      simp only [execSimples, execSimple, hread, convert]

/-- C19 (amended) at the field `Raim bool aisWidth:"1"`: the read is
unsigned, and on a payload whose bit is set the stored value is `true`. -/
theorem C19_witness :
    emitField [raimField] 0 raimField
      = .ok [Stmt.simple (Simple.lengthConst 1),
             Stmt.simple (Simple.extractNumber false),
             Stmt.simple (Simple.storeNum "Raim" NumConv.bool)]
    ∧ (∀ isSigned, Simple.extractNumber isSigned
          ∈ simplesOf [Stmt.simple (Simple.lengthConst 1),
             Stmt.simple (Simple.extractNumber false),
             Stmt.simple (Simple.storeNum "Raim" NumConv.bool)] →
        (isSigned = true ↔ raimField.typ ∈ signedTypes))
    ∧ execSimples validSub plainCodec [1] 1
          [Simple.extractNumber false, Simple.storeNum "Raim" NumConv.bool]
          { offset := 0, length := 1 }
        = Step.next
            { offset := 1, length := 1, num := 1,
              p := { Valid := false, fields := [("Raim", Value.bool true)] },
              trace := [Event.read 0 1] } :=
  ⟨by rfl,
   (C19_signed_reads_of_scalar_fields [raimField] 0 raimField
      [Stmt.simple (Simple.lengthConst 1), Stmt.simple (Simple.extractNumber false),
       Stmt.simple (Simple.storeNum "Raim" NumConv.bool)] (by rfl)).1,
   by decide⟩

/-- C19 fails for the field `Valid` and for arrays.  In the struct
`wideValid` the field `Valid bool aisWidth:"1"` is set to `true` without a
read: on the payload 0, 1, 0, whose first bit is 0, the parser returns
`Valid = true` and its only read is the one of `Spare`.  For the struct
`samples`, an array of `int16`, the emitted function has no statement, so
that nothing is read as a signed number. -/
theorem C19_valid_and_array_fields_are_not_read :
    (generate "FlagData" wideValid = .ok wideValidFunc
      ∧ runFunc validSub plainCodec wideValidFunc [0, 1, 0] 0
          = Outcome.returned
              (some { Valid := true, fields := [("Spare", Value.num 1)] })
              2 [Event.read 0 2])
    ∧ (generate "SampleData" samples = .ok samplesFunc
      ∧ samplesFunc.body = []
      ∧ runFunc validSub plainCodec samplesFunc (List.replicate 16 1) 0
          = Outcome.returned (some { Valid := false, fields := [] }) 0 []) := by
  refine ⟨⟨by rfl, by decide⟩, by rfl, rfl, by decide⟩

end ParserGenerator
